import Mathlib

/-!
# go-poolio: a fixed-unit buffer pool

Shallow embedding of `poolio.go`.

* A `_Pool` object lives in a heap (`State.nodes`); a `*_Pool` pointer is an index into it.
* A `[]byte` value that points into the arena is a slice header `Slice` (offset, len, cap)
  over the backing array `State.mem`.
* A `chan []byte` is a `Chan`: its buffered values, its capacity and its closed flag.
  `storageChan` is created once by the package-level `New` and copied by reference into every
  branch (`storageChan: pool.storageChan`), so the state holds that one channel.
  `storageChanRead` is created per node and never shared, so it is stored in the node.
* `mutex` is a `chan interface{}` of capacity 1 that only ever carries `true`; it is modelled
  by the three states `Mutex`: empty, holding a value, and empty with a goroutine blocked
  receiving from it; a send on the last is handed to that goroutine.
* Every call runs on its own until it returns, blocks or panics (`Outcome`).  A call that
  blocks reports the state at the blocking point together with the slice it still holds.
  The sequences of calls of `Reach` do not continue a blocked call when a later call would
  wake it.  Goroutines blocked on the two data channels are not recorded.
* The continuations that are given are those of a `close` blocked in its deferred `unlock`:
  once the `lock` of a later call has handed its value to that receive, `close` returns
  `nil`; a `Close` that called it goes on with its last lines, `Pool.CloseLeave`, and a
  `close` that called it from its loop over the branches goes on with `Pool.closeLeave`.
* Memory is taken to be sufficient: `make` fails only by the size checks of the runtime
  (`makeSlice`, `Chan.makeSized`).
* Go's `int` is 64 bit: products are wrapped by `wrapInt`.
-/

namespace Poolio

/-- Byte values of a `[]byte`. -/
abbrev Byte := Nat

/-- The three error values of the package. -/
inductive Err where
  | ErrPoolIsClosed
  | ErrPoolStorageSizeLessZero
  | ErrPoolBranchStorageSizeMoreParent
  deriving DecidableEq, Repr

/-- Slice header of a `[]byte` into the arena; the nil slice is `⟨0, 0, 0⟩`. -/
structure Slice where
  off : Nat
  len : Nat
  cap : Nat
  deriving DecidableEq, Repr

/-- Buffered channel of slices (`chan []byte`). -/
structure Chan where
  buf : List Slice
  cap : Nat
  closed : Bool
  deriving DecidableEq, Repr

/-- State of the channel `mutex` (capacity 1): `free` is empty, `held` holds a value,
`waiting` is empty with a goroutine blocked in `<-mutex`. -/
inductive Mutex where
  | free
  | held
  | waiting
  deriving DecidableEq, Repr

/-- The struct `_Pool`; `storageChan` is `State.storageChan`. -/
structure Pool where
  mutex : Mutex
  name : String
  parent : Option Nat
  branch : List (String × Nat)
  unitLength : Int
  unitAmount : Int
  storageLength : Int
  storageArray : Option Slice
  storageChanRead : Chan
  isClosed : Bool
  deriving DecidableEq, Repr

/-- Program state: the heap of pool objects, the shared free queue and the arena bytes. -/
structure State where
  nodes : List Pool
  storageChan : Chan
  mem : List Byte
  deriving DecidableEq, Repr

/-- How a call ends: it returns, it blocks forever (holding `held`), it panics, or the
recursion budget of the model is used up. -/
inductive Outcome (α : Type) where
  | ret (v : α) (s : State)
  | block (s : State) (held : List Slice)
  | panic
  | fuel
  deriving DecidableEq, Repr

/-- Go's wrapping of a mathematical integer into `int` (64 bit, two's complement). -/
def wrapInt (x : Int) : Int := (x + 2 ^ 63) % 2 ^ 64 - 2 ^ 63

/-! ## Slices and `copy` -/

/-- The nil slice. -/
def Slice.nil : Slice := ⟨0, 0, 0⟩

/-- Slice expression `a[lo:hi]`: panics (`none`) unless `0 ≤ lo ≤ hi ≤ cap(a)`. -/
def Slice.slice (a : Slice) (lo hi : Int) : Option Slice :=
  if 0 ≤ lo ∧ lo ≤ hi ∧ hi ≤ (a.cap : Int) then
    some ⟨a.off + lo.toNat, hi.toNat - lo.toNat, a.cap - lo.toNat⟩
  else none

/-- Bytes a slice currently shows. -/
def Slice.bytes (mem : List Byte) (a : Slice) : List Byte :=
  (mem.drop a.off).take a.len

/-- Number of bytes `copy` moves between a destination and a source of these lengths. -/
def copyLen (dstLen srcLen : Nat) : Nat := min dstLen srcLen

/-- Effect of `copy(dst, p)` on the arena when `dst` is an arena slice. -/
def copyToMem (mem : List Byte) (dst : Slice) (p : List Byte) : List Byte :=
  let n := copyLen dst.len p.length
  mem.take dst.off ++ p.take n ++ mem.drop (dst.off + n)

/-- Effect of `copy(p, src)` on the caller's buffer when `src` is an arena slice. -/
def copyFromMem (mem : List Byte) (p : List Byte) (src : Slice) : List Byte :=
  let n := copyLen p.length src.len
  (src.bytes mem).take n ++ p.drop n

/-! ## Channel operations -/

/-- Result of a channel receive. -/
inductive Recv where
  | got (v : Slice) (ok : Bool) (ch : Chan)
  | blocked
  deriving Repr

/-- Result of a channel send. -/
inductive Send where
  | sent (ch : Chan)
  | blocked
  | panic
  deriving Repr

/-- Receive `v, ok := <-ch`: the oldest buffered value; on a closed empty channel the zero
value with `ok = false`; otherwise the receiver blocks.  A sender blocked on the channel is
not represented, so the receive does not meet it. -/
def Chan.recv (ch : Chan) : Recv :=
  match ch.buf with
  | v :: rest => .got v true { ch with buf := rest }
  | [] => if ch.closed then .got Slice.nil false ch else .blocked

/-- Send `ch <- v`: panics on a closed channel, blocks when the buffer is full.  A receiver
blocked on the channel is not represented, so the send does not meet it. -/
def Chan.send (ch : Chan) (v : Slice) : Send :=
  if ch.closed then .panic
  else if ch.buf.length < ch.cap then .sent { ch with buf := ch.buf ++ [v] }
  else .blocked

/-- Builtin `close(ch)`: panics on a closed channel. -/
def Chan.close (ch : Chan) : Option Chan :=
  if ch.closed then none else some { ch with closed := true }

/-- Fresh channel `make(chan []byte, n)` of `_Pool.New`: panics for negative `n`.  The size
check of the runtime is left out here: `_Pool.New` asks for at most the size of the queue
of its parent. -/
def Chan.make (n : Int) : Option Chan :=
  if 0 ≤ n then some ⟨[], n.toNat, false⟩ else none

/-- Largest size in bytes that the allocator of the runtime accepts (`maxAlloc` of the Go
runtime on 64-bit platforms, `1 << 48`). -/
def maxAlloc : Int := 281474976710656

/-- Fresh slice `make([]byte, n)`: panics for negative `n` and for `n` above `maxAlloc`
(`makeslice: len out of range`). -/
def makeSlice (n : Int) : Option Slice :=
  if 0 ≤ n ∧ n ≤ maxAlloc then some ⟨0, n.toNat, n.toNat⟩ else none

/-- Fresh channel `make(chan []byte, n)` with the size check of the runtime: panics for
negative `n` and when `n` slice headers of 24 bytes do not fit into `maxAlloc` less the 96
bytes of the channel header (`makechan: size out of range`). -/
def Chan.makeSized (n : Int) : Option Chan :=
  if 0 ≤ n ∧ 24 * n ≤ maxAlloc - 96 then some ⟨[], n.toNat, false⟩ else none

/-! ## Heap access and maps -/

/-- Replace the pool object at a pointer. -/
def State.setNode (s : State) (pool : Nat) (nd : Pool) : State :=
  { s with nodes := s.nodes.set pool nd }

/-- Builtin `delete(m, key)` on a branch map. -/
def mapDelete (m : List (String × Nat)) (key : String) : List (String × Nat) :=
  m.filter (fun e => e.1 ≠ key)

/-- Assignment `m[key] = v` on a branch map. -/
def mapInsert (m : List (String × Nat)) (key : String) (v : Nat) : List (String × Nat) :=
  mapDelete m key ++ [(key, v)]

/-! ## Methods -/

/-- Method `lock`: `pool.mutex <- true`.  The send is buffered by an empty channel, handed
over to a goroutine blocked receiving, and blocks when the channel holds a value. -/
def Pool.lock (s : State) (pool : Nat) : Outcome Unit :=
  match s.nodes[pool]? with
  | none => .panic
  | some nd =>
    match nd.mutex with
    | .free => .ret () (s.setNode pool { nd with mutex := .held })
    | .waiting => .ret () (s.setNode pool { nd with mutex := .free })
    | .held => .block s []

/-- Method `unlock`: `<-pool.mutex`.  The receive takes the buffered value and blocks on an
empty channel, where the caller becomes the goroutine blocked receiving. -/
def Pool.unlock (s : State) (pool : Nat) : Outcome Unit :=
  match s.nodes[pool]? with
  | none => .panic
  | some nd =>
    match nd.mutex with
    | .held => .ret () (s.setNode pool { nd with mutex := .free })
    | .free => .block (s.setNode pool { nd with mutex := .waiting }) []
    | .waiting => .block s []

/-- Return `v` through the deferred `pool.unlock()`. -/
def deferUnlock {α : Type} (s : State) (pool : Nat) (v : α) : Outcome α :=
  match Pool.unlock s pool with
  | .ret _ s1 => .ret v s1
  | .block s1 held => .block s1 held
  | .panic => .panic
  | .fuel => .fuel

/-- Method `Read`: returns the new content of `p`, `n` and `err`. -/
def Pool.Read (s : State) (pool : Nat) (p : List Byte) :
    Outcome (List Byte × Int × Option Err) :=
  match s.nodes[pool]? with
  | none => .panic
  | some nd =>
    match nd.storageChanRead.recv with
    | .blocked => .block s []
    | .got unitValue unitCheck ch =>
      if !unitCheck then .ret (p, 0, some .ErrPoolIsClosed) s
      else
        let s1 := s.setNode pool { nd with storageChanRead := ch }
        let n := copyLen p.length unitValue.len
        let p1 := copyFromMem s.mem p unitValue
        match unitValue.slice 0 nd.unitLength with
        | none => .panic
        | some u =>
          match s1.storageChan.send u with
          | .panic => .panic
          | .blocked => .block s1 [u]
          | .sent ch1 => .ret (p1, (n : Int), none) { s1 with storageChan := ch1 }

/-- Method `Write`: returns `n` and `err`. -/
def Pool.Write (s : State) (pool : Nat) (p : List Byte) : Outcome (Int × Option Err) :=
  match Pool.lock s pool with
  | .block s1 held => .block s1 held
  | .panic => .panic
  | .fuel => .fuel
  | .ret _ s1 =>
    match s1.nodes[pool]? with
    | none => .panic
    | some nd =>
      if nd.isClosed then deferUnlock s1 pool (0, some .ErrPoolIsClosed)
      else
        match s1.storageChan.recv with
        | .blocked => .block s1 []
        | .got unitValue _ ch =>
          let n := copyLen unitValue.len p.length
          let s2 : State := { s1 with storageChan := ch, mem := copyToMem s1.mem unitValue p }
          match unitValue.slice 0 (n : Int) with
          | none => .panic
          | some u =>
            match nd.storageChanRead.send u with
            | .panic => .panic
            | .blocked => .block s2 [u]
            | .sent ch1 =>
              deferUnlock (s2.setNode pool { nd with storageChanRead := ch1 }) pool
                ((n : Int), none)

/-- One pass of the drain loop of `close` per buffered value: the `select` takes a buffered
value and sends it to the free queue; with nothing buffered the `default` case ends the loop,
unless the channel is closed, where the receive case stays ready and the loop spins. -/
def drain : Nat → State → Nat → Outcome Unit
  | k, s, pool =>
    match s.nodes[pool]? with
    | none => .panic
    | some nd =>
      match nd.storageChanRead.buf with
      | [] => if nd.storageChanRead.closed then .block s [] else .ret () s
      | unitValue :: rest =>
        match k with
        | 0 => .fuel
        | k + 1 =>
          let s1 := s.setNode pool
            { nd with storageChanRead := { nd.storageChanRead with buf := rest } }
          match s1.storageChan.send unitValue with
          | .panic => .panic
          | .blocked => .block s1 [unitValue]
          | .sent ch => drain k { s1 with storageChan := ch } pool

/-- The loop of `close` over `pool.branch`, in the order of the entries; `rec` is the
recursive call `poolBranchUnit.close()`. -/
def closeBranches (rec : State → Nat → Outcome (Option Err)) (pool : Nat) :
    List (String × Nat) → State → Outcome Unit
  | [], s => .ret () s
  | (poolBranchName, poolBranchUnit) :: rest, s =>
    match rec s poolBranchUnit with
    | .block s1 held => .block s1 held
    | .panic => .panic
    | .fuel => .fuel
    | .ret (some _) s1 => closeBranches rec pool rest s1
    | .ret none s1 =>
      match s1.nodes[pool]? with
      | none => .panic
      | some nd =>
        closeBranches rec pool rest
          (s1.setNode pool { nd with branch := mapDelete nd.branch poolBranchName })

/-- Method `close`; the first argument bounds the depth of the recursion. -/
def Pool.close : Nat → State → Nat → Outcome (Option Err)
  | 0, _, _ => .fuel
  | fuel + 1, s, pool =>
    match Pool.lock s pool with
    | .block s1 held => .block s1 held
    | .panic => .panic
    | .fuel => .fuel
    | .ret _ s1 =>
      match s1.nodes[pool]? with
      | none => .panic
      | some nd =>
        if nd.isClosed then deferUnlock s1 pool (some .ErrPoolIsClosed)
        else
          match closeBranches (Pool.close fuel) pool nd.branch s1 with
          | .block s2 held => .block s2 held
          | .panic => .panic
          | .fuel => .fuel
          | .ret _ s2 =>
            match s2.nodes[pool]? with
            | none => .panic
            | some nd2 =>
              match drain nd2.storageChanRead.buf.length s2 pool with
              | .block s3 held => .block s3 held
              | .panic => .panic
              | .fuel => .fuel
              | .ret _ s3 =>
                match s3.nodes[pool]? with
                | none => .panic
                | some nd3 =>
                  match nd3.storageChanRead.close with
                  | none => .panic
                  | some ch =>
                    let s4 := s3.setNode pool
                      { nd3 with parent := none, isClosed := true, storageChanRead := ch }
                    match Pool.unlock s4 pool with
                    | .block s5 held => .block s5 held
                    | .panic => .panic
                    | .fuel => .fuel
                    | .ret _ s5 => deferUnlock s5 pool none

/-- Method `Close`. -/
def Pool.Close (fuel : Nat) (s : State) (pool : Nat) : Outcome (Option Err) :=
  match Pool.lock s pool with
  | .block s1 held => .block s1 held
  | .panic => .panic
  | .fuel => .fuel
  | .ret _ s1 =>
    match s1.nodes[pool]? with
    | none => .panic
    | some nd =>
      let poolParentUnit := nd.parent
      match Pool.unlock s1 pool with
      | .block s2 held => .block s2 held
      | .panic => .panic
      | .fuel => .fuel
      | .ret _ s2 =>
        match (match poolParentUnit with
               | some par => Pool.lock s2 par
               | none => .ret () s2) with
        | .block s3 held => .block s3 held
        | .panic => .panic
        | .fuel => .fuel
        | .ret _ s3 =>
          match Pool.close fuel s3 pool with
          | .block s4 held => .block s4 held
          | .panic => .panic
          | .fuel => .fuel
          | .ret (some err) s4 => .ret (some err) s4
          | .ret none s4 =>
            match poolParentUnit with
            | some par =>
              match s4.nodes[pool]?, s4.nodes[par]? with
              | some nd4, some pn =>
                match Pool.lock
                    (s4.setNode par { pn with branch := mapDelete pn.branch nd4.name }) par with
                | .block s5 held => .block s5 held
                | .panic => .panic
                | .fuel => .fuel
                | .ret _ s5 => .ret none s5
              | _, _ => .panic
            | none =>
              match s4.nodes[pool]? with
              | none => .panic
              | some nd4 =>
                match s4.storageChan.close with
                | none => .panic
                | some ch =>
                  .ret none
                    { s4.setNode pool { nd4 with storageArray := none } with storageChan := ch }

/-- Method `New`: returns the pointer of the new branch and `err`. -/
def Pool.New (s : State) (pool : Nat) (poolName : String) (unitAmount : Int) :
    Outcome (Option Nat × Option Err) :=
  if unitAmount < 0 then .ret (none, some .ErrPoolStorageSizeLessZero) s
  else
    match s.nodes[pool]? with
    | none => .panic
    | some nd =>
      if nd.unitAmount < unitAmount then
        .ret (none, some .ErrPoolBranchStorageSizeMoreParent) s
      else
        match Chan.make unitAmount with
        | none => .panic
        | some ch =>
          let newpool : Pool :=
            { mutex := .free
              name := poolName
              parent := some pool
              branch := []
              unitLength := nd.unitLength
              unitAmount := unitAmount
              storageLength := wrapInt (nd.unitLength * unitAmount)
              storageArray := none
              storageChanRead := ch
              isClosed := false }
          let s1 : State := { s with nodes := s.nodes ++ [newpool] }
          .ret (some s.nodes.length, none)
            (s1.setNode pool { nd with branch := mapInsert nd.branch poolName s.nodes.length })

/-- The state before any pool exists. -/
def State.empty : State := ⟨[], ⟨[], 0, false⟩, []⟩

/-- The seeding loop of the package-level `New`: `k` iterations are left, `i` is the loop
variable. -/
def seedLoop (storageArray : Slice) (unitLength : Int) : Nat → Int → State → Outcome Unit
  | 0, _, s => .ret () s
  | k + 1, i, s =>
    match storageArray.slice (wrapInt (i * unitLength)) (wrapInt ((i + 1) * unitLength)) with
    | none => .panic
    | some u =>
      match s.storageChan.send u with
      | .panic => .panic
      | .blocked => .block s [u]
      | .sent ch => seedLoop storageArray unitLength k (i + 1) { s with storageChan := ch }

/-- Package-level `New`: the root is the pool object at pointer `0` of a fresh state. -/
def New (unitLength unitAmount : Int) : Outcome (Option Nat × Option Err) :=
  let storageLength := wrapInt (unitLength * unitAmount)
  if storageLength ≤ 0 then .ret (none, some .ErrPoolStorageSizeLessZero) State.empty
  else
    match makeSlice storageLength with
    | none => .panic
    | some storageArray =>
      match Chan.makeSized unitAmount, Chan.makeSized unitAmount with
      | some free, some pending =>
        let pool : Pool :=
          { mutex := .free
            name := "root"
            parent := none
            branch := []
            unitLength := unitLength
            unitAmount := unitAmount
            storageLength := storageLength
            storageArray := some storageArray
            storageChanRead := pending
            isClosed := false }
        let s : State :=
          { nodes := [pool], storageChan := free, mem := List.replicate storageArray.len 0 }
        match seedLoop storageArray unitLength unitAmount.toNat 0 s with
        | .ret _ s1 => .ret (some 0, none) s1
        | .block s1 held => .block s1 held
        | .panic => .panic
        | .fuel => .fuel
      | _, _ => .panic

/-! ## Vocabulary of the specification -/

/-- Values of Go's `int`. -/
def IsInt (x : Int) : Prop := -(2 : Int) ^ 63 ≤ x ∧ x < (2 : Int) ^ 63

/-- The arena unit a handle views: reslicing changes `len` only. -/
def Slice.unit (h : Slice) : Nat × Nat := (h.off, h.cap)

/-- The handles seeded by the package-level `New`, in index order. -/
def units (unitLength unitAmount : Nat) : List Slice :=
  (List.range unitAmount).map
    (fun i => ⟨i * unitLength, unitLength, unitLength * unitAmount - i * unitLength⟩)

/-- Handles in the pending queues of all nodes. -/
def State.pending (s : State) : List Slice :=
  (s.nodes.map (fun nd => nd.storageChanRead.buf)).flatten

/-- Handles in the free queue, in the pending queues and held by calls that have not
returned. -/
def State.handles (s : State) (held : List Slice) : List Slice :=
  s.storageChan.buf ++ s.pending ++ held

/-- Multiset of the arena units of a list of handles. -/
def unitsOf (l : List Slice) : Multiset (Nat × Nat) := ↑(l.map Slice.unit)

/-- Conservation: the free queue is open and the handles are the units `U`. -/
def Conserved (U : Multiset (Nat × Nat)) (s : State) (held : List Slice) : Prop :=
  s.storageChan.closed = false ∧ unitsOf (s.handles held) = U

/-- Conservation after a call, whatever its outcome. -/
def Keeps {α : Type} (U : Multiset (Nat × Nat)) (held : List Slice) : Outcome α → Prop
  | .ret _ s => Conserved U s held
  | .block s h => Conserved U s (held ++ h)
  | .panic => True
  | .fuel => True

/-- Well-formed node for unit length `L`: it has that unit length, its pending records are
at most `L` bytes long, and its pending queue is closed and empty exactly as `isClosed`
says. -/
def Pool.WF (L : Nat) (nd : Pool) : Prop :=
  nd.unitLength = (L : Int) ∧ (∀ h ∈ nd.storageChanRead.buf, h.len ≤ L) ∧
    (nd.isClosed = true → nd.storageChanRead.closed = true ∧ nd.storageChanRead.buf = []) ∧
    (nd.isClosed = false → nd.storageChanRead.closed = false)

/-- Well-formed state for unit length `L` and unit amount `M`: well-formed nodes, no handle
longer than `L`, an arena of `L * M` bytes and a free queue of capacity `M`. -/
def State.WF (L M : Nat) (s : State) (held : List Slice) : Prop :=
  (∀ nd ∈ s.nodes, nd.WF L) ∧ (∀ h ∈ s.storageChan.buf, h.len ≤ L) ∧
    (∀ h ∈ held, h.len ≤ L) ∧ s.mem.length = L * M ∧ s.storageChan.cap = M

/-- Well-formedness after a call, whatever its outcome. -/
def KeepsWF {α : Type} (L M : Nat) (held : List Slice) : Outcome α → Prop
  | .ret _ s => s.WF L M held
  | .block s h => s.WF L M (held ++ h)
  | .panic => True
  | .fuel => True

/-- The invariant of a pool made by `New(L, m)`: conservation of the seeded units and
well-formedness. -/
def Inv (L m : Nat) (s : State) (held : List Slice) : Prop :=
  Conserved (unitsOf (units L m)) s held ∧ s.WF L m held

/-- A call of one of the four methods on a node. -/
inductive Call where
  | Write (pool : Nat) (p : List Byte)
  | Read (pool : Nat) (p : List Byte)
  | New (pool : Nat) (poolName : String) (unitAmount : Int)
  | Close (fuel : Nat) (pool : Nat)

/-- Outcome of a call without its return value. -/
def Outcome.forget {α : Type} : Outcome α → Outcome Unit
  | .ret _ s => .ret () s
  | .block s held => .block s held
  | .panic => .panic
  | .fuel => .fuel

/-- Run a call. -/
def Call.run (s : State) : Call → Outcome Unit
  | .Write pool p => (Pool.Write s pool p).forget
  | .Read pool p => (Pool.Read s pool p).forget
  | .New pool poolName unitAmount => (Pool.New s pool poolName unitAmount).forget
  | .Close fuel pool => (Pool.Close fuel s pool).forget

/-- States reached from `s0` by finitely many calls, each made in the state the previous one
left (on return, or at the point where it blocked); `held` collects the handles of the calls
that have not returned.  A call that has blocked is not continued: the runs in which a
later call wakes a blocked one are not among these. -/
inductive Reach (s0 : State) : State → List Slice → Prop where
  | init : Reach s0 s0 []
  | ret (c : Call) (s s1 : State) (held : List Slice) :
      Reach s0 s held → c.run s = .ret () s1 → Reach s0 s1 held
  | block (c : Call) (s s1 : State) (held h : List Slice) :
      Reach s0 s held → c.run s = .block s1 h → Reach s0 s1 (held ++ h)

/-- State in which a call ended, when it returned or blocked. -/
def Outcome.state? {α : Type} : Outcome α → Option State
  | .ret _ s => some s
  | .block s _ => some s
  | .panic => none
  | .fuel => none

/-- Contents of the records waiting in the pending queue of a node, oldest first. -/
def State.records (s : State) (pool : Nat) : List (List Byte) :=
  match s.nodes[pool]? with
  | none => []
  | some nd => nd.storageChanRead.buf.map (Slice.bytes s.mem)

/-- Buffer handle of the data model: a view of exactly `L` bytes into the arena `mem`. -/
def IsHandle (mem : List Byte) (L : Nat) (u : Slice) : Prop :=
  u.len = L ∧ L ≤ u.cap ∧ u.off + L ≤ mem.length

/-- The bytes two slices show lie apart in the arena. -/
def Slice.Apart (u h : Slice) : Prop :=
  u.off + u.len ≤ h.off ∨ h.off + h.len ≤ u.off

/-- Write the records `ds` one after the other on node `pool`: the state after the last
call, provided every call returned `(len(d), nil)`. -/
def writeAll (s : State) (pool : Nat) : List (List Byte) → Option State
  | [] => some s
  | d :: ds =>
    match Pool.Write s pool d with
    | .ret (n, none) s1 => if n = (d.length : Int) then writeAll s1 pool ds else none
    | _ => none

/-- Read on node `pool` once into each of the buffers `bufs`: the buffer contents and counts
returned, in order, provided every call returned without error. -/
def readAll (s : State) (pool : Nat) : List (List Byte) → Option (List (List Byte × Int))
  | [] => some []
  | p :: ps =>
    match Pool.Read s pool p with
    | .ret (p1, n, none) s1 => (readAll s1 pool ps).map (fun rs => (p1, n) :: rs)
    | _ => none

/-! ## Example states -/

/-- The root made by `New(1, 1)`. -/
def exRoot : State :=
  { nodes := [⟨.free, "root", none, [], 1, 1, 1, some ⟨0, 1, 1⟩, ⟨[], 1, false⟩, false⟩]
    storageChan := ⟨[⟨0, 1, 1⟩], 1, false⟩
    mem := [0] }

/-- The state in which `Close` on the root of `exRoot` stops. -/
def exRootStuck : State :=
  { nodes := [⟨.waiting, "root", none, [], 1, 1, 1, some ⟨0, 1, 1⟩, ⟨[], 1, true⟩, true⟩]
    storageChan := ⟨[⟨0, 1, 1⟩], 1, false⟩
    mem := [0] }

/-- The state `exRootStuck` after `New("x", 1)` on its closed root. -/
def exRootStuckNew : State :=
  { nodes := [⟨.waiting, "root", none, [("x", 1)], 1, 1, 1, some ⟨0, 1, 1⟩, ⟨[], 1, true⟩,
                true⟩,
              ⟨.free, "x", some 0, [], 1, 1, 1, none, ⟨[], 1, false⟩, false⟩]
    storageChan := ⟨[⟨0, 1, 1⟩], 1, false⟩
    mem := [0] }

/-- The root made by `New(2, 2)`. -/
def exPool : State :=
  { nodes := [⟨.free, "root", none, [], 2, 2, 4, some ⟨0, 4, 4⟩, ⟨[], 2, false⟩, false⟩]
    storageChan := ⟨[⟨0, 2, 4⟩, ⟨2, 2, 2⟩], 2, false⟩
    mem := [0, 0, 0, 0] }

/-- The root of `exPool` with two branches `a` and `b` made by `New("a", 1)` and
`New("b", 1)`, after `Write([5])` on `a`. -/
def exTwo : State :=
  { nodes := [⟨.free, "root", none, [("a", 1), ("b", 2)], 2, 2, 4, some ⟨0, 4, 4⟩,
                ⟨[], 2, false⟩, false⟩,
              ⟨.free, "a", some 0, [], 2, 1, 2, none, ⟨[⟨0, 1, 4⟩], 1, false⟩, false⟩,
              ⟨.free, "b", some 0, [], 2, 1, 2, none, ⟨[], 1, false⟩, false⟩]
    storageChan := ⟨[⟨2, 2, 2⟩], 2, false⟩
    mem := [5, 0, 0, 0] }

/-- The state in which `Close` on the root of `exTwo` stops. -/
def exTwoStuck : State :=
  { nodes := [⟨.held, "root", none, [("a", 1), ("b", 2)], 2, 2, 4, some ⟨0, 4, 4⟩,
                ⟨[], 2, false⟩, false⟩,
              ⟨.waiting, "a", none, [], 2, 1, 2, none, ⟨[], 1, true⟩, true⟩,
              ⟨.free, "b", some 0, [], 2, 1, 2, none, ⟨[], 1, false⟩, false⟩]
    storageChan := ⟨[⟨2, 2, 2⟩, ⟨0, 1, 4⟩], 2, false⟩
    mem := [5, 0, 0, 0] }

/-! ## The end of `Close` -/

/-- Lines 121-134 of `Close`: what `Close` does with the value `err` returned by
`pool.close()`; `poolParentUnit` is the local variable read at line 114.  For `err = nil`
the node is deleted by name from the mapping of the parent and the parent's mutex is sent
to, or, for a node without parent, the arena reference is dropped and the free queue is
closed. -/
def Pool.CloseLeave (s : State) (pool : Nat) (poolParentUnit : Option Nat)
    (err : Option Err) : Outcome (Option Err) :=
  match err with
  | some e => .ret (some e) s
  | none =>
    match poolParentUnit with
    | some par =>
      match s.nodes[pool]?, s.nodes[par]? with
      | some nd4, some pn =>
        match Pool.lock
            (s.setNode par { pn with branch := mapDelete pn.branch nd4.name }) par with
        | .block s5 held => .block s5 held
        | .panic => .panic
        | .fuel => .fuel
        | .ret _ s5 => .ret none s5
      | _, _ => .panic
    | none =>
      match s.nodes[pool]? with
      | none => .panic
      | some nd4 =>
        match s.storageChan.close with
        | none => .panic
        | some ch =>
          .ret none
            { s.setNode pool { nd4 with storageArray := none } with storageChan := ch }

/-! ## The end of `close` -/

/-- Lines 93-109 of `close` and its deferred `unlock`: what `close` does after the loop
over the branches. -/
def Pool.closeTail (s : State) (pool : Nat) : Outcome (Option Err) :=
  match s.nodes[pool]? with
  | none => .panic
  | some nd2 =>
    match drain nd2.storageChanRead.buf.length s pool with
    | .block s3 held => .block s3 held
    | .panic => .panic
    | .fuel => .fuel
    | .ret _ s3 =>
      match s3.nodes[pool]? with
      | none => .panic
      | some nd3 =>
        match nd3.storageChanRead.close with
        | none => .panic
        | some ch =>
          let s4 := s3.setNode pool
            { nd3 with parent := none, isClosed := true, storageChanRead := ch }
          match Pool.unlock s4 pool with
          | .block s5 held => .block s5 held
          | .panic => .panic
          | .fuel => .fuel
          | .ret _ s5 => deferUnlock s5 pool none

/-- What `close` on `pool` does once the call `poolBranchUnit.close()` of its loop, made for
the entry `poolBranchName`, has returned `nil`: the `delete` of line 89, the loop over the
remaining entries `rest`, and the rest of `close`. -/
def Pool.closeLeave (fuel : Nat) (s : State) (pool : Nat) (poolBranchName : String)
    (rest : List (String × Nat)) : Outcome (Option Err) :=
  match s.nodes[pool]? with
  | none => .panic
  | some nd =>
    match closeBranches (Pool.close fuel) pool rest
        (s.setNode pool { nd with branch := mapDelete nd.branch poolBranchName }) with
    | .block s2 held => .block s2 held
    | .panic => .panic
    | .fuel => .fuel
    | .ret _ s2 => Pool.closeTail s2 pool

/-! ## More vocabulary of the specification -/

/-- Map lookup `m[key]` on a branch map. -/
def mapGet (m : List (String × Nat)) (key : String) : Option Nat :=
  (m.find? (fun e => e.1 = key)).map Prod.snd

/-! ## Heap, lock and memory lemmas -/


theorem setNode_get_self (s : State) (pool : Nat) (nd nd0 : Pool)
    (h : s.nodes[pool]? = some nd0) : (s.setNode pool nd).nodes[pool]? = some nd := by
  have hlt : pool < s.nodes.length := by
    rcases List.getElem?_eq_some.1 h with ⟨hlt, _⟩
    exact hlt
  simp [State.setNode, List.getElem?_set_self hlt]

theorem setNode_get_ne (s : State) (pool q : Nat) (nd : Pool) (h : pool ≠ q) :
    (s.setNode pool nd).nodes[q]? = s.nodes[q]? := by
  simp [State.setNode, List.getElem?_set_ne h]

theorem list_set_same {α : Type} (l : List α) (i : Nat) (x : α) (h : l[i]? = some x) :
    l.set i x = l := by
  induction l generalizing i with
  | nil => simp
  | cons a t ih =>
    cases i with
    | zero => simp at h; simp [h]
    | succ j => simp at h; simp [ih j h]

theorem setNode_same (s : State) (pool : Nat) (nd : Pool) (h : s.nodes[pool]? = some nd) :
    s.setNode pool nd = s := by
  cases s
  simp only [State.setNode]
  simp at h
  simp [list_set_same _ _ _ h]

theorem setNode_setNode (s : State) (pool : Nat) (a b : Pool) :
    (s.setNode pool a).setNode pool b = s.setNode pool b := by
  simp [State.setNode, List.set_set]

theorem lock_free (s : State) (pool : Nat) (nd : Pool) (h : s.nodes[pool]? = some nd)
    (hm : nd.mutex = .free) :
    Pool.lock s pool = .ret () (s.setNode pool { nd with mutex := .held }) := by
  simp [Pool.lock, h, hm]

theorem lock_waiting (s : State) (pool : Nat) (nd : Pool) (h : s.nodes[pool]? = some nd)
    (hm : nd.mutex = .waiting) :
    Pool.lock s pool = .ret () (s.setNode pool { nd with mutex := .free }) := by
  simp [Pool.lock, h, hm]

theorem lock_held (s : State) (pool : Nat) (nd : Pool) (h : s.nodes[pool]? = some nd)
    (hm : nd.mutex = .held) : Pool.lock s pool = .block s [] := by
  simp [Pool.lock, h, hm]

theorem unlock_held (s : State) (pool : Nat) (nd : Pool) (h : s.nodes[pool]? = some nd)
    (hm : nd.mutex = .held) :
    Pool.unlock s pool = .ret () (s.setNode pool { nd with mutex := .free }) := by
  simp [Pool.unlock, h, hm]

theorem unlock_free (s : State) (pool : Nat) (nd : Pool) (h : s.nodes[pool]? = some nd)
    (hm : nd.mutex = .free) :
    Pool.unlock s pool = .block (s.setNode pool { nd with mutex := .waiting }) [] := by
  simp [Pool.unlock, h, hm]

theorem deferUnlock_held {α : Type} (s : State) (pool : Nat) (nd : Pool) (v : α)
    (h : s.nodes[pool]? = some nd) (hm : nd.mutex = .held) :
    deferUnlock s pool v = .ret v (s.setNode pool { nd with mutex := .free }) := by
  simp [deferUnlock, unlock_held s pool nd h hm]

theorem deferUnlock_free {α : Type} (s : State) (pool : Nat) (nd : Pool) (v : α)
    (h : s.nodes[pool]? = some nd) (hm : nd.mutex = .free) :
    deferUnlock s pool v = .block (s.setNode pool { nd with mutex := .waiting }) [] := by
  simp [deferUnlock, unlock_free s pool nd h hm]

/-- A `Write` that finds the lock free, the node open, a slice in the free queue and room
in the pending queue returns the number of bytes copied. -/
theorem Write_ok (s : State) (pool : Nat) (nd : Pool) (p : List Byte) (u : Slice)
    (rest : List Slice)
    (hnd : s.nodes[pool]? = some nd) (hm : nd.mutex = .free) (ho : nd.isClosed = false)
    (hfree : s.storageChan.buf = u :: rest) (hcap : u.len ≤ u.cap)
    (hpc : nd.storageChanRead.closed = false)
    (hroom : nd.storageChanRead.buf.length < nd.storageChanRead.cap) :
    Pool.Write s pool p = .ret ((copyLen u.len p.length : Nat), none)
      { nodes := s.nodes.set pool
          { nd with storageChanRead :=
              { nd.storageChanRead with
                buf := nd.storageChanRead.buf ++ [⟨u.off, copyLen u.len p.length, u.cap⟩] } }
        storageChan := { s.storageChan with buf := rest }
        mem := copyToMem s.mem u p } := by
  have hlt : pool < s.nodes.length := by
    rcases List.getElem?_eq_some.1 hnd with ⟨hlt, _⟩
    exact hlt
  have hn : copyLen u.len p.length ≤ u.cap := by
    unfold copyLen; omega
  unfold Pool.Write
  rw [lock_free s pool nd hnd hm]
  simp only [setNode_get_self s pool _ nd hnd, ho]
  simp [Chan.recv, State.setNode, hfree, Slice.slice, hn, Chan.send, hpc, hroom, deferUnlock,
    Pool.unlock, List.getElem?_set_self hlt, hm]

/-- A `Read` that finds a record in the pending queue and room in the free queue. -/
theorem Read_ok (s : State) (pool : Nat) (nd : Pool) (p : List Byte) (h : Slice)
    (rest : List Slice)
    (hnd : s.nodes[pool]? = some nd) (hbuf : nd.storageChanRead.buf = h :: rest)
    (hL0 : 0 ≤ nd.unitLength) (hL : nd.unitLength ≤ (h.cap : Int))
    (hfc : s.storageChan.closed = false)
    (hroom : s.storageChan.buf.length < s.storageChan.cap) :
    Pool.Read s pool p = .ret (copyFromMem s.mem p h, (copyLen p.length h.len : Nat), none)
      { nodes := s.nodes.set pool
          { nd with storageChanRead := { nd.storageChanRead with buf := rest } }
        storageChan :=
          { s.storageChan with
            buf := s.storageChan.buf ++ [⟨h.off, nd.unitLength.toNat, h.cap⟩] }
        mem := s.mem } := by
  unfold Pool.Read
  simp [hnd, Chan.recv, hbuf, Slice.slice, hL0, hL, State.setNode, Chan.send, hfc, hroom]

theorem length_copyToMem (mem : List Byte) (u : Slice) (p : List Byte)
    (hin : u.off + u.len ≤ mem.length) : (copyToMem mem u p).length = mem.length := by
  simp only [copyToMem, copyLen, List.length_append, List.length_take, List.length_drop]
  omega

theorem bytes_copyToMem_self (mem : List Byte) (u : Slice) (p : List Byte)
    (hin : u.off + u.len ≤ mem.length) :
    Slice.bytes (copyToMem mem u p) ⟨u.off, copyLen u.len p.length, u.cap⟩
      = p.take (copyLen u.len p.length) := by
  have h1 : (mem.take u.off).length = u.off := by
    simp only [List.length_take]; omega
  have h2 : (p.take (copyLen u.len p.length)).length = copyLen u.len p.length := by
    simp only [List.length_take, copyLen]; omega
  simp only [Slice.bytes, copyToMem, List.append_assoc]
  rw [List.drop_left' h1, List.take_left' h2]

theorem bytes_copyToMem_disjoint (mem : List Byte) (u h : Slice) (p : List Byte)
    (hin : u.off + u.len ≤ mem.length)
    (hd : h.off + h.len ≤ u.off ∨ u.off + u.len ≤ h.off) :
    Slice.bytes (copyToMem mem u p) h = Slice.bytes mem h := by
  apply List.ext_getElem?
  intro i
  simp only [Slice.bytes, copyToMem, List.getElem?_take, List.getElem?_drop]
  by_cases hi : i < h.len
  · simp only [hi, if_true]
    have h1 : (mem.take u.off).length = u.off := by
      simp only [List.length_take]; omega
    have h2 : (p.take (copyLen u.len p.length)).length = copyLen u.len p.length := by
      simp only [List.length_take, copyLen]; omega
    have hn : copyLen u.len p.length ≤ u.len := by unfold copyLen; omega
    rcases hd with hd | hd
    · rw [List.append_assoc, List.getElem?_append_left (by omega)]
      rw [List.getElem?_take]
      simp only [show h.off + i < u.off by omega, if_true]
    · rw [List.getElem?_append_right (by simp only [List.length_append, h1, h2]; omega)]
      simp only [List.length_append, h1, h2, List.getElem?_drop]
      congr 1
      omega
  · simp [hi]


/-! ## Conservation lemmas -/

theorem unitsOf_append (a b : List Slice) : unitsOf (a ++ b) = unitsOf a + unitsOf b := by
  simp [unitsOf]

theorem unitsOf_cons (a : Slice) (b : List Slice) : unitsOf (a :: b) = {a.unit} + unitsOf b := by
  simp [unitsOf]

theorem unitsOf_nil : unitsOf [] = 0 := rfl

theorem unitsOf_pending_set (l : List Pool) (pool : Nat) (nd nd1 : Pool)
    (h : l[pool]? = some nd) :
    unitsOf ((l.set pool nd1).map (fun nd => nd.storageChanRead.buf)).flatten
        + unitsOf nd.storageChanRead.buf
      = unitsOf (l.map (fun nd => nd.storageChanRead.buf)).flatten
        + unitsOf nd1.storageChanRead.buf := by
  induction l generalizing pool with
  | nil => simp at h
  | cons a t ih =>
    cases pool with
    | zero =>
      simp at h
      subst h
      simp only [List.set_cons_zero, List.map_cons, List.flatten_cons, unitsOf_append]
      abel
    | succ j =>
      simp at h
      have := ih j h
      simp only [List.set_cons_succ, List.map_cons, List.flatten_cons, unitsOf_append]
      rw [add_assoc, this]
      abel

theorem unitsOf_handles_setNode (s : State) (pool : Nat) (nd nd1 : Pool) (held : List Slice)
    (h : s.nodes[pool]? = some nd) :
    unitsOf ((s.setNode pool nd1).handles held) + unitsOf nd.storageChanRead.buf
      = unitsOf (s.handles held) + unitsOf nd1.storageChanRead.buf := by
  have := unitsOf_pending_set s.nodes pool nd nd1 h
  simp only [State.handles, State.pending, State.setNode, unitsOf_append]
  calc _ = unitsOf s.storageChan.buf + (unitsOf ((s.nodes.set pool nd1).map
              (fun nd => nd.storageChanRead.buf)).flatten + unitsOf nd.storageChanRead.buf)
              + unitsOf held := by abel
    _ = _ := by rw [this]; abel

theorem conserved_setNode (U : Multiset (Nat × Nat)) (s : State) (pool : Nat) (nd nd1 : Pool)
    (held : List Slice) (h : s.nodes[pool]? = some nd)
    (hb : nd1.storageChanRead.buf = nd.storageChanRead.buf)
    (hc : Conserved U s held) : Conserved U (s.setNode pool nd1) held := by
  refine ⟨hc.1, ?_⟩
  have := unitsOf_handles_setNode s pool nd nd1 held h
  rw [hb] at this
  rw [← hc.2]
  exact add_right_cancel this

theorem conserved_held_nil (U : Multiset (Nat × Nat)) (s : State) (held : List Slice)
    (hc : Conserved U s held) : Conserved U s (held ++ []) := by
  simpa using hc

theorem lock_keeps (U : Multiset (Nat × Nat)) (s : State) (pool : Nat) (held : List Slice)
    (hc : Conserved U s held) : Keeps U held (Pool.lock s pool) := by
  unfold Pool.lock
  split
  · trivial
  · rename_i nd hnd
    split
    · exact conserved_setNode U s pool nd _ held hnd rfl hc
    · exact conserved_setNode U s pool nd _ held hnd rfl hc
    · exact conserved_held_nil U s held hc

theorem unlock_keeps (U : Multiset (Nat × Nat)) (s : State) (pool : Nat) (held : List Slice)
    (hc : Conserved U s held) : Keeps U held (Pool.unlock s pool) := by
  unfold Pool.unlock
  split
  · trivial
  · rename_i nd hnd
    split
    · exact conserved_setNode U s pool nd _ held hnd rfl hc
    · exact conserved_held_nil U _ held (conserved_setNode U s pool nd _ held hnd rfl hc)
    · exact conserved_held_nil U s held hc

theorem deferUnlock_keeps {α : Type} (U : Multiset (Nat × Nat)) (s : State) (pool : Nat)
    (held : List Slice) (v : α) (hc : Conserved U s held) :
    Keeps U held (deferUnlock s pool v) := by
  have h := unlock_keeps U s pool held hc
  unfold deferUnlock
  split <;> simp_all [Keeps]

theorem recv_got (ch ch1 : Chan) (v : Slice) (ok : Bool) (h : ch.recv = .got v ok ch1)
    (hc : ch.closed = false) :
    ch.buf = v :: ch1.buf ∧ ch1.cap = ch.cap ∧ ch1.closed = ch.closed ∧ ok = true := by
  unfold Chan.recv at h
  split at h
  · rename_i v0 rest hb
    cases h
    simp [hb]
  · simp [hc] at h

theorem send_sent (ch ch1 : Chan) (v : Slice) (h : ch.send v = .sent ch1) :
    ch1.buf = ch.buf ++ [v] ∧ ch1.cap = ch.cap ∧ ch1.closed = false ∧ ch.closed = false := by
  unfold Chan.send at h
  split at h
  · cases h
  · split at h
    · cases h
      simp_all
    · cases h

theorem slice_zero_unit (u u1 : Slice) (hi : Int) (h : u.slice 0 hi = some u1) :
    u1.unit = u.unit := by
  unfold Slice.slice at h
  split at h
  · cases h
    simp [Slice.unit]
  · cases h

theorem unitsOf_handles_held (s : State) (held h : List Slice) :
    unitsOf (s.handles (held ++ h)) = unitsOf (s.handles held) + unitsOf h := by
  simp only [State.handles, unitsOf_append]
  abel

theorem Write_keeps (U : Multiset (Nat × Nat)) (s : State) (pool : Nat) (p : List Byte)
    (held : List Slice) (hc : Conserved U s held) : Keeps U held (Pool.Write s pool p) := by
  have hl := lock_keeps U s pool held hc
  unfold Pool.Write
  split
  · rename_i s1 h1 heq
    rw [heq] at hl; exact hl
  · trivial
  · trivial
  · rename_i s1 heq
    rw [heq] at hl
    simp only [Keeps] at hl
    split
    · trivial
    · rename_i nd hnd
      split
      · exact deferUnlock_keeps U s1 pool held _ hl
      · split
        · exact conserved_held_nil U s1 held hl
        · rename_i u ok ch hrecv
          obtain ⟨hb, -, hcl, -⟩ := recv_got _ _ _ _ hrecv hl.1
          dsimp only
          split
          · trivial
          · rename_i u1 hu1
            have hunit := slice_zero_unit _ _ _ hu1
            have hs2 : unitsOf (State.handles
                { s1 with storageChan := ch, mem := copyToMem s1.mem u p } held)
                  + {u.unit} = U := by
              rw [← hl.2]
              simp only [State.handles, State.pending, hb, unitsOf_append, unitsOf_cons]
              abel
            split
            · trivial
            · refine ⟨by simpa [hcl] using hl.1, ?_⟩
              rw [unitsOf_handles_held, unitsOf_cons, unitsOf_nil, hunit, add_zero]
              exact hs2
            · rename_i ch1 hsend
              obtain ⟨hb1, -, -, -⟩ := send_sent _ _ _ hsend
              apply deferUnlock_keeps
              refine ⟨by simpa [State.setNode, hcl] using hl.1, ?_⟩
              have key := unitsOf_handles_setNode
                { s1 with storageChan := ch, mem := copyToMem s1.mem u p } pool nd
                { nd with storageChanRead := ch1 } held hnd
              simp only [hb1, unitsOf_append, unitsOf_cons, unitsOf_nil, hunit, add_zero] at key
              rw [← hs2]
              apply add_right_cancel (b := unitsOf nd.storageChanRead.buf)
              rw [key]
              abel

theorem recv_cases (ch ch1 : Chan) (v : Slice) (ok : Bool) (h : ch.recv = .got v ok ch1) :
    (ok = true ∧ ch.buf = v :: ch1.buf ∧ ch1.cap = ch.cap ∧ ch1.closed = ch.closed) ∨
    (ok = false ∧ ch.buf = [] ∧ ch.closed = true) := by
  unfold Chan.recv at h
  split at h
  · rename_i v0 rest hb
    cases h
    simp [hb]
  · rename_i hb
    split at h
    · cases h
      simp_all
    · cases h

theorem Read_keeps (U : Multiset (Nat × Nat)) (s : State) (pool : Nat) (p : List Byte)
    (held : List Slice) (hc : Conserved U s held) : Keeps U held (Pool.Read s pool p) := by
  unfold Pool.Read
  split
  · trivial
  · rename_i nd hnd
    split
    · exact conserved_held_nil U s held hc
    · rename_i u ok ch hrecv
      split
      · exact hc
      · rename_i hok
        rcases recv_cases _ _ _ _ hrecv with ⟨-, hb, -, -⟩ | ⟨hf, -, -⟩
        · dsimp only
          have hs1 : unitsOf (State.handles
              (s.setNode pool { nd with storageChanRead := ch }) held) + {u.unit} = U := by
            have key := unitsOf_handles_setNode s pool nd { nd with storageChanRead := ch }
              held hnd
            simp only [hb, unitsOf_cons] at key
            rw [← hc.2]
            apply add_right_cancel (b := unitsOf ch.buf)
            rw [add_assoc]
            exact key
          split
          · trivial
          · rename_i u1 hu1
            have hunit := slice_zero_unit _ _ _ hu1
            split
            · trivial
            · refine ⟨hc.1, ?_⟩
              rw [unitsOf_handles_held, unitsOf_cons, unitsOf_nil, hunit, add_zero]
              exact hs1
            · rename_i ch1 hsend
              obtain ⟨hb1, -, hcl1, -⟩ := send_sent _ _ _ hsend
              refine ⟨hcl1, ?_⟩
              rw [← hs1]
              simp only [State.handles, State.pending, State.setNode, hb1, unitsOf_append,
                unitsOf_cons, unitsOf_nil, hunit]
              abel
        · simp [hf] at hok

theorem make_buf (n : Int) (ch : Chan) (h : Chan.make n = some ch) :
    ch.buf = [] ∧ ch.closed = false ∧ ch.cap = n.toNat := by
  unfold Chan.make at h
  split at h
  · cases h
    simp
  · cases h

theorem New_keeps (U : Multiset (Nat × Nat)) (s : State) (pool : Nat) (name : String)
    (n : Int) (held : List Slice) (hc : Conserved U s held) :
    Keeps U held (Pool.New s pool name n) := by
  unfold Pool.New
  split
  · exact hc
  · split
    · trivial
    · rename_i nd hnd
      split
      · exact hc
      · split
        · trivial
        · rename_i ch hch
          obtain ⟨hb, -, -⟩ := make_buf _ _ hch
          dsimp only
          have hlt : pool < s.nodes.length := by
            rcases List.getElem?_eq_some.1 hnd with ⟨hlt, _⟩
            exact hlt
          apply conserved_setNode U _ pool nd _ held
          · simp only [List.getElem?_append_left hlt, hnd]
          · rfl
          · refine ⟨hc.1, ?_⟩
            rw [← hc.2]
            simp [State.handles, State.pending, hb]

theorem drain_keeps (U : Multiset (Nat × Nat)) (k : Nat) (s : State) (pool : Nat)
    (held : List Slice) (hc : Conserved U s held) : Keeps U held (drain k s pool) := by
  induction k generalizing s with
  | zero =>
    unfold drain
    split
    · trivial
    · split
      · split
        · exact conserved_held_nil U s held hc
        · exact hc
      · trivial
  | succ k ih =>
    unfold drain
    split
    · trivial
    · rename_i nd hnd
      split
      · split
        · exact conserved_held_nil U s held hc
        · exact hc
      · rename_i u rest hb
        dsimp only
        have hs1 : unitsOf (State.handles (s.setNode pool
            { nd with storageChanRead := { nd.storageChanRead with buf := rest } }) held)
              + {u.unit} = U := by
          have key := unitsOf_handles_setNode s pool nd
            { nd with storageChanRead := { nd.storageChanRead with buf := rest } } held hnd
          simp only [hb, unitsOf_cons] at key
          rw [← hc.2]
          apply add_right_cancel (b := unitsOf rest)
          rw [add_assoc]
          exact key
        split
        · trivial
        · refine ⟨hc.1, ?_⟩
          rw [unitsOf_handles_held, unitsOf_cons, unitsOf_nil, add_zero]
          exact hs1
        · rename_i ch1 hsend
          obtain ⟨hb1, -, hcl1, -⟩ := send_sent _ _ _ hsend
          apply ih
          refine ⟨hcl1, ?_⟩
          rw [← hs1]
          simp only [State.handles, State.pending, State.setNode, hb1, unitsOf_append,
            unitsOf_cons, unitsOf_nil]
          abel

theorem closeBranches_keeps (U : Multiset (Nat × Nat)) (held : List Slice)
    (rec : State → Nat → Outcome (Option Err))
    (hrec : ∀ s q, Conserved U s held → Keeps U held (rec s q))
    (pool : Nat) (l : List (String × Nat)) (s : State) (hc : Conserved U s held) :
    Keeps U held (closeBranches rec pool l s) := by
  induction l generalizing s with
  | nil => exact hc
  | cons e rest ih =>
    obtain ⟨name, q⟩ := e
    have hq := hrec s q hc
    unfold closeBranches
    split
    · rename_i heq; rw [heq] at hq; exact hq
    · trivial
    · trivial
    · rename_i heq; rw [heq] at hq; exact ih _ hq
    · rename_i s1 heq
      rw [heq] at hq
      split
      · trivial
      · rename_i nd hnd
        exact ih _ (conserved_setNode U s1 pool nd _ held hnd rfl hq)

theorem close_keeps (U : Multiset (Nat × Nat)) (held : List Slice) (fuel : Nat) :
    ∀ (s : State) (pool : Nat), Conserved U s held → Keeps U held (Pool.close fuel s pool) := by
  induction fuel with
  | zero => intro s pool _; trivial
  | succ fuel ih =>
    intro s pool hc
    have hl := lock_keeps U s pool held hc
    unfold Pool.close
    split
    · rename_i heq; rw [heq] at hl; exact hl
    · trivial
    · trivial
    · rename_i s1 heq
      rw [heq] at hl
      simp only [Keeps] at hl
      split
      · trivial
      · rename_i nd hnd
        split
        · exact deferUnlock_keeps U s1 pool held _ hl
        · have hb := closeBranches_keeps U held (Pool.close fuel) ih pool nd.branch s1 hl
          split
          · rename_i heq2; rw [heq2] at hb; exact hb
          · trivial
          · trivial
          · rename_i s2 heq2
            rw [heq2] at hb
            simp only [Keeps] at hb
            split
            · trivial
            · rename_i nd2 hnd2
              have hd := drain_keeps U nd2.storageChanRead.buf.length s2 pool held hb
              split
              · rename_i heq3; rw [heq3] at hd; exact hd
              · trivial
              · trivial
              · rename_i s3 heq3
                rw [heq3] at hd
                simp only [Keeps] at hd
                split
                · trivial
                · rename_i nd3 hnd3
                  split
                  · trivial
                  · rename_i ch hch
                    have hchb : ch.buf = nd3.storageChanRead.buf := by
                      unfold Chan.close at hch
                      split at hch
                      · cases hch
                      · cases hch; rfl
                    dsimp only
                    have h4 := conserved_setNode U s3 pool nd3
                      { nd3 with parent := none, isClosed := true, storageChanRead := ch }
                      held hnd3 hchb hd
                    have hu := unlock_keeps U _ pool held h4
                    split
                    · rename_i heq5; rw [heq5] at hu; exact hu
                    · trivial
                    · trivial
                    · rename_i s5 heq5
                      rw [heq5] at hu
                      exact deferUnlock_keeps U s5 pool held _ hu

theorem deferUnlock_ret {α : Type} (s s1 : State) (pool : Nat) (v w : α)
    (h : deferUnlock s pool v = .ret w s1) : w = v := by
  unfold deferUnlock at h
  split at h <;> cases h
  rfl

theorem unlock_ret (s s1 : State) (pool : Nat) (h : Pool.unlock s pool = .ret () s1) :
    ∃ nd, s.nodes[pool]? = some nd ∧ nd.mutex = .held ∧
      s1 = s.setNode pool { nd with mutex := .free } := by
  unfold Pool.unlock at h
  split at h
  · cases h
  · rename_i nd hnd
    split at h
    · rename_i hm
      cases h
      exact ⟨nd, hnd, hm, rfl⟩
    · cases h
    · cases h

/-- On every path `close` does not return `nil`: after the explicit `<-pool.mutex` the
deferred `unlock` finds the mutex channel empty. -/
theorem close_not_ret_nil (fuel : Nat) (s s1 : State) (pool : Nat) :
    Pool.close fuel s pool ≠ .ret none s1 := by
  intro h
  cases fuel with
  | zero => simp [Pool.close] at h
  | succ fuel =>
    unfold Pool.close at h
    split at h
    · cases h
    · cases h
    · cases h
    · split at h
      · cases h
      · split at h
        · have := deferUnlock_ret _ _ _ _ _ h
          cases this
        · split at h
          · cases h
          · cases h
          · cases h
          · split at h
            · cases h
            · split at h
              · cases h
              · cases h
              · cases h
              · split at h
                · cases h
                · split at h
                  · cases h
                  · dsimp only at h
                    split at h
                    · cases h
                    · cases h
                    · cases h
                    · rename_i s5 heq5
                      obtain ⟨nd4, hnd4, -, hs5⟩ := unlock_ret _ _ _ heq5
                      have hget := setNode_get_self _ pool { nd4 with mutex := .free } nd4 hnd4
                      rw [← hs5] at hget
                      rw [deferUnlock_free s5 pool _ _ hget rfl] at h
                      cases h

theorem Close_keeps (U : Multiset (Nat × Nat)) (held : List Slice) (fuel : Nat) (s : State)
    (pool : Nat) (hc : Conserved U s held) : Keeps U held (Pool.Close fuel s pool) := by
  have hl := lock_keeps U s pool held hc
  unfold Pool.Close
  split
  · rename_i heq; rw [heq] at hl; exact hl
  · trivial
  · trivial
  · rename_i s1 heq
    rw [heq] at hl
    simp only [Keeps] at hl
    split
    · trivial
    · rename_i nd hnd
      have hu := unlock_keeps U s1 pool held hl
      dsimp only
      split
      · rename_i heq2; rw [heq2] at hu; exact hu
      · trivial
      · trivial
      · rename_i s2 heq2
        rw [heq2] at hu
        simp only [Keeps] at hu
        have hp : Keeps U held (match nd.parent with
            | some par => Pool.lock s2 par
            | none => Outcome.ret () s2) := by
          split
          · exact lock_keeps U s2 _ held hu
          · exact hu
        split
        · rename_i heq3; rw [heq3] at hp; exact hp
        · trivial
        · trivial
        · rename_i s3 heq3
          rw [heq3] at hp
          simp only [Keeps] at hp
          have hcl := close_keeps U held fuel s3 pool hp
          split
          · rename_i heq4; rw [heq4] at hcl; exact hcl
          · trivial
          · trivial
          · rename_i heq4; rw [heq4] at hcl; exact hcl
          · rename_i heq4
            exact absurd heq4 (close_not_ret_nil fuel s3 _ pool)

/-! ## The package-level `New` -/

theorem wrapInt_of_isInt (x : Int) (h : IsInt x) : wrapInt x = x := by
  unfold IsInt at h
  unfold wrapInt
  omega

theorem wrapInt_big (x : Int) (h0 : (2 : Int) ^ 63 ≤ x) (h1 : x < (2 : Int) ^ 64) :
    wrapInt x = x - (2 : Int) ^ 64 := by
  unfold wrapInt
  omega

theorem send_sent_eq (ch ch1 : Chan) (v : Slice) (h : ch.send v = .sent ch1) :
    ch1 = { ch with buf := ch.buf ++ [v] } := by
  unfold Chan.send at h
  split at h
  · cases h
  · split at h
    · cases h
      rfl
    · cases h


theorem wrapInt_step (a L cap : Nat) (hL1 : (L : Int) < (2 : Int) ^ 63)
    (hcap : (cap : Int) < (2 : Int) ^ 63) (ha : a ≤ cap)
    (h1 : (a : Int) ≤ wrapInt ((a : Int) + (L : Int)))
    (h2 : wrapInt ((a : Int) + (L : Int)) ≤ (cap : Int)) :
    wrapInt ((a : Int) + (L : Int)) = (a : Int) + (L : Int) ∧ a + L ≤ cap := by
  unfold wrapInt at h1 h2 ⊢
  omega

theorem slice_some (a u : Slice) (lo hi : Int) (h : a.slice lo hi = some u) :
    (0 ≤ lo ∧ lo ≤ hi ∧ hi ≤ (a.cap : Int)) ∧
      u = ⟨a.off + lo.toNat, hi.toNat - lo.toNat, a.cap - lo.toNat⟩ := by
  unfold Slice.slice at h
  split at h
  · rename_i hc
    cases h
    exact ⟨hc, rfl⟩
  · cases h


/-- A seeding loop that returns has cut `k` consecutive units out of the arena without
leaving it. -/
theorem seedLoop_ret (arr : Slice) (L : Int) (LN : Nat) (hLN : L = (LN : Int))
    (hL1 : L < (2 : Int) ^ 63) (hcap : (arr.cap : Int) < (2 : Int) ^ 63) (hoff : arr.off = 0)
    (k : Nat) :
    ∀ (i : Int) (iN : Nat) (s s1 : State), i = (iN : Int) → iN * LN ≤ arr.cap →
      seedLoop arr L k i s = .ret () s1 →
      (iN + k) * LN ≤ arr.cap ∧
      s1 = { s with storageChan := { s.storageChan with
              buf := s.storageChan.buf ++ (List.range' iN k).map
                (fun j => ⟨j * LN, LN, arr.cap - j * LN⟩) } } := by
  induction k with
  | zero =>
    intro i iN s s1 _ hi h
    simp only [seedLoop] at h
    cases h
    refine ⟨by simpa using hi, ?_⟩
    simp
  | succ k ih =>
    intro i iN s s1 hiN hi h
    unfold seedLoop at h
    generalize hlo : wrapInt (i * L) = lo at h
    generalize hhi : wrapInt ((i + 1) * L) = hi1 at h
    have hx0 : i * L = ((iN * LN : Nat) : Int) := by
      rw [hiN, hLN, Int.natCast_mul]
    have hx : (i + 1) * L = ((iN * LN : Nat) : Int) + (LN : Int) := by
      rw [Int.add_mul, Int.one_mul, hx0, hLN]
    have hw1 : lo = ((iN * LN : Nat) : Int) := by
      rw [← hlo, hx0]
      apply wrapInt_of_isInt
      unfold IsInt
      constructor
      · have : (0 : Int) ≤ ((iN * LN : Nat) : Int) := Int.natCast_nonneg _
        omega
      · have : ((iN * LN : Nat) : Int) ≤ (arr.cap : Int) := by exact_mod_cast hi
        omega
    cases hsl : arr.slice lo hi1 with
    | none =>
      simp only [hsl] at h
      cases h
    | some u =>
      simp only [hsl] at h
      obtain ⟨⟨-, hc1, hc2⟩, hu⟩ := slice_some _ _ _ _ hsl
      rw [← hhi, hx] at hc2
      rw [hw1, ← hhi, hx] at hc1
      have hL1' : (LN : Int) < (2 : Int) ^ 63 := by rw [← hLN]; exact hL1
      obtain ⟨hw2, hle⟩ := wrapInt_step (iN * LN) LN arr.cap hL1' hcap hi hc1 hc2
      have hnext : (iN + 1) * LN ≤ arr.cap := by
        rw [Nat.add_mul, Nat.one_mul]
        exact hle
      have hu1 : u = ⟨iN * LN, LN, arr.cap - iN * LN⟩ := by
        have e1 : (((iN * LN : Nat) : Int) + (LN : Int)).toNat = iN * LN + LN := by
          rw [← Int.natCast_add]
          exact Int.toNat_natCast _
        have e2 : (((iN * LN : Nat) : Int)).toNat = iN * LN := Int.toNat_natCast _
        rw [hu, ← hhi, hx, hw2, hw1, hoff, e1, e2, Nat.zero_add, Nat.add_sub_cancel_left]
      cases hsend : s.storageChan.send u with
      | panic =>
        simp only [hsend] at h
        cases h
      | blocked =>
        simp only [hsend] at h
        cases h
      | sent ch =>
        simp only [hsend] at h
        have hch := send_sent_eq _ _ _ hsend
        have e3 : i + 1 = ((iN + 1 : Nat) : Int) := by
          rw [hiN, Int.natCast_add, Int.natCast_one]
        obtain ⟨hle2, hs1⟩ := ih (i + 1) (iN + 1) _ s1 e3 hnext h
        refine ⟨?_, ?_⟩
        · have e4 : iN + (k + 1) = iN + 1 + k := by omega
          simp only [e4]
          exact hle2
        · simp only [hs1, hch, hu1, List.range'_succ, List.map_cons, List.append_assoc,
            List.singleton_append]


theorem wrapInt_lt (x : Int) : wrapInt x < (2 : Int) ^ 63 := by
  unfold wrapInt
  omega

theorem seedLoop_first (arr : Slice) (L : Int) (k : Nat) (i : Int) (s s1 : State)
    (h : seedLoop arr L (k + 1) i s = .ret () s1) :
    0 ≤ wrapInt (i * L) ∧ wrapInt (i * L) ≤ wrapInt ((i + 1) * L) := by
  unfold seedLoop at h
  generalize wrapInt (i * L) = lo at h ⊢
  generalize wrapInt ((i + 1) * L) = hi1 at h ⊢
  cases hsl : arr.slice lo hi1 with
  | none =>
    simp only [hsl] at h
    cases h
  | some u =>
    obtain ⟨⟨h0, h1, -⟩, -⟩ := slice_some _ _ _ _ hsl
    exact ⟨h0, h1⟩

/-- The root object made by the package-level `New`. -/
theorem New_ret (unitLength unitAmount : Int) (hL : IsInt unitLength) (root : Nat)
    (s0 : State) (h : New unitLength unitAmount = .ret (some root, none) s0) :
    0 < unitLength ∧ 0 < unitAmount ∧ unitLength * unitAmount < (2 : Int) ^ 63 ∧ root = 0 ∧
    s0 = { nodes := [{ mutex := .free, name := "root", parent := none, branch := [],
                       unitLength := unitLength, unitAmount := unitAmount,
                       storageLength := unitLength * unitAmount,
                       storageArray := some ⟨0, (unitLength * unitAmount).toNat,
                         (unitLength * unitAmount).toNat⟩,
                       storageChanRead := ⟨[], unitAmount.toNat, false⟩,
                       isClosed := false }]
           storageChan := ⟨units unitLength.toNat unitAmount.toNat, unitAmount.toNat, false⟩
           mem := List.replicate (unitLength * unitAmount).toNat 0 } := by
  unfold New at h
  generalize hSL : wrapInt (unitLength * unitAmount) = SL at h
  dsimp only at h
  by_cases hpos : SL ≤ 0
  · simp only [hpos, if_true] at h
    cases h
  · simp only [hpos, if_false] at h
    unfold makeSlice Chan.makeSized at h
    by_cases hfit : 0 ≤ SL ∧ SL ≤ maxAlloc
    swap
    · simp only [if_neg hfit] at h
      cases h
    simp only [if_pos hfit] at h
    by_cases hmf : 0 ≤ unitAmount ∧ 24 * unitAmount ≤ maxAlloc - 96
    · have hm0 : 0 ≤ unitAmount := hmf.1
      simp only [if_pos hmf] at h
      cases hseed : seedLoop ⟨0, SL.toNat, SL.toNat⟩ unitLength unitAmount.toNat 0
          { nodes := [{ mutex := .free, name := "root", parent := none, branch := [],
                        unitLength := unitLength, unitAmount := unitAmount,
                        storageLength := SL,
                        storageArray := some ⟨0, SL.toNat, SL.toNat⟩,
                        storageChanRead := ⟨[], unitAmount.toNat, false⟩,
                        isClosed := false }]
            storageChan := ⟨[], unitAmount.toNat, false⟩
            mem := List.replicate SL.toNat 0 } with
      | block s1 held => simp only [hseed] at h; cases h
      | panic => simp only [hseed] at h; cases h
      | fuel => simp only [hseed] at h; cases h
      | ret v s1 =>
        simp only [hseed] at h
        cases h
        have hmpos : 0 < unitAmount := by
          rcases lt_or_eq_of_le hm0 with hlt | heq
          · exact hlt
          · exfalso
            rw [← heq, Int.mul_zero] at hSL
            have : wrapInt 0 = 0 := by decide
            omega
        obtain ⟨kk, hkk⟩ : ∃ kk, unitAmount.toNat = kk + 1 :=
          ⟨unitAmount.toNat - 1, by omega⟩
        have hseed1 := hseed
        rw [hkk] at hseed1
        obtain ⟨-, hf1⟩ := seedLoop_first _ _ _ _ _ _ hseed1
        have hw0 : wrapInt (0 * unitLength) = 0 := by
          rw [Int.zero_mul]; decide
        have hw1 : wrapInt ((0 + 1) * unitLength) = unitLength := by
          rw [Int.zero_add, Int.one_mul]
          exact wrapInt_of_isInt _ hL
        rw [hw0, hw1] at hf1
        have hLN : unitLength = (unitLength.toNat : Int) := by omega
        have hcap : (((⟨0, SL.toNat, SL.toNat⟩ : Slice).cap : Nat) : Int) < (2 : Int) ^ 63 := by
          have := wrapInt_lt (unitLength * unitAmount)
          rw [hSL] at this
          show ((SL.toNat : Nat) : Int) < (2 : Int) ^ 63
          omega
        obtain ⟨hle, hs1⟩ := seedLoop_ret ⟨0, SL.toNat, SL.toNat⟩ unitLength unitLength.toNat
          hLN hL.2 hcap rfl unitAmount.toNat 0 0 _ _ rfl (by simp) hseed
        have hprod : unitLength * unitAmount = ((unitAmount.toNat * unitLength.toNat : Nat) : Int) := by
          have hmN : unitAmount = (unitAmount.toNat : Int) := by omega
          rw [Int.natCast_mul, ← hLN, ← hmN, Int.mul_comm]
        have hle' : ((unitAmount.toNat * unitLength.toNat : Nat) : Int) ≤ (SL.toNat : Int) := by
          have : unitAmount.toNat * unitLength.toNat ≤ SL.toNat := by simpa using hle
          exact_mod_cast this
        have hSLeq : SL = unitLength * unitAmount := by
          rw [← hSL]
          apply wrapInt_of_isInt
          unfold IsInt
          constructor
          · rw [hprod]
            have : (0 : Int) ≤ ((unitAmount.toNat * unitLength.toNat : Nat) : Int) :=
              Int.natCast_nonneg _
            omega
          · rw [hprod]
            show ((unitAmount.toNat * unitLength.toNat : Nat) : Int) < (2 : Int) ^ 63
            have h2 : ((SL.toNat : Nat) : Int) < (2 : Int) ^ 63 := hcap
            omega
        have hLpos : 0 < unitLength := by
          rcases lt_or_eq_of_le hf1 with hlt | heq
          · exact hlt
          · exfalso
            rw [← heq, Int.zero_mul] at hSL
            have : wrapInt 0 = 0 := by decide
            omega
        refine ⟨hLpos, hmpos, ?_, rfl, ?_⟩
        · rw [← hSLeq]
          have := wrapInt_lt (unitLength * unitAmount)
          rw [hSL] at this
          exact this
        · rw [hs1]
          subst hSLeq
          have hcapN : (unitLength * unitAmount).toNat = unitLength.toNat * unitAmount.toNat := by
            rw [hprod, Int.toNat_natCast, Nat.mul_comm]
          simp only [units, List.nil_append, List.range_eq_range', hcapN]
    · simp only [if_neg hmf] at h
      cases h


theorem keeps_forget {α : Type} (U : Multiset (Nat × Nat)) (held : List Slice)
    (o : Outcome α) (h : Keeps U held o) : Keeps U held o.forget := by
  cases o <;> exact h

theorem run_keeps (U : Multiset (Nat × Nat)) (held : List Slice) (c : Call) (s : State)
    (hc : Conserved U s held) : Keeps U held (c.run s) := by
  cases c with
  | Write pool p => exact keeps_forget U held _ (Write_keeps U s pool p held hc)
  | Read pool p => exact keeps_forget U held _ (Read_keeps U s pool p held hc)
  | New pool poolName unitAmount =>
    exact keeps_forget U held _ (New_keeps U s pool poolName unitAmount held hc)
  | Close fuel pool => exact keeps_forget U held _ (Close_keeps U held fuel s pool hc)

theorem reach_conserved (U : Multiset (Nat × Nat)) (s0 s : State) (held : List Slice)
    (h0 : Conserved U s0 []) (hr : Reach s0 s held) : Conserved U s held := by
  induction hr with
  | init => exact h0
  | ret c s s1 held _ hrun ih =>
    have hk := run_keeps U held c s ih
    rw [hrun] at hk
    exact hk
  | block c s s1 held h _ hrun ih =>
    have hk := run_keeps U held c s ih
    rw [hrun] at hk
    exact hk

theorem units_nodup (L m : Nat) (hL : 0 < L) : ((units L m).map Slice.unit).Nodup := by
  unfold units
  rw [List.map_map]
  apply List.Nodup.map _ (List.nodup_range m)
  intro a b hab
  simp only [Function.comp, Slice.unit, Prod.mk.injEq] at hab
  exact Nat.eq_of_mul_eq_mul_right hL hab.1

theorem units_length (L m : Nat) : (units L m).length = m := by
  simp [units]


/-! ## Frame lemmas -/

theorem lock_ret (s s1 : State) (pool : Nat) (h : Pool.lock s pool = .ret () s1) :
    ∃ nd m, s.nodes[pool]? = some nd ∧ nd.mutex ≠ .held ∧
      s1 = s.setNode pool { nd with mutex := m } := by
  unfold Pool.lock at h
  split at h
  · cases h
  · rename_i nd hnd
    split at h
    · rename_i hm
      cases h
      exact ⟨nd, _, hnd, by rw [hm]; decide, rfl⟩
    · rename_i hm
      cases h
      exact ⟨nd, _, hnd, by rw [hm]; decide, rfl⟩
    · cases h

theorem lock_state (s s1 : State) (pool : Nat) (h : (Pool.lock s pool).state? = some s1) :
    s1.mem = s.mem ∧ s1.storageChan = s.storageChan ∧
      (∀ q, q ≠ pool → s1.nodes[q]? = s.nodes[q]?) ∧
      (∀ nd1, s1.nodes[pool]? = some nd1 → ∃ nd, s.nodes[pool]? = some nd ∧
        nd1.storageChanRead = nd.storageChanRead ∧ nd1.isClosed = nd.isClosed ∧
        nd1.unitLength = nd.unitLength ∧ nd1.branch = nd.branch ∧ nd1.parent = nd.parent ∧
        nd1.name = nd.name) := by
  have hset : ∀ (nd : Pool) (m : Mutex), s.nodes[pool]? = some nd →
      s1 = s.setNode pool { nd with mutex := m } →
      s1.mem = s.mem ∧ s1.storageChan = s.storageChan ∧
      (∀ q, q ≠ pool → s1.nodes[q]? = s.nodes[q]?) ∧
      (∀ nd1, s1.nodes[pool]? = some nd1 → ∃ nd, s.nodes[pool]? = some nd ∧
        nd1.storageChanRead = nd.storageChanRead ∧ nd1.isClosed = nd.isClosed ∧
        nd1.unitLength = nd.unitLength ∧ nd1.branch = nd.branch ∧ nd1.parent = nd.parent ∧
        nd1.name = nd.name) := by
    intro nd m hnd hs1
    subst hs1
    refine ⟨rfl, rfl, fun q hq => setNode_get_ne s pool q _ (Ne.symm hq), ?_⟩
    intro nd1 h1
    rw [setNode_get_self s pool _ nd hnd] at h1
    cases h1
    exact ⟨nd, hnd, rfl, rfl, rfl, rfl, rfl, rfl⟩
  unfold Pool.lock at h
  split at h
  · cases h
  · rename_i nd hnd
    split at h
    · simp only [Outcome.state?, Option.some.injEq] at h
      exact hset nd _ hnd h.symm
    · simp only [Outcome.state?, Option.some.injEq] at h
      exact hset nd _ hnd h.symm
    · simp only [Outcome.state?, Option.some.injEq] at h
      subst h
      exact ⟨rfl, rfl, fun _ _ => rfl, fun nd1 h1 => ⟨nd1, h1, rfl, rfl, rfl, rfl, rfl, rfl⟩⟩

theorem unlock_state (s s1 : State) (pool : Nat) (h : (Pool.unlock s pool).state? = some s1) :
    s1.mem = s.mem ∧ s1.storageChan = s.storageChan ∧
      (∀ q, q ≠ pool → s1.nodes[q]? = s.nodes[q]?) ∧
      (∀ nd1, s1.nodes[pool]? = some nd1 → ∃ nd, s.nodes[pool]? = some nd ∧
        nd1.storageChanRead = nd.storageChanRead ∧ nd1.isClosed = nd.isClosed ∧
        nd1.unitLength = nd.unitLength ∧ nd1.branch = nd.branch ∧ nd1.parent = nd.parent ∧
        nd1.name = nd.name) := by
  have hset : ∀ (nd : Pool) (m : Mutex), s.nodes[pool]? = some nd →
      s1 = s.setNode pool { nd with mutex := m } →
      s1.mem = s.mem ∧ s1.storageChan = s.storageChan ∧
      (∀ q, q ≠ pool → s1.nodes[q]? = s.nodes[q]?) ∧
      (∀ nd1, s1.nodes[pool]? = some nd1 → ∃ nd, s.nodes[pool]? = some nd ∧
        nd1.storageChanRead = nd.storageChanRead ∧ nd1.isClosed = nd.isClosed ∧
        nd1.unitLength = nd.unitLength ∧ nd1.branch = nd.branch ∧ nd1.parent = nd.parent ∧
        nd1.name = nd.name) := by
    intro nd m hnd hs1
    subst hs1
    refine ⟨rfl, rfl, fun q hq => setNode_get_ne s pool q _ (Ne.symm hq), ?_⟩
    intro nd1 h1
    rw [setNode_get_self s pool _ nd hnd] at h1
    cases h1
    exact ⟨nd, hnd, rfl, rfl, rfl, rfl, rfl, rfl⟩
  unfold Pool.unlock at h
  split at h
  · cases h
  · rename_i nd hnd
    split at h
    · simp only [Outcome.state?, Option.some.injEq] at h
      exact hset nd _ hnd h.symm
    · simp only [Outcome.state?, Option.some.injEq] at h
      exact hset nd _ hnd h.symm
    · simp only [Outcome.state?, Option.some.injEq] at h
      subst h
      exact ⟨rfl, rfl, fun _ _ => rfl, fun nd1 h1 => ⟨nd1, h1, rfl, rfl, rfl, rfl, rfl, rfl⟩⟩

theorem deferUnlock_state {α : Type} (s s1 : State) (pool : Nat) (v : α)
    (h : (deferUnlock s pool v).state? = some s1) :
    (Pool.unlock s pool).state? = some s1 := by
  unfold deferUnlock at h
  split at h <;> rename_i heq <;> rw [heq] <;> exact h

theorem copyToMem_nil (mem : List Byte) (p : List Byte) :
    copyToMem mem Slice.nil p = mem := by
  simp [copyToMem, Slice.nil, copyLen]

/-- What a `Write` on node `pool` can change: only its own node, the free queue and the
bytes of the slice taken from the free queue. -/
theorem Write_frame (s s1 : State) (pool : Nat) (p : List Byte)
    (h : (Pool.Write s pool p).state? = some s1) :
    (∀ q, q ≠ pool → s1.nodes[q]? = s.nodes[q]?) ∧
      (s1.mem = s.mem ∨
        ∃ u rest, s.storageChan.buf = u :: rest ∧ s1.mem = copyToMem s.mem u p) := by
  unfold Pool.Write at h
  split at h
  · rename_i s2 held heq
    have := lock_state s s1 pool (by rw [heq]; exact h)
    exact ⟨this.2.2.1, Or.inl this.1⟩
  · cases h
  · cases h
  · rename_i s2 heq
    obtain ⟨hmem, hfree, hother, -⟩ := lock_state s s2 pool (by rw [heq]; rfl)
    split at h
    · cases h
    · rename_i nd hnd
      split at h
      · have hu := unlock_state s2 s1 pool (deferUnlock_state _ _ _ _ h)
        refine ⟨fun q hq => by rw [hu.2.2.1 q hq, hother q hq], Or.inl ?_⟩
        rw [hu.1, hmem]
      · split at h
        · simp only [Outcome.state?, Option.some.injEq] at h
          subst h
          exact ⟨hother, Or.inl hmem⟩
        · rename_i u ok ch hrecv
          have hm' : copyToMem s2.mem u p = s.mem ∨
              ∃ u1 rest, s.storageChan.buf = u1 :: rest ∧
                copyToMem s2.mem u p = copyToMem s.mem u1 p := by
            rcases recv_cases _ _ _ _ hrecv with ⟨-, hb, -, -⟩ | ⟨-, hb, hcl⟩
            · right
              exact ⟨u, ch.buf, by rw [← hfree]; exact hb, by rw [hmem]⟩
            · left
              unfold Chan.recv at hrecv
              rw [hb] at hrecv
              simp only [hcl, if_true] at hrecv
              cases hrecv
              rw [copyToMem_nil, hmem]
          dsimp only at h
          split at h
          · cases h
          · split at h
            · cases h
            · simp only [Outcome.state?, Option.some.injEq] at h
              subst h
              exact ⟨hother, hm'⟩
            · have hu := unlock_state _ s1 pool (deferUnlock_state _ _ _ _ h)
              refine ⟨fun q hq => ?_, ?_⟩
              · rw [hu.2.2.1 q hq, setNode_get_ne _ pool q _ (Ne.symm hq)]
                exact hother q hq
              · rw [hu.1]
                exact hm'


/-- What a `Read` on node `pool` can change: only its own node and the free queue. -/
theorem Read_frame (s s1 : State) (pool : Nat) (p : List Byte)
    (h : (Pool.Read s pool p).state? = some s1) :
    s1.mem = s.mem ∧ ∀ q, q ≠ pool → s1.nodes[q]? = s.nodes[q]? := by
  unfold Pool.Read at h
  split at h
  · cases h
  · rename_i nd hnd
    split at h
    · simp only [Outcome.state?, Option.some.injEq] at h
      subst h
      exact ⟨rfl, fun _ _ => rfl⟩
    · split at h
      · simp only [Outcome.state?, Option.some.injEq] at h
        subst h
        exact ⟨rfl, fun _ _ => rfl⟩
      · dsimp only at h
        split at h
        · cases h
        · split at h
          · cases h
          · simp only [Outcome.state?, Option.some.injEq] at h
            subst h
            exact ⟨rfl, fun q hq => setNode_get_ne s pool q _ (Ne.symm hq)⟩
          · simp only [Outcome.state?, Option.some.injEq] at h
            subst h
            exact ⟨rfl, fun q hq => setNode_get_ne s pool q _ (Ne.symm hq)⟩

/-- A `Read` that returns without error has delivered the oldest record of its node. -/
theorem Read_ret (s s1 : State) (pool : Nat) (p p1 : List Byte) (n : Int)
    (h : Pool.Read s pool p = .ret (p1, n, none) s1) :
    ∃ nd u rest, s.nodes[pool]? = some nd ∧ nd.storageChanRead.buf = u :: rest ∧
      p1 = copyFromMem s.mem p u ∧ n = (copyLen p.length u.len : Nat) ∧ s1.mem = s.mem ∧
      s1.nodes[pool]? = some
        { nd with storageChanRead := { nd.storageChanRead with buf := rest } } := by
  unfold Pool.Read at h
  split at h
  · cases h
  · rename_i nd hnd
    split at h
    · cases h
    · rename_i u ok ch hrecv
      split at h
      · cases h
      · rename_i hok
        rcases recv_cases _ _ _ _ hrecv with ⟨-, hb, hcap, hcl⟩ | ⟨hf, -, -⟩
        · dsimp only at h
          split at h
          · cases h
          · split at h
            · cases h
            · cases h
            · cases h
              refine ⟨nd, u, ch.buf, hnd, hb, rfl, rfl, rfl, ?_⟩
              have hch : ch = { nd.storageChanRead with buf := ch.buf } := by
                cases ch
                simp_all
              rw [← hch]
              exact setNode_get_self s pool _ nd hnd
        · simp [hf] at hok

theorem deferUnlock_ret_state {α : Type} (s s1 : State) (pool : Nat) (v w : α)
    (h : deferUnlock s pool v = .ret w s1) : Pool.unlock s pool = .ret () s1 := by
  unfold deferUnlock at h
  split at h
  · rename_i heq
    cases h
    exact heq
  · cases h
  · cases h
  · cases h

/-- A `Write` that returns without error has copied into the slice it received from the free
queue and appended that slice, cut to the bytes copied, to the pending queue of its node. -/
theorem Write_ret (s s1 : State) (pool : Nat) (p : List Byte) (n : Int)
    (h : Pool.Write s pool p = .ret (n, none) s1) :
    ∃ nd nd1 u, s.nodes[pool]? = some nd ∧
      ((∃ rest, s.storageChan.buf = u :: rest) ∨ u = Slice.nil) ∧
      n = (copyLen u.len p.length : Nat) ∧ s1.mem = copyToMem s.mem u p ∧
      s1.nodes[pool]? = some nd1 ∧
      nd1.storageChanRead.buf
        = nd.storageChanRead.buf ++ [⟨u.off, copyLen u.len p.length, u.cap⟩] := by
  unfold Pool.Write at h
  split at h
  · cases h
  · cases h
  · cases h
  · rename_i s2 heq
    obtain ⟨nd, m, hnd, -, hs2⟩ := lock_ret _ _ _ heq
    have hnd2 : s2.nodes[pool]? = some { nd with mutex := m } := by
      rw [hs2]; exact setNode_get_self s pool _ nd hnd
    rw [hnd2] at h
    dsimp only at h
    split at h
    · have := deferUnlock_ret _ _ _ _ _ h
      cases this
    · split at h
      · cases h
      · rename_i u ok ch hrecv
        have hsrc : (∃ rest, s.storageChan.buf = u :: rest) ∨ u = Slice.nil := by
          have hfree : s2.storageChan = s.storageChan := by rw [hs2]; rfl
          rcases recv_cases _ _ _ _ hrecv with ⟨-, hb, -, -⟩ | ⟨-, hb, hcl⟩
          · left
            exact ⟨ch.buf, by rw [← hfree]; exact hb⟩
          · right
            unfold Chan.recv at hrecv
            rw [hb] at hrecv
            simp only [hcl, if_true] at hrecv
            cases hrecv
            rfl
        split at h
        · cases h
        · rename_i u1 hu1
          obtain ⟨-, hu1⟩ := slice_some _ _ _ _ hu1
          split at h
          · cases h
          · cases h
          · rename_i ch1 hsend
            have hch1 := send_sent_eq _ _ _ hsend
            have hret := deferUnlock_ret _ _ _ _ _ h
            have hun := deferUnlock_ret_state _ _ _ _ _ h
            have hget := setNode_get_self
              { s2 with storageChan := ch, mem := copyToMem s2.mem u p } pool
              { ({ nd with mutex := m } : Pool) with storageChanRead := ch1 }
              { nd with mutex := m } hnd2
            obtain ⟨nd3, hnd3, -, hs1⟩ := unlock_ret _ _ _ hun
            rw [hget] at hnd3
            cases hnd3
            cases hret
            refine ⟨nd, { ({ ({ nd with mutex := m } : Pool) with storageChanRead := ch1 }
              : Pool) with mutex := .free }, u, hnd, hsrc, rfl, ?_, ?_, ?_⟩
            · rw [hs1, hs2]; rfl
            · rw [hs1]
              exact setNode_get_self _ pool _ _ hget
            · rw [hch1, hu1]
              simp

theorem records_eq_of_bytes (s s1 : State) (pool : Nat)
    (hnode : s1.nodes[pool]? = s.nodes[pool]?)
    (hb : ∀ nd, s.nodes[pool]? = some nd → ∀ h ∈ nd.storageChanRead.buf,
      h.bytes s1.mem = h.bytes s.mem) :
    s1.records pool = s.records pool := by
  unfold State.records
  rw [hnode]
  cases hnd : s.nodes[pool]? with
  | none => rfl
  | some nd =>
    dsimp only
    apply List.map_congr_left
    intro h hh
    exact hb nd hnd h hh



/-! ## Sequences of writes and reads -/

theorem writeAll_spec (L : Nat) (pool : Nat) (ds : List (List Byte)) :
    ∀ (s : State) (nd : Pool) (hs rest : List Slice),
      s.nodes[pool]? = some nd → nd.isClosed = false → nd.mutex = .free →
      nd.storageChanRead.closed = false →
      nd.storageChanRead.buf.length + ds.length ≤ nd.storageChanRead.cap →
      s.storageChan.buf = hs ++ rest → hs.length = ds.length →
      (∀ u ∈ hs, u.len = L ∧ L ≤ u.cap ∧ u.off + L ≤ s.mem.length) →
      hs.Pairwise Slice.Apart →
      (∀ u ∈ hs, ∀ h ∈ nd.storageChanRead.buf, u.Apart h) →
      (∀ d ∈ ds, d.length ≤ L) →
      ∃ s1 hb, writeAll s pool ds = some s1 ∧
        s1.nodes[pool]? = some { nd with storageChanRead :=
          { nd.storageChanRead with buf := nd.storageChanRead.buf ++ hb } } ∧
        s1.storageChan = { s.storageChan with buf := rest } ∧
        s1.mem.length = s.mem.length ∧
        List.Forall₂ (fun h d => h.bytes s1.mem = d ∧ h.len = d.length ∧ L ≤ h.cap) hb ds ∧
        (∀ h ∈ nd.storageChanRead.buf, h.bytes s1.mem = h.bytes s.mem) := by
  induction ds with
  | nil =>
    intro s nd hs rest hnd _ _ _ _ hfree hlen _ _ _ _
    have hs0 : hs = [] := List.length_eq_zero.1 hlen
    subst hs0
    refine ⟨s, [], rfl, ?_, ?_, rfl, List.Forall₂.nil, fun _ _ => rfl⟩
    · rw [hnd, List.append_nil]
    · cases hsc : s.storageChan
      rw [hsc] at hfree
      simp only [List.nil_append] at hfree
      simp [hfree]
  | cons d ds ih =>
    intro s nd hs rest hnd hopen hlock hpc hroom hfree hlen hfull hpair hapart hds
    cases hs with
    | nil => simp at hlen
    | cons u hs =>
      obtain ⟨hulen, hucap, huin⟩ := hfull u (List.mem_cons_self _ _)
      have hdl : d.length ≤ L := hds d (List.mem_cons_self _ _)
      have hn : copyLen u.len d.length = d.length := by
        unfold copyLen; omega
      have hw := Write_ok s pool nd d u (hs ++ rest) hnd hlock hopen
        (by rw [hfree]; rfl) (by omega) hpc
        (by simp only [List.length_cons] at hroom; omega)
      rw [hn] at hw
      have hlt : pool < s.nodes.length := by
        rcases List.getElem?_eq_some.1 hnd with ⟨hlt, _⟩
        exact hlt
      have hmlen : (copyToMem s.mem u d).length = s.mem.length :=
        length_copyToMem s.mem u d (by omega)
      obtain ⟨s1, hb, hwa, hnd1, hfree1, hlen1, hfa, hkeep⟩ := ih
        { nodes := s.nodes.set pool
            { nd with storageChanRead :=
                { nd.storageChanRead with
                  buf := nd.storageChanRead.buf ++ [⟨u.off, d.length, u.cap⟩] } }
          storageChan := { s.storageChan with buf := hs ++ rest }
          mem := copyToMem s.mem u d }
        { nd with storageChanRead :=
            { nd.storageChanRead with
              buf := nd.storageChanRead.buf ++ [⟨u.off, d.length, u.cap⟩] } }
        hs rest
        (by simp [List.getElem?_set_self hlt]) hopen hlock hpc
        (by simp only [List.length_append, List.length_cons, List.length_nil] at hroom ⊢
            omega)
        rfl (by simpa using hlen)
        (by
          intro v hv
          obtain ⟨h1, h2, h3⟩ := hfull v (List.mem_cons_of_mem _ hv)
          exact ⟨h1, h2, by rw [hmlen]; exact h3⟩)
        (List.Pairwise.of_cons hpair)
        (by
          intro v hv h hh
          simp only [List.mem_append, List.mem_singleton] at hh
          rcases hh with hh | hh
          · exact hapart v (List.mem_cons_of_mem _ hv) h hh
          · subst hh
            have huv : u.Apart v := List.rel_of_pairwise_cons hpair hv
            unfold Slice.Apart at huv ⊢
            simp only
            omega)
        (fun e he => hds e (List.mem_cons_of_mem _ he))
      refine ⟨s1, ⟨u.off, d.length, u.cap⟩ :: hb, ?_, ?_, ?_, ?_, ?_, ?_⟩
      · simp only [writeAll, hw, if_true]
        exact hwa
      · rw [hnd1]
        simp
      · rw [hfree1]
      · rw [hlen1, hmlen]
      · refine List.Forall₂.cons ⟨?_, rfl, hucap⟩ hfa
        rw [hkeep _ (by simp)]
        have := bytes_copyToMem_self s.mem u d (by omega)
        rw [hn] at this
        rw [this]
        exact List.take_of_length_le (by omega)
      · intro h hh
        rw [hkeep h (by simp [hh])]
        exact bytes_copyToMem_disjoint s.mem u h d (by omega)
          ((hapart u (List.mem_cons_self _ _) h hh).symm)


theorem readAll_spec (L : Nat) (pool : Nat) (ds : List (List Byte)) :
    ∀ (s : State) (nd : Pool) (hb : List Slice) (bufs : List (List Byte)),
      s.nodes[pool]? = some nd → nd.storageChanRead.buf = hb → nd.unitLength = (L : Int) →
      List.Forall₂ (fun h d => h.bytes s.mem = d ∧ h.len = d.length ∧ L ≤ h.cap) hb ds →
      s.storageChan.closed = false →
      s.storageChan.buf.length + hb.length ≤ s.storageChan.cap →
      bufs.length = ds.length → (∀ b ∈ bufs, L ≤ b.length) → (∀ d ∈ ds, d.length ≤ L) →
      readAll s pool bufs
        = some (List.zipWith (fun d b => (d ++ b.drop d.length, (d.length : Int))) ds bufs) := by
  induction ds with
  | nil =>
    intro s nd hb bufs _ _ _ _ _ _ hlen _ _
    have hb0 : bufs = [] := List.length_eq_zero.1 hlen
    subst hb0
    rfl
  | cons d ds ih =>
    intro s nd hb bufs hnd hbuf hL hfa hfc hroom hlen hbl hdl
    cases bufs with
    | nil => simp at hlen
    | cons b bufs =>
      cases hfa with
      | cons hhd hfa =>
        rename_i h hb1
        obtain ⟨hbytes, hhlen, hhcap⟩ := hhd
        have hlt : pool < s.nodes.length := by
          rcases List.getElem?_eq_some.1 hnd with ⟨hlt, _⟩
          exact hlt
        have hr := Read_ok s pool nd b h hb1 hnd hbuf (by rw [hL]; exact Int.natCast_nonneg _)
          (by rw [hL]; exact_mod_cast hhcap) hfc
          (by simp only [List.length_cons] at hroom; omega)
        have hbL : L ≤ b.length := hbl b (List.mem_cons_self _ _)
        have hdL : d.length ≤ L := hdl d (List.mem_cons_self _ _)
        have hn : copyLen b.length h.len = d.length := by
          unfold copyLen; omega
        have hv : copyFromMem s.mem b h = d ++ b.drop d.length := by
          simp only [copyFromMem, hn, hbytes]
          rw [List.take_of_length_le (Nat.le_refl _)]
        rw [hn, hv] at hr
        have hrest := ih
          { nodes := s.nodes.set pool
              { nd with storageChanRead := { nd.storageChanRead with buf := hb1 } }
            storageChan :=
              { s.storageChan with
                buf := s.storageChan.buf ++ [⟨h.off, nd.unitLength.toNat, h.cap⟩] }
            mem := s.mem }
          { nd with storageChanRead := { nd.storageChanRead with buf := hb1 } }
          hb1 bufs
          (by simp [List.getElem?_set_self hlt]) rfl hL hfa hfc
          (by simp only [List.length_append, List.length_cons, List.length_nil] at hroom ⊢
              omega)
          (by simpa using hlen)
          (fun e he => hbl e (List.mem_cons_of_mem _ he))
          (fun e he => hdl e (List.mem_cons_of_mem _ he))
        simp only [readAll, hr, hrest, List.zipWith_cons_cons, Option.map_some']


/-! ## `close` never returns on an open node -/

theorem lock_ret_node (s s1 : State) (q pool : Nat) (nd : Pool)
    (h : Pool.lock s q = .ret () s1) (hnd : s.nodes[pool]? = some nd) :
    ∃ nd1, s1.nodes[pool]? = some nd1 ∧ nd1.isClosed = nd.isClosed := by
  obtain ⟨ndq, m, hq, -, hs1⟩ := lock_ret s s1 q h
  by_cases hp : q = pool
  · subst hp
    rw [hq] at hnd
    cases hnd
    exact ⟨{ nd with mutex := m }, by rw [hs1]; exact setNode_get_self s q _ _ hq, rfl⟩
  · exact ⟨nd, by rw [hs1, setNode_get_ne s q pool _ hp]; exact hnd, rfl⟩

theorem unlock_ret_node (s s1 : State) (q pool : Nat) (nd : Pool)
    (h : Pool.unlock s q = .ret () s1) (hnd : s.nodes[pool]? = some nd) :
    ∃ nd1, s1.nodes[pool]? = some nd1 ∧ nd1.isClosed = nd.isClosed := by
  obtain ⟨ndq, hq, -, hs1⟩ := unlock_ret s s1 q h
  by_cases hp : q = pool
  · subst hp
    rw [hq] at hnd
    cases hnd
    exact ⟨{ nd with mutex := .free }, by rw [hs1]; exact setNode_get_self s q _ _ hq, rfl⟩
  · exact ⟨nd, by rw [hs1, setNode_get_ne s q pool _ hp]; exact hnd, rfl⟩

/-- `close` returns only on a node that is already closed: on an open node the explicit
`<-pool.mutex` is followed by the deferred `unlock`, which finds the mutex channel empty. -/
theorem close_ret_closed (fuel : Nat) (s s1 : State) (pool : Nat) (v : Option Err)
    (h : Pool.close fuel s pool = .ret v s1) :
    ∃ nd, s.nodes[pool]? = some nd ∧ nd.isClosed = true := by
  cases fuel with
  | zero => simp [Pool.close] at h
  | succ fuel =>
    unfold Pool.close at h
    split at h
    · cases h
    · cases h
    · cases h
    · rename_i s2 heq
      obtain ⟨nd, m, hnd, -, hs2⟩ := lock_ret _ _ _ heq
      have hnd2 : s2.nodes[pool]? = some { nd with mutex := m } := by
        rw [hs2]; exact setNode_get_self s pool _ nd hnd
      simp only [hnd2] at h
      split at h
      · rename_i hcl
        exact ⟨nd, hnd, hcl⟩
      · split at h
        · cases h
        · cases h
        · cases h
        · split at h
          · cases h
          · split at h
            · cases h
            · cases h
            · cases h
            · split at h
              · cases h
              · split at h
                · cases h
                · split at h
                  · cases h
                  · cases h
                  · cases h
                  · rename_i s5 heq5
                    obtain ⟨nd4, hnd4, -, hs5⟩ := unlock_ret _ _ _ heq5
                    have hget := setNode_get_self _ pool { nd4 with mutex := .free } nd4 hnd4
                    rw [← hs5] at hget
                    rw [deferUnlock_free s5 pool _ _ hget rfl] at h
                    cases h

/-- `Close` does not return on an open node, whatever the state and the recursion budget. -/
theorem Close_open_not_ret (fuel : Nat) (s s1 : State) (pool : Nat) (nd : Pool)
    (v : Option Err) (hnd : s.nodes[pool]? = some nd) (hopen : nd.isClosed = false) :
    Pool.Close fuel s pool ≠ .ret v s1 := by
  intro h
  unfold Pool.Close at h
  split at h
  · cases h
  · cases h
  · cases h
  · rename_i s2 heq
    obtain ⟨nd2, hnd2, hc2⟩ := lock_ret_node s s2 pool pool nd heq hnd
    simp only [hnd2] at h
    split at h
    · cases h
    · cases h
    · cases h
    · rename_i s3 heq3
      obtain ⟨nd3, hnd3, hc3⟩ := unlock_ret_node s2 s3 pool pool nd2 heq3 hnd2
      split at h
      · cases h
      · cases h
      · cases h
      · rename_i s4 heq4
        have hnd4 : ∃ nd4, s4.nodes[pool]? = some nd4 ∧ nd4.isClosed = nd3.isClosed := by
          split at heq4
          · exact lock_ret_node s3 s4 _ pool nd3 heq4 hnd3
          · cases heq4
            exact ⟨nd3, hnd3, rfl⟩
        obtain ⟨nd4, hnd4, hc4⟩ := hnd4
        split at h
        · cases h
        · cases h
        · cases h
        · rename_i heq5
          obtain ⟨nd5, hnd5, hc5⟩ := close_ret_closed _ _ _ _ _ heq5
          rw [hnd4] at hnd5
          cases hnd5
          rw [hc4, hc3, hc2, hopen] at hc5
          cases hc5
        · rename_i heq5
          obtain ⟨nd5, hnd5, hc5⟩ := close_ret_closed _ _ _ _ _ heq5
          rw [hnd4] at hnd5
          cases hnd5
          rw [hc4, hc3, hc2, hopen] at hc5
          cases hc5


/-- `New` has no path that returns `ErrPoolIsClosed`. -/
theorem New_err_not_closed (s s1 : State) (pool : Nat) (poolName : String) (unitAmount : Int)
    (v : Option Nat × Option Err) (h : Pool.New s pool poolName unitAmount = .ret v s1) :
    v.2 ≠ some .ErrPoolIsClosed := by
  unfold Pool.New at h
  split at h
  · cases h
    simp
  · split at h
    · cases h
    · split at h
      · cases h
        simp
      · split at h
        · cases h
        · cases h
          simp

/-! ## The paths of `Write` and `Read` on well-formed states -/

/-- Round trip on an open node at rest (lock free) whose pending queue is empty with capacity
at least 1, when the free queue is open, within its capacity, and its oldest entry is a
handle of the full unit length `L` lying in the arena: `Write(D)` with `len(D) = L` returns
`(L, nil)` and the following `Read` into any buffer of length at least `L` returns `(L, nil)`
with the first `L` bytes of the buffer equal to `D` (the rest is untouched). -/
theorem round_trip_of_handle (s : State) (pool : Nat) (nd : Pool) (L c : Nat) (u : Slice)
    (rest : List Slice) (D : List Byte)
    (hnd : s.nodes[pool]? = some nd) (hopen : nd.isClosed = false)
    (hlock : nd.mutex = .free) (hL : nd.unitLength = (L : Int))
    (hpend : nd.storageChanRead = ⟨[], c, false⟩) (hc : 1 ≤ c)
    (hfree : s.storageChan.buf = u :: rest) (hfc : s.storageChan.closed = false)
    (hfcap : s.storageChan.buf.length ≤ s.storageChan.cap)
    (hhandle : IsHandle s.mem L u) (hD : D.length = L) :
    ∃ s1, Pool.Write s pool D = .ret ((L : Int), none) s1 ∧
      ∀ buf : List Byte, L ≤ buf.length →
        ∃ s2, Pool.Read s1 pool buf = .ret (D ++ buf.drop L, (L : Int), none) s2 := by
  obtain ⟨hu, hucap, huin⟩ := hhandle
  have hlt : pool < s.nodes.length := by
    rcases List.getElem?_eq_some.1 hnd with ⟨hlt, _⟩
    exact hlt
  have hn : copyLen u.len D.length = L := by simp [copyLen, hu, hD]
  have hw := Write_ok s pool nd D u rest hnd hlock hopen hfree (by omega)
    (by rw [hpend]) (by rw [hpend]; simpa using hc)
  rw [hn] at hw
  refine ⟨_, hw, ?_⟩
  intro buf hbuf
  have hr := Read_ok
    { nodes := s.nodes.set pool
        { nd with storageChanRead :=
            { nd.storageChanRead with buf := nd.storageChanRead.buf ++ [⟨u.off, L, u.cap⟩] } }
      storageChan := { s.storageChan with buf := rest }
      mem := copyToMem s.mem u D } pool _ buf ⟨u.off, L, u.cap⟩ []
    (by simp [List.getElem?_set_self hlt]; rfl) (by simp [hpend])
    (by simp [hL]) (by simp [hL, hucap]) (by simpa using hfc)
    (by simp only; rw [hfree] at hfcap; simp at hfcap; omega)
  have hb := bytes_copyToMem_self s.mem u D (by omega)
  rw [hn] at hb
  have hcl : copyLen buf.length L = L := by simp [copyLen, hbuf]
  have hv : copyFromMem (copyToMem s.mem u D) buf ⟨u.off, L, u.cap⟩ = D ++ buf.drop L := by
    have hDt : D.take L = D := List.take_of_length_le (by omega)
    simp only [copyFromMem, hcl, hb, hDt]
  simp only [hv, hcl] at hr
  exact ⟨_, hr⟩

/-- On a node marked closed whose pending queue is closed and drained, a `Write` that finds
the lock free returns `(0, ErrPoolIsClosed)` and leaves the whole state as it was, and a
`Read` returns `(0, ErrPoolIsClosed)` with the caller's buffer and the state unchanged. -/
theorem closed_read_write_of_state (s : State) (pool : Nat) (nd : Pool) (p : List Byte)
    (hnd : s.nodes[pool]? = some nd) (hclosed : nd.isClosed = true)
    (hchan : nd.storageChanRead.closed = true) (hdrained : nd.storageChanRead.buf = [])
    (hlock : nd.mutex = .free) :
    Pool.Write s pool p = .ret (0, some .ErrPoolIsClosed) s ∧
      Pool.Read s pool p = .ret (p, 0, some .ErrPoolIsClosed) s := by
  constructor
  · unfold Pool.Write
    rw [lock_free s pool nd hnd hlock]
    simp only [setNode_get_self s pool _ nd hnd, hclosed, if_true]
    rw [deferUnlock_held _ pool _ _ (setNode_get_self s pool _ nd hnd) rfl, setNode_setNode]
    congr 1
    refine Eq.trans ?_ (setNode_same s pool nd hnd)
    congr 1
    cases nd
    simp_all
  · unfold Pool.Read
    simp [hnd, Chan.recv, hdrained, hchan]

/-- On an open node at rest whose acquired free handle `u` has the full unit length `L` and
lies in the arena and whose pending queue is open and has room, `Write(data)` returns
`(min(len(data), L), nil)` and the record appended to the pending queue shows exactly the
first `min(len(data), L)` bytes of `data`. -/
theorem truncation_of_handle (s : State) (pool : Nat) (nd : Pool) (L : Nat) (u : Slice)
    (rest : List Slice) (data : List Byte)
    (hnd : s.nodes[pool]? = some nd) (hopen : nd.isClosed = false)
    (hlock : nd.mutex = .free)
    (hfree : s.storageChan.buf = u :: rest) (hhandle : IsHandle s.mem L u)
    (hpc : nd.storageChanRead.closed = false)
    (hroom : nd.storageChanRead.buf.length < nd.storageChanRead.cap) :
    ∃ s1 nd1 r,
      Pool.Write s pool data = .ret ((min data.length L : Nat), none) s1 ∧
      (∀ k : Nat, data.length = L + k → Pool.Write s pool data = .ret ((L : Int), none) s1) ∧
      s1.nodes[pool]? = some nd1 ∧
      nd1.storageChanRead.buf = nd.storageChanRead.buf ++ [r] ∧
      r.bytes s1.mem = data.take (min data.length L) := by
  obtain ⟨hu, hucap, huin⟩ := hhandle
  have hlt : pool < s.nodes.length := by
    rcases List.getElem?_eq_some.1 hnd with ⟨hlt, _⟩
    exact hlt
  have hn : copyLen u.len data.length = min data.length L := by
    simp [copyLen, hu, Nat.min_comm]
  have hw := Write_ok s pool nd data u rest hnd hlock hopen hfree (by omega) hpc hroom
  rw [hn] at hw
  refine ⟨_, { nd with storageChanRead :=
      { nd.storageChanRead with
        buf := nd.storageChanRead.buf ++ [⟨u.off, min data.length L, u.cap⟩] } },
    ⟨u.off, min data.length L, u.cap⟩, hw, ?_, ?_, rfl, ?_⟩
  · intro k hk
    rw [hw]
    have : min data.length L = L := by omega
    rw [this]
  · simp [List.getElem?_set_self hlt]
  · have hb := bytes_copyToMem_self s.mem u data (by omega)
    rw [hn] at hb
    exact hb

/-- Isolation for two different nodes `A` and `B` in a state whose free-queue slices lie in
the arena and apart from the records pending in `B`: a `Write` or a `Read` on `A`, returning
or blocking, leaves node `B` and the content of its pending records unchanged; a `Write` on
`B` appends the bytes it copied from its own argument; a `Read` on `B` that returns without
error delivers a prefix of the oldest record of `B` and removes that record. -/
theorem isolation_of_apart (s : State) (A B : Nat) (hAB : A ≠ B)
    (hin : ∀ u ∈ s.storageChan.buf, u.off + u.len ≤ s.mem.length)
    (hapart : ∀ u ∈ s.storageChan.buf, ∀ nd, s.nodes[B]? = some nd →
      ∀ h ∈ nd.storageChanRead.buf, u.Apart h) :
    (∀ data s1, (Pool.Write s A data).state? = some s1 →
        s1.nodes[B]? = s.nodes[B]? ∧ s1.records B = s.records B) ∧
    (∀ p s1, (Pool.Read s A p).state? = some s1 →
        s1.nodes[B]? = s.nodes[B]? ∧ s1.records B = s.records B) ∧
    (∀ data n s1, Pool.Write s B data = .ret (n, none) s1 →
        s1.records B = s.records B ++ [data.take n.toNat]) ∧
    (∀ p p1 n s1, Pool.Read s B p = .ret (p1, n, none) s1 →
        ∃ r rs, s.records B = r :: rs ∧ p1 = r.take n.toNat ++ p.drop n.toNat ∧
          s1.records B = rs) := by
  refine ⟨?_, ?_, ?_, ?_⟩
  · intro data s1 h
    obtain ⟨hother, hmem⟩ := Write_frame s s1 A data h
    have hnode := hother B (Ne.symm hAB)
    refine ⟨hnode, records_eq_of_bytes s s1 B hnode ?_⟩
    intro nd hnd h hh
    rcases hmem with hmem | ⟨u, rest, hb, hmem⟩
    · rw [hmem]
    · have hu : u ∈ s.storageChan.buf := by rw [hb]; exact List.mem_cons_self _ _
      rw [hmem]
      exact bytes_copyToMem_disjoint s.mem u h data (hin u hu)
        ((hapart u hu nd hnd h hh).symm)
  · intro p s1 h
    obtain ⟨hmem, hother⟩ := Read_frame s s1 A p h
    have hnode := hother B (Ne.symm hAB)
    refine ⟨hnode, records_eq_of_bytes s s1 B hnode ?_⟩
    intro nd hnd h hh
    rw [hmem]
  · intro data n s1 h
    obtain ⟨nd, nd1, u, hnd, hsrc, hn, hmem, hnd1, hbuf⟩ := Write_ret s s1 B data n h
    have hu : u.off + u.len ≤ s.mem.length ∧
        ∀ h ∈ nd.storageChanRead.buf, u.Apart h := by
      rcases hsrc with ⟨rest, hb⟩ | hnil
      · have hu : u ∈ s.storageChan.buf := by rw [hb]; exact List.mem_cons_self _ _
        exact ⟨hin u hu, hapart u hu nd hnd⟩
      · subst hnil
        exact ⟨by simp [Slice.nil], fun h _ => Or.inl (by simp [Slice.nil])⟩
    unfold State.records
    rw [hnd1, hnd]
    dsimp only
    rw [hbuf, List.map_append, List.map_cons, List.map_nil, hmem,
      bytes_copyToMem_self s.mem u data hu.1, hn, Int.toNat_natCast]
    congr 1
    apply List.map_congr_left
    intro h hh
    exact bytes_copyToMem_disjoint s.mem u h data hu.1 ((hu.2 h hh).symm)
  · intro p p1 n s1 h
    obtain ⟨nd, u, rest, hnd, hbuf, hp1, hn, hmem, hnd1⟩ := Read_ret s s1 B p p1 n h
    refine ⟨u.bytes s.mem, rest.map (Slice.bytes s.mem), ?_, ?_, ?_⟩
    · unfold State.records
      rw [hnd]
      dsimp only
      rw [hbuf, List.map_cons]
    · rw [hp1, hn, Int.toNat_natCast]
      rfl
    · unfold State.records
      rw [hnd1, hmem]

/-- First in, first out on an open node at rest with an empty pending queue of capacity `c`:
for `k ≤ c` records, each of length at most `L`, when the free queue is open and within its
capacity and its `k` oldest entries are full-length handles lying in the arena and pairwise
apart, the `k` calls of `Write` each return `(len(Di), nil)` and the next `k` calls of `Read`
into buffers of length at least `L` return the records in the order written. -/
theorem fifo_of_handles (s : State) (pool : Nat) (nd : Pool) (L c : Nat) (hs rest : List Slice)
    (ds : List (List Byte))
    (hnd : s.nodes[pool]? = some nd) (hopen : nd.isClosed = false)
    (hlock : nd.mutex = .free) (hL : nd.unitLength = (L : Int))
    (hpend : nd.storageChanRead = ⟨[], c, false⟩) (hk : ds.length ≤ c)
    (hfree : s.storageChan.buf = hs ++ rest) (hhs : hs.length = ds.length)
    (hfc : s.storageChan.closed = false)
    (hfcap : s.storageChan.buf.length ≤ s.storageChan.cap)
    (hfull : ∀ u ∈ hs, IsHandle s.mem L u)
    (hapart : hs.Pairwise Slice.Apart)
    (hds : ∀ d ∈ ds, d.length ≤ L) :
    ∃ s1, writeAll s pool ds = some s1 ∧
      ∀ bufs : List (List Byte), bufs.length = ds.length → (∀ b ∈ bufs, L ≤ b.length) →
        readAll s1 pool bufs
          = some (List.zipWith (fun d b => (d ++ b.drop d.length, (d.length : Int))) ds bufs) := by
  obtain ⟨s1, hb, hwa, hnd1, hfree1, -, hfa, -⟩ := writeAll_spec L pool ds s nd hs rest hnd
    hopen hlock (by rw [hpend]) (by rw [hpend]; simpa using hk) hfree hhs hfull hapart
    (by intro u _ h hh; rw [hpend] at hh; simp at hh) hds
  refine ⟨s1, hwa, ?_⟩
  intro bufs hlen hbl
  have hlenb : hb.length = ds.length := List.Forall₂.length_eq hfa
  apply readAll_spec L pool ds s1 _ hb bufs hnd1 (by rw [hpend]; rfl) hL hfa
    (by rw [hfree1]; exact hfc) _ hlen hbl hds
  rw [hfree1]
  rw [hfree] at hfcap
  simp only [List.length_append] at hfcap ⊢
  omega

/-! ## Well-formedness of reachable states -/

theorem mem_of_get {α : Type} (l : List α) (i : Nat) (x : α) (h : l[i]? = some x) : x ∈ l := by
  rcases List.getElem?_eq_some.1 h with ⟨hlt, hx⟩
  rw [← hx]
  exact List.getElem_mem hlt

theorem mem_set_cases {α : Type} (l : List α) (i : Nat) (x y : α) (h : y ∈ l.set i x) :
    y ∈ l ∨ y = x := by
  induction l generalizing i with
  | nil => simp at h
  | cons a t ih =>
    cases i with
    | zero =>
      simp only [List.set_cons_zero, List.mem_cons] at h
      rcases h with h | h
      · exact Or.inr h
      · exact Or.inl (List.mem_cons_of_mem _ h)
    | succ j =>
      simp only [List.set_cons_succ, List.mem_cons] at h
      rcases h with h | h
      · exact Or.inl (by rw [h]; exact List.mem_cons_self _ _)
      · rcases ih j h with h1 | h1
        · exact Or.inl (List.mem_cons_of_mem _ h1)
        · exact Or.inr h1

/-- Every handle of a conserved state views one of the seeded units. -/
theorem unit_of_conserved (L m : Nat) (s : State) (held : List Slice) (h : Slice)
    (hc : Conserved (unitsOf (units L m)) s held) (hh : h ∈ s.handles held) :
    ∃ i, i < m ∧ h.off = i * L ∧ h.cap = L * m - i * L := by
  have hmem : h.unit ∈ unitsOf (s.handles held) := by
    unfold unitsOf
    exact Multiset.mem_coe.2 (List.mem_map_of_mem _ hh)
  rw [hc.2] at hmem
  unfold unitsOf units at hmem
  simp only [Multiset.mem_coe, List.mem_map, List.mem_range] at hmem
  obtain ⟨u, ⟨i, hi, hu⟩, hunit⟩ := hmem
  subst hu
  simp only [Slice.unit, Prod.mk.injEq] at hunit
  exact ⟨i, hi, hunit.1.symm, hunit.2.symm⟩

theorem unit_in_arena (L m i : Nat) (hi : i < m) : i * L + L ≤ L * m ∧ L ≤ L * m - i * L := by
  have h1 : (i + 1) * L ≤ m * L := Nat.mul_le_mul_right L hi
  rw [Nat.add_mul, Nat.one_mul] at h1
  rw [Nat.mul_comm L m]
  omega

theorem free_mem_handles (s : State) (held : List Slice) (h : Slice)
    (hh : h ∈ s.storageChan.buf) : h ∈ s.handles held := by
  simp [State.handles, hh]

theorem pending_mem_handles (s : State) (held : List Slice) (pool : Nat) (nd : Pool)
    (h : Slice) (hnd : s.nodes[pool]? = some nd) (hh : h ∈ nd.storageChanRead.buf) :
    h ∈ s.handles held := by
  simp only [State.handles, State.pending, List.mem_append, List.mem_flatten, List.mem_map]
  exact Or.inl (Or.inr ⟨_, ⟨nd, mem_of_get _ _ _ hnd, rfl⟩, hh⟩)

theorem wf_setNode (L M : Nat) (s : State) (pool : Nat) (nd1 : Pool) (held : List Slice)
    (hwf : s.WF L M held) (h1 : nd1.WF L) : (s.setNode pool nd1).WF L M held := by
  refine ⟨?_, hwf.2.1, hwf.2.2.1, hwf.2.2.2⟩
  intro nd hnd
  rcases mem_set_cases _ _ _ _ hnd with h | h
  · exact hwf.1 nd h
  · rw [h]; exact h1

theorem wf_held_nil (L M : Nat) (s : State) (held : List Slice) (hwf : s.WF L M held) :
    s.WF L M (held ++ []) := by
  simpa using hwf

theorem node_wf (L M : Nat) (s : State) (pool : Nat) (nd : Pool) (held : List Slice)
    (hwf : s.WF L M held) (hnd : s.nodes[pool]? = some nd) : nd.WF L :=
  hwf.1 nd (mem_of_get _ _ _ hnd)

theorem lock_wf (L M : Nat) (s : State) (pool : Nat) (held : List Slice)
    (hwf : s.WF L M held) : KeepsWF L M held (Pool.lock s pool) := by
  unfold Pool.lock
  split
  · trivial
  · rename_i nd hnd
    split
    · exact wf_setNode L M s pool _ held hwf (node_wf L M s pool nd held hwf hnd)
    · exact wf_setNode L M s pool _ held hwf (node_wf L M s pool nd held hwf hnd)
    · exact wf_held_nil L M s held hwf

theorem unlock_wf (L M : Nat) (s : State) (pool : Nat) (held : List Slice)
    (hwf : s.WF L M held) : KeepsWF L M held (Pool.unlock s pool) := by
  unfold Pool.unlock
  split
  · trivial
  · rename_i nd hnd
    split
    · exact wf_setNode L M s pool _ held hwf (node_wf L M s pool nd held hwf hnd)
    · exact wf_held_nil L M _ held
        (wf_setNode L M s pool _ held hwf (node_wf L M s pool nd held hwf hnd))
    · exact wf_held_nil L M s held hwf

theorem deferUnlock_wf {α : Type} (L M : Nat) (s : State) (pool : Nat) (held : List Slice)
    (v : α) (hwf : s.WF L M held) : KeepsWF L M held (deferUnlock s pool v) := by
  have h := unlock_wf L M s pool held hwf
  unfold deferUnlock
  split <;> simp_all [KeepsWF]

theorem wf_held_cons (L M : Nat) (s : State) (held : List Slice) (u : Slice)
    (hwf : s.WF L M held) (hu : u.len ≤ L) : s.WF L M (held ++ [u]) := by
  refine ⟨hwf.1, hwf.2.1, ?_, hwf.2.2.2⟩
  intro h hh
  simp only [List.mem_append, List.mem_singleton] at hh
  rcases hh with hh | hh
  · exact hwf.2.2.1 h hh
  · rw [hh]; exact hu

theorem Read_wf (L M : Nat) (s : State) (pool : Nat) (p : List Byte) (held : List Slice)
    (hwf : s.WF L M held) : KeepsWF L M held (Pool.Read s pool p) := by
  unfold Pool.Read
  split
  · trivial
  · rename_i nd hnd
    have hn := node_wf L M s pool nd held hwf hnd
    split
    · exact wf_held_nil L M s held hwf
    · rename_i u ok ch hrecv
      split
      · exact hwf
      · rename_i hok
        rcases recv_cases _ _ _ _ hrecv with ⟨-, hb, hcap, hcl⟩ | ⟨hf, -, -⟩
        · dsimp only
          have hopen : nd.isClosed = false := by
            cases hc : nd.isClosed with
            | false => rfl
            | true =>
              have := (hn.2.2.1 hc).2
              rw [hb] at this
              cases this
          have hnd1 : ({ nd with storageChanRead := ch } : Pool).WF L := by
            refine ⟨hn.1, ?_, ?_, ?_⟩
            · intro h hh
              exact hn.2.1 h (by rw [hb]; exact List.mem_cons_of_mem _ hh)
            · intro hc
              rw [hopen] at hc
              cases hc
            · intro _
              show ch.closed = false
              rw [hcl]
              exact hn.2.2.2 hopen
          have hs1 := wf_setNode L M s pool _ held hwf hnd1
          split
          · trivial
          · rename_i u1 hu1
            obtain ⟨-, hu1⟩ := slice_some _ _ _ _ hu1
            have hlen : u1.len ≤ L := by
              rw [hu1, hn.1]
              simp
            split
            · trivial
            · exact wf_held_cons L M _ held u1 hs1 hlen
            · rename_i ch1 hsend
              have hch1 := send_sent_eq _ _ _ hsend
              refine ⟨hs1.1, ?_, hs1.2.2.1, hs1.2.2.2.1, ?_⟩
              · intro h hh
                rw [hch1] at hh
                simp only [List.mem_append, List.mem_singleton] at hh
                rcases hh with hh | hh
                · exact hs1.2.1 h hh
                · rw [hh]; exact hlen
              · rw [hch1]
                exact hs1.2.2.2.2
        · simp [hf] at hok

theorem New_wf (L M : Nat) (s : State) (pool : Nat) (name : String) (n : Int)
    (held : List Slice) (hwf : s.WF L M held) : KeepsWF L M held (Pool.New s pool name n) := by
  unfold Pool.New
  split
  · exact hwf
  · split
    · trivial
    · rename_i nd hnd
      have hn := node_wf L M s pool nd held hwf hnd
      split
      · exact hwf
      · split
        · trivial
        · rename_i ch hch
          obtain ⟨hb, hcl, -⟩ := make_buf _ _ hch
          dsimp only
          apply wf_setNode
          · refine ⟨?_, hwf.2.1, hwf.2.2.1, hwf.2.2.2⟩
            intro nd1 hnd1
            simp only [List.mem_append, List.mem_singleton] at hnd1
            rcases hnd1 with h | h
            · exact hwf.1 nd1 h
            · rw [h]
              refine ⟨hn.1, ?_, ?_, ?_⟩
              · intro h1 hh1
                simp only [hb] at hh1
                cases hh1
              · intro hc
                cases hc
              · intro _
                exact hcl
          · exact hn

theorem drain_wf (L M : Nat) (k : Nat) (s : State) (pool : Nat) (held : List Slice)
    (hwf : s.WF L M held) :
    KeepsWF L M held (drain k s pool) ∧
      ∀ s1, drain k s pool = .ret () s1 →
        ∃ nd1, s1.nodes[pool]? = some nd1 ∧ nd1.storageChanRead.buf = [] := by
  induction k generalizing s with
  | zero =>
    unfold drain
    split
    · exact ⟨trivial, fun _ h => by cases h⟩
    · rename_i nd hnd
      split
      · rename_i hb
        split
        · exact ⟨wf_held_nil L M s held hwf, fun _ h => by cases h⟩
        · refine ⟨hwf, ?_⟩
          intro s1 h
          cases h
          exact ⟨nd, hnd, hb⟩
      · exact ⟨trivial, fun _ h => by cases h⟩
  | succ k ih =>
    unfold drain
    split
    · exact ⟨trivial, fun _ h => by cases h⟩
    · rename_i nd hnd
      have hn := node_wf L M s pool nd held hwf hnd
      split
      · rename_i hb
        split
        · exact ⟨wf_held_nil L M s held hwf, fun _ h => by cases h⟩
        · refine ⟨hwf, ?_⟩
          intro s1 h
          cases h
          exact ⟨nd, hnd, hb⟩
      · rename_i u rest hb
        dsimp only
        have hop : nd.isClosed = false := by
          cases hc : nd.isClosed with
          | false => rfl
          | true =>
            have := (hn.2.2.1 hc).2
            rw [hb] at this
            cases this
        have hnd1 : ({ nd with storageChanRead :=
            { nd.storageChanRead with buf := rest } } : Pool).WF L := by
          refine ⟨hn.1, ?_, ?_, ?_⟩
          · intro h hh
            exact hn.2.1 h (by rw [hb]; exact List.mem_cons_of_mem _ hh)
          · intro hc
            rw [hop] at hc
            cases hc
          · intro _
            exact hn.2.2.2 hop
        have hulen : u.len ≤ L := hn.2.1 u (by rw [hb]; exact List.mem_cons_self _ _)
        have hs1 := wf_setNode L M s pool _ held hwf hnd1
        split
        · exact ⟨trivial, fun _ h => by cases h⟩
        · exact ⟨wf_held_cons L M _ held u hs1 hulen, fun _ h => by cases h⟩
        · rename_i ch1 hsend
          have hch1 := send_sent_eq _ _ _ hsend
          apply ih
          refine ⟨hs1.1, ?_, hs1.2.2.1, hs1.2.2.2.1, ?_⟩
          · intro h hh
            rw [hch1] at hh
            simp only [List.mem_append, List.mem_singleton] at hh
            rcases hh with hh | hh
            · exact hs1.2.1 h hh
            · rw [hh]; exact hulen
          · rw [hch1]
            exact hs1.2.2.2.2

theorem closeBranches_wf (L M : Nat) (held : List Slice)
    (rec : State → Nat → Outcome (Option Err))
    (hrec : ∀ s q, s.WF L M held → KeepsWF L M held (rec s q))
    (pool : Nat) (l : List (String × Nat)) (s : State) (hwf : s.WF L M held) :
    KeepsWF L M held (closeBranches rec pool l s) := by
  induction l generalizing s with
  | nil => exact hwf
  | cons e rest ih =>
    obtain ⟨name, q⟩ := e
    have hq := hrec s q hwf
    unfold closeBranches
    split
    · rename_i heq; rw [heq] at hq; exact hq
    · trivial
    · trivial
    · rename_i heq; rw [heq] at hq; exact ih _ hq
    · rename_i s1 heq
      rw [heq] at hq
      split
      · trivial
      · rename_i nd hnd
        exact ih _ (wf_setNode L M s1 pool _ held hq (node_wf L M s1 pool nd held hq hnd))

theorem close_wf (L M : Nat) (held : List Slice) (fuel : Nat) :
    ∀ (s : State) (pool : Nat), s.WF L M held → KeepsWF L M held (Pool.close fuel s pool) := by
  induction fuel with
  | zero => intro s pool _; trivial
  | succ fuel ih =>
    intro s pool hwf
    have hl := lock_wf L M s pool held hwf
    unfold Pool.close
    split
    · rename_i heq; rw [heq] at hl; exact hl
    · trivial
    · trivial
    · rename_i s1 heq
      rw [heq] at hl
      simp only [KeepsWF] at hl
      split
      · trivial
      · rename_i nd hnd
        split
        · exact deferUnlock_wf L M s1 pool held _ hl
        · have hb := closeBranches_wf L M held (Pool.close fuel) ih pool nd.branch s1 hl
          split
          · rename_i heq2; rw [heq2] at hb; exact hb
          · trivial
          · trivial
          · rename_i s2 heq2
            rw [heq2] at hb
            simp only [KeepsWF] at hb
            split
            · trivial
            · rename_i nd2 hnd2
              obtain ⟨hd, hpost⟩ := drain_wf L M nd2.storageChanRead.buf.length s2 pool held hb
              split
              · rename_i heq3; rw [heq3] at hd; exact hd
              · trivial
              · trivial
              · rename_i s3 heq3
                rw [heq3] at hd
                simp only [KeepsWF] at hd
                obtain ⟨nd3p, hnd3p, hbuf3⟩ := hpost s3 heq3
                split
                · trivial
                · rename_i nd3 hnd3
                  rw [hnd3p] at hnd3
                  cases hnd3
                  have hn3 := node_wf L M s3 pool nd3p held hd hnd3p
                  split
                  · trivial
                  · rename_i ch hch
                    have hchb : ch = { nd3p.storageChanRead with closed := true } := by
                      unfold Chan.close at hch
                      split at hch
                      · cases hch
                      · cases hch; rfl
                    dsimp only
                    have h4 : (s3.setNode pool
                        { nd3p with parent := none, isClosed := true, storageChanRead := ch }).WF
                          L M held := by
                      apply wf_setNode L M s3 pool _ held hd
                      refine ⟨hn3.1, ?_, ?_, ?_⟩
                      · intro h hh
                        rw [hchb] at hh
                        exact hn3.2.1 h hh
                      · intro _
                        rw [hchb]
                        exact ⟨rfl, hbuf3⟩
                      · intro hc
                        cases hc
                    have hu := unlock_wf L M _ pool held h4
                    split
                    · rename_i heq5; rw [heq5] at hu; exact hu
                    · trivial
                    · trivial
                    · rename_i s5 heq5
                      rw [heq5] at hu
                      exact deferUnlock_wf L M s5 pool held _ hu

theorem Close_wf (L M : Nat) (held : List Slice) (fuel : Nat) (s : State) (pool : Nat)
    (hwf : s.WF L M held) : KeepsWF L M held (Pool.Close fuel s pool) := by
  have hl := lock_wf L M s pool held hwf
  unfold Pool.Close
  split
  · rename_i heq; rw [heq] at hl; exact hl
  · trivial
  · trivial
  · rename_i s1 heq
    rw [heq] at hl
    simp only [KeepsWF] at hl
    split
    · trivial
    · rename_i nd hnd
      have hu := unlock_wf L M s1 pool held hl
      dsimp only
      split
      · rename_i heq2; rw [heq2] at hu; exact hu
      · trivial
      · trivial
      · rename_i s2 heq2
        rw [heq2] at hu
        simp only [KeepsWF] at hu
        have hp : KeepsWF L M held (match nd.parent with
            | some par => Pool.lock s2 par
            | none => Outcome.ret () s2) := by
          split
          · exact lock_wf L M s2 _ held hu
          · exact hu
        split
        · rename_i heq3; rw [heq3] at hp; exact hp
        · trivial
        · trivial
        · rename_i s3 heq3
          rw [heq3] at hp
          simp only [KeepsWF] at hp
          have hcl := close_wf L M held fuel s3 pool hp
          split
          · rename_i heq4; rw [heq4] at hcl; exact hcl
          · trivial
          · trivial
          · rename_i heq4; rw [heq4] at hcl; exact hcl
          · rename_i heq4
            exact absurd heq4 (close_not_ret_nil fuel s3 _ pool)

/-- `Write` keeps well-formedness; conservation tells that the slice written lies in the
arena. -/
theorem Write_wf (L m : Nat) (s : State) (pool : Nat) (p : List Byte) (held : List Slice)
    (hi : Inv L m s held) : KeepsWF L m held (Pool.Write s pool p) := by
  obtain ⟨hc, hwf⟩ := hi
  have hl := lock_wf L m s pool held hwf
  have hlc := lock_keeps _ s pool held hc
  unfold Pool.Write
  split
  · rename_i heq; rw [heq] at hl; exact hl
  · trivial
  · trivial
  · rename_i s1 heq
    rw [heq] at hl hlc
    simp only [KeepsWF] at hl
    simp only [Keeps] at hlc
    split
    · trivial
    · rename_i nd hnd
      have hn := node_wf L m s1 pool nd held hl hnd
      split
      · exact deferUnlock_wf L m s1 pool held _ hl
      · rename_i hopen
        split
        · exact wf_held_nil L m s1 held hl
        · rename_i u ok ch hrecv
          obtain ⟨hb, hchcap, hcl, -⟩ := recv_got _ _ _ _ hrecv hlc.1
          have humem : u ∈ s1.storageChan.buf := by rw [hb]; exact List.mem_cons_self _ _
          have hulen : u.len ≤ L := hl.2.1 u humem
          obtain ⟨i, him, hoff, hcap⟩ :=
            unit_of_conserved L m s1 held u hlc (free_mem_handles s1 held u humem)
          obtain ⟨hin1, hin2⟩ := unit_in_arena L m i him
          have hml : (copyToMem s1.mem u p).length = L * m := by
            rw [length_copyToMem s1.mem u p (by rw [hl.2.2.2.1]; omega)]
            exact hl.2.2.2.1
          dsimp only
          have hs2 : State.WF L m
              { s1 with storageChan := ch, mem := copyToMem s1.mem u p } held := by
            refine ⟨hl.1, ?_, hl.2.2.1, hml, ?_⟩
            · intro h hh
              exact hl.2.1 h (by rw [hb]; exact List.mem_cons_of_mem _ hh)
            · show ch.cap = m
              rw [hchcap]
              exact hl.2.2.2.2
          split
          · trivial
          · rename_i u1 hu1
            obtain ⟨-, hu1⟩ := slice_some _ _ _ _ hu1
            have hlen1 : u1.len ≤ L := by
              rw [hu1]
              simp only [Int.toNat_zero, Nat.sub_zero, Int.toNat_ofNat, copyLen]
              omega
            split
            · trivial
            · exact wf_held_cons L m _ held u1 hs2 hlen1
            · rename_i ch1 hsend
              have hch1 := send_sent_eq _ _ _ hsend
              apply deferUnlock_wf
              apply wf_setNode L m _ pool _ held hs2
              have hop : nd.isClosed = false := by simpa using hopen
              refine ⟨hn.1, ?_, ?_, ?_⟩
              · intro h hh
                rw [hch1] at hh
                simp only [List.mem_append, List.mem_singleton] at hh
                rcases hh with hh | hh
                · exact hn.2.1 h hh
                · rw [hh]; exact hlen1
              · intro hc1
                rw [hop] at hc1
                cases hc1
              · intro _
                rw [hch1]
                exact hn.2.2.2 hop


theorem keepsWF_forget {α : Type} (L M : Nat) (held : List Slice) (o : Outcome α)
    (h : KeepsWF L M held o) : KeepsWF L M held o.forget := by
  cases o <;> exact h

theorem run_wf (L m : Nat) (held : List Slice) (c : Call) (s : State)
    (hi : Inv L m s held) : KeepsWF L m held (c.run s) := by
  cases c with
  | Write pool p => exact keepsWF_forget L m held _ (Write_wf L m s pool p held hi)
  | Read pool p => exact keepsWF_forget L m held _ (Read_wf L m s pool p held hi.2)
  | New pool poolName unitAmount =>
    exact keepsWF_forget L m held _ (New_wf L m s pool poolName unitAmount held hi.2)
  | Close fuel pool => exact keepsWF_forget L m held _ (Close_wf L m held fuel s pool hi.2)

theorem reach_inv (L m : Nat) (s0 s : State) (held : List Slice)
    (h0 : Inv L m s0 []) (hr : Reach s0 s held) : Inv L m s held := by
  induction hr with
  | init => exact h0
  | ret c s s1 held _ hrun ih =>
    have hk := run_keeps _ held c s ih.1
    have hw := run_wf L m held c s ih
    rw [hrun] at hk hw
    exact ⟨hk, hw⟩
  | block c s s1 held h _ hrun ih =>
    have hk := run_keeps _ held c s ih.1
    have hw := run_wf L m held c s ih
    rw [hrun] at hk hw
    exact ⟨hk, hw⟩

/-- The state returned by the package-level `New` satisfies the invariant. -/
theorem New_inv (unitLength unitAmount : Int) (root : Nat) (s0 : State)
    (hL : IsInt unitLength) (hnew : New unitLength unitAmount = .ret (some root, none) s0) :
    Inv unitLength.toNat unitAmount.toNat s0 [] ∧ 0 < unitLength ∧ 0 < unitAmount := by
  obtain ⟨hLpos, hmpos, -, -, hs0⟩ := New_ret unitLength unitAmount hL root s0 hnew
  refine ⟨⟨?_, ?_⟩, hLpos, hmpos⟩
  · rw [hs0]
    refine ⟨rfl, ?_⟩
    simp [State.handles, State.pending]
  · rw [hs0]
    refine ⟨?_, ?_, ?_, ?_, rfl⟩
    · intro nd hnd
      simp only [List.mem_singleton] at hnd
      rw [hnd]
      refine ⟨?_, ?_, ?_, ?_⟩
      · show unitLength = ((unitLength.toNat : Nat) : Int)
        omega
      · intro h hh
        cases hh
      · intro hc
        cases hc
      · intro _
        rfl
    · intro h hh
      simp only [units, List.mem_map, List.mem_range] at hh
      obtain ⟨i, -, hi⟩ := hh
      rw [← hi]
    · intro h hh
      cases hh
    · show (List.replicate (unitLength * unitAmount).toNat (0 : Byte)).length
        = unitLength.toNat * unitAmount.toNat
      rw [List.length_replicate]
      have h1 : unitLength = ((unitLength.toNat : Nat) : Int) := by omega
      have h2 : unitAmount = ((unitAmount.toNat : Nat) : Int) := by omega
      have h3 : unitLength * unitAmount
          = ((unitLength.toNat * unitAmount.toNat : Nat) : Int) := by
        rw [Int.natCast_mul, ← h1, ← h2]
      rw [h3, Int.toNat_natCast]

/-- Every state reached from a root made by `New` satisfies the invariant. -/
theorem reach_New_inv (unitLength unitAmount : Int) (root : Nat) (s0 s : State)
    (held : List Slice) (hL : IsInt unitLength)
    (hnew : New unitLength unitAmount = .ret (some root, none) s0) (hr : Reach s0 s held) :
    Inv unitLength.toNat unitAmount.toNat s held :=
  reach_inv _ _ s0 s held (New_inv unitLength unitAmount root s0 hL hnew).1 hr

theorem mem_pending (s : State) (h : Slice) (hh : h ∈ s.pending) :
    ∃ nd, nd ∈ s.nodes ∧ h ∈ nd.storageChanRead.buf := by
  simp only [State.pending, List.mem_flatten, List.mem_map] at hh
  obtain ⟨l, ⟨nd, hnd, hl⟩, hhl⟩ := hh
  exact ⟨nd, hnd, by rw [hl]; exact hhl⟩

/-- In a state that satisfies the invariant every handle is at most `L` bytes long, can be
resliced to `L` bytes and lies in the arena. -/
theorem inv_handle (L m : Nat) (s : State) (held : List Slice) (h : Slice)
    (hi : Inv L m s held) (hh : h ∈ s.handles held) :
    h.len ≤ L ∧ L ≤ h.cap ∧ h.off + L ≤ s.mem.length := by
  obtain ⟨i, him, hoff, hcap⟩ := unit_of_conserved L m s held h hi.1 hh
  obtain ⟨h1, h2⟩ := unit_in_arena L m i him
  have hlen : h.len ≤ L := by
    simp only [State.handles, List.mem_append] at hh
    rcases hh with (hh | hh) | hh
    · exact hi.2.2.1 h hh
    · obtain ⟨nd, hnd, hhn⟩ := mem_pending s h hh
      exact (hi.2.1 nd hnd).2.1 h hhn
    · exact hi.2.2.2.1 h hh
  refine ⟨hlen, by omega, ?_⟩
  rw [hi.2.2.2.2.1]
  omega

/-- In a state that satisfies the invariant the handles are pairwise apart. -/
theorem inv_apart (L m : Nat) (hLpos : 0 < L) (s : State) (held : List Slice)
    (hi : Inv L m s held) : (s.handles held).Pairwise Slice.Apart := by
  have hnd : ((s.handles held).map Slice.unit).Nodup := by
    have hperm : ((s.handles held).map Slice.unit).Perm ((units L m).map Slice.unit) :=
      Multiset.coe_eq_coe.1 hi.1.2
    exact (List.Perm.nodup_iff hperm).2 (units_nodup L m hLpos)
  have hpw : (s.handles held).Pairwise (fun a b => a.unit ≠ b.unit) :=
    List.pairwise_map.1 hnd
  refine List.Pairwise.imp_of_mem ?_ hpw
  intro a b ha hb hab
  obtain ⟨i, him, hoffa, hcapa⟩ := unit_of_conserved L m s held a hi.1 ha
  obtain ⟨j, hjm, hoffb, hcapb⟩ := unit_of_conserved L m s held b hi.1 hb
  have hla := (inv_handle L m s held a hi ha).1
  have hlb := (inv_handle L m s held b hi hb).1
  have hij : i ≠ j := by
    intro hij
    apply hab
    subst hij
    simp only [Slice.unit, Prod.mk.injEq]
    exact ⟨by rw [hoffa, hoffb], by rw [hcapa, hcapb]⟩
  unfold Slice.Apart
  rcases Nat.lt_or_gt_of_ne hij with hlt | hgt
  · left
    have : (i + 1) * L ≤ j * L := Nat.mul_le_mul_right L hlt
    rw [Nat.add_mul, Nat.one_mul] at this
    omega
  · right
    have : (j + 1) * L ≤ i * L := Nat.mul_le_mul_right L hgt
    rw [Nat.add_mul, Nat.one_mul] at this
    omega

theorem inv_count (L m : Nat) (s : State) (held : List Slice) (hi : Inv L m s held) :
    (s.handles held).length = m := by
  have hperm : ((s.handles held).map Slice.unit).Perm ((units L m).map Slice.unit) :=
    Multiset.coe_eq_coe.1 hi.1.2
  have := hperm.length_eq
  simpa [units] using this


/-! ## `Close` and its end -/

/-- `CloseLeave` is the end of `Close`: when the steps of `Close` before `pool.close()` have
returned, `Close` is `pool.close()` followed, if that returns, by `CloseLeave` on its
value. -/
theorem Close_eq_leave (fuel : Nat) (s s1 s2 s3 : State) (pool : Nat) (nd : Pool)
    (h1 : Pool.lock s pool = .ret () s1) (hnd : s1.nodes[pool]? = some nd)
    (h2 : Pool.unlock s1 pool = .ret () s2)
    (h3 : (match nd.parent with
           | some par => Pool.lock s2 par
           | none => .ret () s2) = .ret () s3) :
    Pool.Close fuel s pool =
      match Pool.close fuel s3 pool with
      | .ret err s4 => Pool.CloseLeave s4 pool nd.parent err
      | .block s4 held => .block s4 held
      | .panic => .panic
      | .fuel => .fuel := by
  unfold Pool.Close Pool.CloseLeave
  simp only [h1, hnd, h2, h3]
  cases Pool.close fuel s3 pool with
  | ret err s4 => cases err <;> rfl
  | block s4 held => rfl
  | panic => rfl
  | fuel => rfl

/-- `closeTail` is the end of `close`: on an open node whose lock was taken, `close` is the
loop over the branches followed, if that returns, by `closeTail`. -/
theorem close_eq_tail (fuel : Nat) (s s1 : State) (pool : Nat) (nd : Pool)
    (h1 : Pool.lock s pool = .ret () s1) (hnd : s1.nodes[pool]? = some nd)
    (hopen : nd.isClosed = false) :
    Pool.close (fuel + 1) s pool =
      match closeBranches (Pool.close fuel) pool nd.branch s1 with
      | .ret _ s2 => Pool.closeTail s2 pool
      | .block s2 held => .block s2 held
      | .panic => .panic
      | .fuel => .fuel := by
  unfold Pool.close Pool.closeTail
  simp only [h1, hnd, hopen]
  cases closeBranches (Pool.close fuel) pool nd.branch s1 with
  | ret v s2 => rfl
  | block s2 held => rfl
  | panic => rfl
  | fuel => rfl

/-- `closeLeave` is what follows a call `poolBranchUnit.close()` of the loop of `close` that
returns `nil`: on an open node whose lock was taken and whose first branch entry is
`(poolBranchName, poolBranchUnit)`, `close` is that call followed, if it returns `nil`, by
`closeLeave`. -/
theorem close_eq_leave (fuel : Nat) (s s1 s2 : State) (pool : Nat) (nd : Pool)
    (poolBranchName : String) (poolBranchUnit : Nat) (rest : List (String × Nat))
    (h1 : Pool.lock s pool = .ret () s1) (hnd : s1.nodes[pool]? = some nd)
    (hopen : nd.isClosed = false) (hbr : nd.branch = (poolBranchName, poolBranchUnit) :: rest)
    (hrec : Pool.close fuel s1 poolBranchUnit = .ret none s2) :
    Pool.close (fuel + 1) s pool = Pool.closeLeave fuel s2 pool poolBranchName rest := by
  rw [close_eq_tail fuel s s1 pool nd h1 hnd hopen, hbr]
  unfold Pool.closeLeave
  simp only [closeBranches, hrec]
  cases hn : s2.nodes[pool]? with
  | none => rfl
  | some nd2 =>
    simp only []
    cases closeBranches (Pool.close fuel) pool rest
        (s2.setNode pool { nd2 with branch := mapDelete nd2.branch poolBranchName }) with
    | ret v s3 => rfl
    | block s3 held => rfl
    | panic => rfl
    | fuel => rfl

/-! ## Branch maps -/

theorem mapGet_nil (key : String) : mapGet [] key = none := rfl

theorem mapGet_cons (e : String × Nat) (m : List (String × Nat)) (key : String) :
    mapGet (e :: m) key = if e.1 = key then some e.2 else mapGet m key := by
  unfold mapGet
  by_cases h : e.1 = key
  · simp [List.find?_cons, h]
  · simp [List.find?_cons, h]

theorem mapDelete_cons (e : String × Nat) (m : List (String × Nat)) (key : String) :
    mapDelete (e :: m) key = if e.1 = key then mapDelete m key else e :: mapDelete m key := by
  unfold mapDelete
  by_cases h : e.1 = key
  · simp [List.filter_cons, h]
  · simp [List.filter_cons, h]

theorem mapGet_delete_self (m : List (String × Nat)) (key : String) :
    mapGet (mapDelete m key) key = none := by
  induction m with
  | nil => rfl
  | cons e m ih =>
    rw [mapDelete_cons]
    by_cases h : e.1 = key
    · rw [if_pos h]
      exact ih
    · rw [if_neg h, mapGet_cons, if_neg h]
      exact ih

theorem mapGet_delete_ne (m : List (String × Nat)) (key other : String) (h : other ≠ key) :
    mapGet (mapDelete m key) other = mapGet m other := by
  induction m with
  | nil => rfl
  | cons e m ih =>
    rw [mapDelete_cons, mapGet_cons]
    by_cases he : e.1 = key
    · have ho : ¬ e.1 = other := fun h1 => h (h1.symm.trans he)
      rw [if_pos he, if_neg ho]
      exact ih
    · rw [if_neg he, mapGet_cons]
      by_cases ho : e.1 = other
      · rw [if_pos ho, if_pos ho]
      · rw [if_neg ho, if_neg ho]
        exact ih

theorem mapGet_append (m m1 : List (String × Nat)) (key : String) :
    mapGet (m ++ m1) key = (mapGet m key).orElse (fun _ => mapGet m1 key) := by
  induction m with
  | nil => rfl
  | cons e m ih =>
    rw [List.cons_append, mapGet_cons, mapGet_cons]
    by_cases h : e.1 = key
    · rw [if_pos h, if_pos h]
      rfl
    · rw [if_neg h, if_neg h]
      exact ih

/-- After `m[key] = v` the map gives `v` at `key`. -/
theorem mapGet_insert_self (m : List (String × Nat)) (key : String) (v : Nat) :
    mapGet (mapInsert m key v) key = some v := by
  unfold mapInsert
  rw [mapGet_append, mapGet_delete_self, mapGet_cons, if_pos rfl]
  rfl

/-- After `m[key] = v` the map is unchanged at every other key. -/
theorem mapGet_insert_ne (m : List (String × Nat)) (key other : String) (v : Nat)
    (h : other ≠ key) : mapGet (mapInsert m key v) other = mapGet m other := by
  unfold mapInsert
  have hk : ¬ (key, v).1 = other := fun h1 => h h1.symm
  rw [mapGet_append, mapGet_delete_ne m key other h, mapGet_cons, if_neg hk, mapGet_nil]
  cases mapGet m other <;> rfl

/-! ## The package-level `New` returns -/

theorem slice_ok (a : Slice) (lo hi : Int) (h0 : 0 ≤ lo) (h1 : lo ≤ hi)
    (h2 : hi ≤ (a.cap : Int)) :
    a.slice lo hi = some ⟨a.off + lo.toNat, hi.toNat - lo.toNat, a.cap - lo.toNat⟩ := by
  unfold Slice.slice
  rw [if_pos ⟨h0, h1, h2⟩]

theorem send_ok (ch : Chan) (v : Slice) (hc : ch.closed = false)
    (hroom : ch.buf.length < ch.cap) : ch.send v = .sent { ch with buf := ch.buf ++ [v] } := by
  unfold Chan.send
  rw [hc, if_neg (by decide), if_pos hroom]

/-- The seeding loop returns when the units it cuts fit into the arena and the free queue
has room for them. -/
theorem seedLoop_ok (arr : Slice) (L : Int) (LN : Nat) (hLN : L = (LN : Int))
    (hcap : (arr.cap : Int) < (2 : Int) ^ 63) (hoff : arr.off = 0) (k : Nat) :
    ∀ (i : Int) (iN : Nat) (s : State), i = (iN : Int) → (iN + k) * LN ≤ arr.cap →
      s.storageChan.closed = false → s.storageChan.buf.length + k ≤ s.storageChan.cap →
      seedLoop arr L k i s = .ret ()
        { s with storageChan := { s.storageChan with
            buf := s.storageChan.buf ++ (List.range' iN k).map
              (fun j => ⟨j * LN, LN, arr.cap - j * LN⟩) } } := by
  induction k with
  | zero =>
    intro i iN s _ _ _ _
    simp [seedLoop]
  | succ k ih =>
    intro i iN s hiN hle hcl hroom
    have hle1 : iN * LN + LN ≤ arr.cap := by
      have e : (iN + (k + 1)) * LN = iN * LN + LN + k * LN := by ring
      omega
    have hx0 : i * L = ((iN * LN : Nat) : Int) := by
      rw [hiN, hLN, Int.natCast_mul]
    have hx : (i + 1) * L = ((iN * LN + LN : Nat) : Int) := by
      rw [Int.add_mul, Int.one_mul, hx0, hLN, Int.natCast_add]
    have hw1 : wrapInt (i * L) = ((iN * LN : Nat) : Int) := by
      rw [hx0]
      apply wrapInt_of_isInt
      unfold IsInt
      constructor
      · have : (0 : Int) ≤ ((iN * LN : Nat) : Int) := Int.natCast_nonneg _
        omega
      · have : ((iN * LN : Nat) : Int) ≤ (arr.cap : Int) := by
          have : iN * LN ≤ arr.cap := by omega
          exact_mod_cast this
        omega
    have hw2 : wrapInt ((i + 1) * L) = ((iN * LN + LN : Nat) : Int) := by
      rw [hx]
      apply wrapInt_of_isInt
      unfold IsInt
      constructor
      · have : (0 : Int) ≤ ((iN * LN + LN : Nat) : Int) := Int.natCast_nonneg _
        omega
      · have : ((iN * LN + LN : Nat) : Int) ≤ (arr.cap : Int) := by exact_mod_cast hle1
        omega
    have hsl : arr.slice (wrapInt (i * L)) (wrapInt ((i + 1) * L))
        = some ⟨iN * LN, LN, arr.cap - iN * LN⟩ := by
      rw [hw1, hw2, slice_ok arr _ _ (Int.natCast_nonneg _) (by exact_mod_cast Nat.le_add_right _ _)
        (by exact_mod_cast hle1), hoff, Int.toNat_natCast, Int.toNat_natCast, Nat.zero_add,
        Nat.add_sub_cancel_left]
    have hsend := send_ok s.storageChan ⟨iN * LN, LN, arr.cap - iN * LN⟩ hcl (by omega)
    have e3 : i + 1 = ((iN + 1 : Nat) : Int) := by
      rw [hiN, Int.natCast_add, Int.natCast_one]
    have hnext := ih (i + 1) (iN + 1)
      { s with storageChan := { s.storageChan with
          buf := s.storageChan.buf ++ [⟨iN * LN, LN, arr.cap - iN * LN⟩] } }
      e3 (by have e4 : iN + 1 + k = iN + (k + 1) := by omega
             rw [e4]; exact hle) hcl
      (by simp only [List.length_append, List.length_singleton]; omega)
    unfold seedLoop
    simp only [hsl, hsend]
    rw [hnext]
    simp only [List.range'_succ, List.map_cons, List.append_assoc, List.singleton_append]

/-- The package-level `New` returns the root for positive arguments whose arena and queues
have sizes that the allocator accepts. -/
theorem New_ok (unitLength unitAmount : Int) (hL : 0 < unitLength) (hm : 0 < unitAmount)
    (hfit : unitLength * unitAmount ≤ maxAlloc) (hcf : 24 * unitAmount ≤ maxAlloc - 96) :
    New unitLength unitAmount = .ret (some 0, none)
      { nodes := [{ mutex := .free, name := "root", parent := none, branch := [],
                    unitLength := unitLength, unitAmount := unitAmount,
                    storageLength := unitLength * unitAmount,
                    storageArray := some ⟨0, (unitLength * unitAmount).toNat,
                      (unitLength * unitAmount).toNat⟩,
                    storageChanRead := ⟨[], unitAmount.toNat, false⟩,
                    isClosed := false }]
        storageChan := ⟨units unitLength.toNat unitAmount.toNat, unitAmount.toNat, false⟩
        mem := List.replicate (unitLength * unitAmount).toNat 0 } := by
  have hpos : 0 < unitLength * unitAmount := Int.mul_pos hL hm
  have hprod : unitLength * unitAmount < (2 : Int) ^ 63 := by
    unfold maxAlloc at hfit
    omega
  have hLN : unitLength = (unitLength.toNat : Int) := by omega
  have hmN : unitAmount = (unitAmount.toNat : Int) := by omega
  have hP : unitLength * unitAmount = ((unitLength.toNat * unitAmount.toNat : Nat) : Int) := by
    rw [Int.natCast_mul, ← hLN, ← hmN]
  have hcapN : (unitLength * unitAmount).toNat = unitLength.toNat * unitAmount.toNat := by
    rw [hP, Int.toNat_natCast]
  have hSL : wrapInt (unitLength * unitAmount) = unitLength * unitAmount := by
    apply wrapInt_of_isInt
    unfold IsInt
    omega
  unfold New
  generalize hSLg : wrapInt (unitLength * unitAmount) = SL
  rw [hSL] at hSLg
  subst hSLg
  dsimp only
  rw [if_neg (not_le.2 hpos)]
  unfold makeSlice Chan.makeSized
  have hm0 : (0 : Int) ≤ unitAmount := le_of_lt hm
  simp only [if_pos (⟨le_of_lt hpos, hfit⟩ : 0 ≤ unitLength * unitAmount ∧
    unitLength * unitAmount ≤ maxAlloc),
    if_pos (⟨hm0, hcf⟩ : 0 ≤ unitAmount ∧ 24 * unitAmount ≤ maxAlloc - 96)]
  have hcap : ((((⟨0, (unitLength * unitAmount).toNat, (unitLength * unitAmount).toNat⟩ :
      Slice).cap : Nat) : Int)) < (2 : Int) ^ 63 := by
    show (((unitLength * unitAmount).toNat : Nat) : Int) < (2 : Int) ^ 63
    omega
  have hseed := seedLoop_ok
    ⟨0, (unitLength * unitAmount).toNat, (unitLength * unitAmount).toNat⟩ unitLength
    unitLength.toNat hLN hcap rfl unitAmount.toNat 0 0
    { nodes := [{ mutex := .free, name := "root", parent := none, branch := [],
                  unitLength := unitLength, unitAmount := unitAmount,
                  storageLength := unitLength * unitAmount,
                  storageArray := some ⟨0, (unitLength * unitAmount).toNat,
                    (unitLength * unitAmount).toNat⟩,
                  storageChanRead := ⟨[], unitAmount.toNat, false⟩,
                  isClosed := false }]
      storageChan := ⟨[], unitAmount.toNat, false⟩
      mem := List.replicate (unitLength * unitAmount).toNat 0 }
    rfl
    (by show (0 + unitAmount.toNat) * unitLength.toNat ≤ (unitLength * unitAmount).toNat
        rw [hcapN, Nat.zero_add, Nat.mul_comm])
    rfl
    (by show 0 + unitAmount.toNat ≤ unitAmount.toNat
        omega)
  simp only [hseed]
  simp only [units, List.nil_append, List.range_eq_range', hcapN]

/-! ## The seeded units -/

theorem units_getElem (L m i : Nat) (hi : i < m) :
    (units L m)[i]? = some ⟨i * L, L, L * m - i * L⟩ := by
  simp [units, hi]

theorem units_apart (L m : Nat) : (units L m).Pairwise Slice.Apart := by
  unfold units
  rw [List.pairwise_map]
  refine List.Pairwise.imp ?_ (List.pairwise_lt_range m)
  intro a b hab
  left
  show a * L + L ≤ b * L
  have h1 : (a + 1) * L ≤ b * L := Nat.mul_le_mul_right L hab
  rw [Nat.add_mul, Nat.one_mul] at h1
  exact h1

theorem units_cover (L m j : Nat) (hj : j < L * m) :
    ∃ u ∈ units L m, u.off ≤ j ∧ j < u.off + u.len := by
  have hLpos : 0 < L := by
    rcases Nat.eq_zero_or_pos L with h0 | h0
    · rw [h0, Nat.zero_mul] at hj
      omega
    · exact h0
  refine ⟨⟨j / L * L, L, L * m - j / L * L⟩, ?_, ?_, ?_⟩
  · unfold units
    rw [List.mem_map]
    refine ⟨j / L, ?_, rfl⟩
    rw [List.mem_range]
    exact Nat.div_lt_of_lt_mul hj
  · exact Nat.div_mul_le_self j L
  · show j < j / L * L + L
    have h1 := Nat.div_add_mod j L
    have h2 := Nat.mod_lt j hLpos
    rw [Nat.mul_comm] at h1
    omega

theorem units_len (L m : Nat) (u : Slice) (hu : u ∈ units L m) : u.len = L := by
  unfold units at hu
  rw [List.mem_map] at hu
  obtain ⟨i, -, rfl⟩ := hu
  rfl

/-! ## Runs in which no blocked call is woken

The lemmas of this section hold in the states of `Reach`: the calls are made one after the
other and a call that has blocked stays blocked. -/

/-- In the states of `Reach` from a root made by `New`, the handles in the free queue, in
the pending queues and in the hands of blocked calls are, as arena units, a permutation of
the seeded units, which are pairwise different. -/
theorem conservation_of_reach (unitLength unitAmount : Int) (root : Nat) (s0 s : State)
    (held : List Slice) (hL : IsInt unitLength)
    (hnew : New unitLength unitAmount = .ret (some root, none) s0)
    (hreach : Reach s0 s held) :
    ((s.handles held).map Slice.unit).Perm
        ((units unitLength.toNat unitAmount.toNat).map Slice.unit) ∧
      ((units unitLength.toNat unitAmount.toNat).map Slice.unit).Nodup ∧
      (units unitLength.toNat unitAmount.toNat).length = unitAmount.toNat := by
  obtain ⟨hLpos, -, -, -, hs0⟩ := New_ret unitLength unitAmount hL root s0 hnew
  refine ⟨?_, units_nodup _ _ (by omega), units_length _ _⟩
  have h0 : Conserved (unitsOf (units unitLength.toNat unitAmount.toNat)) s0 [] := by
    rw [hs0]
    refine ⟨rfl, ?_⟩
    simp [State.handles, State.pending]
  have hc := reach_conserved _ s0 s held h0 hreach
  exact Multiset.coe_eq_coe.1 hc.2

/-- In the states of `Reach` from a root made by `New` with unit length `L`, on an open node
whose lock is free and whose pending queue has room, `Write(data)` with a free handle of
full length returns `(min(len(data), L), nil)` and appends the first `min(len(data), L)`
bytes of `data` as a record. -/
theorem truncation_of_reach (unitLength unitAmount : Int) (L : Nat) (root : Nat) (s0 s : State)
    (held : List Slice) (pool : Nat) (nd : Pool) (u : Slice) (rest : List Slice)
    (data : List Byte) (hL : IsInt unitLength) (hLn : unitLength = (L : Int))
    (hnew : New unitLength unitAmount = .ret (some root, none) s0) (hreach : Reach s0 s held)
    (hnd : s.nodes[pool]? = some nd) (hopen : nd.isClosed = false)
    (hlock : nd.mutex = .free) (hfree : s.storageChan.buf = u :: rest) (hfull : u.len = L)
    (hroom : nd.storageChanRead.buf.length < nd.storageChanRead.cap) :
    nd.unitLength = (L : Int) ∧
    ∃ s1 nd1 r,
      Pool.Write s pool data = .ret ((min data.length L : Nat), none) s1 ∧
      (∀ k : Nat, data.length = L + k → Pool.Write s pool data = .ret ((L : Int), none) s1) ∧
      s1.nodes[pool]? = some nd1 ∧
      nd1.storageChanRead.buf = nd.storageChanRead.buf ++ [r] ∧
      r.bytes s1.mem = data.take (min data.length L) := by
  have hinv := reach_New_inv unitLength unitAmount root s0 s held hL hnew hreach
  have hLt : unitLength.toNat = L := by omega
  rw [hLt] at hinv
  have hn := node_wf _ _ s pool nd held hinv.2 hnd
  have hu := inv_handle _ _ s held u hinv
    (free_mem_handles s held u (by rw [hfree]; exact List.mem_cons_self _ _))
  exact ⟨hn.1, truncation_of_handle s pool nd L u rest data hnd hopen hlock hfree
    ⟨hfull, hu.2.1, hu.2.2⟩ (hn.2.2.2 hopen) hroom⟩

/-- In the states of `Reach` from a root made by `New`, for two different nodes `A` and `B`,
the steps of a `Write` or a `Read` on `A` leave the node `B` and the bytes of its pending
records unchanged, and a `Read` on `B` delivers a prefix of the oldest record of `B`. -/
theorem isolation_of_reach (unitLength unitAmount : Int) (root : Nat) (s0 s : State)
    (held : List Slice) (A B : Nat) (hL : IsInt unitLength)
    (hnew : New unitLength unitAmount = .ret (some root, none) s0) (hreach : Reach s0 s held)
    (hAB : A ≠ B) :
    (∀ data s1, (Pool.Write s A data).state? = some s1 →
        s1.nodes[B]? = s.nodes[B]? ∧ s1.records B = s.records B) ∧
    (∀ p s1, (Pool.Read s A p).state? = some s1 →
        s1.nodes[B]? = s.nodes[B]? ∧ s1.records B = s.records B) ∧
    (∀ data n s1, Pool.Write s B data = .ret (n, none) s1 →
        s1.records B = s.records B ++ [data.take n.toNat]) ∧
    (∀ p p1 n s1, Pool.Read s B p = .ret (p1, n, none) s1 →
        ∃ r rs, s.records B = r :: rs ∧ p1 = r.take n.toNat ++ p.drop n.toNat ∧
          s1.records B = rs) ∧
    (∀ data s1 p p1 n s2, (Pool.Write s A data).state? = some s1 →
        Pool.Read s1 B p = .ret (p1, n, none) s2 →
        ∃ r rs, s.records B = r :: rs ∧ p1 = r.take n.toNat ++ p.drop n.toNat) := by
  have hinv := reach_New_inv unitLength unitAmount root s0 s held hL hnew hreach
  obtain ⟨-, hLpos, -⟩ := New_inv unitLength unitAmount root s0 hL hnew
  have hin : ∀ u ∈ s.storageChan.buf, u.off + u.len ≤ s.mem.length := by
    intro u hu
    have := inv_handle _ _ s held u hinv (free_mem_handles s held u hu)
    omega
  have hapart : ∀ u ∈ s.storageChan.buf, ∀ nd, s.nodes[B]? = some nd →
      ∀ h ∈ nd.storageChanRead.buf, u.Apart h := by
    intro u hu nd hnd h hh
    have hpw := inv_apart _ _ (by omega) s held hinv
    unfold State.handles at hpw
    have h1 := (List.pairwise_append.1 hpw).1
    have h2 := (List.pairwise_append.1 h1).2.2
    refine h2 u hu h ?_
    simp only [State.pending, List.mem_flatten, List.mem_map]
    exact ⟨_, ⟨nd, mem_of_get _ _ _ hnd, rfl⟩, hh⟩
  obtain ⟨h1, h2, h3, h4⟩ := isolation_of_apart s A B hAB hin hapart
  refine ⟨h1, h2, h3, h4, ?_⟩
  intro data s1 p p1 n s2 hw hr
  obtain ⟨-, hrec⟩ := h1 data s1 hw
  obtain ⟨nd, u, rest, hnd1, hbuf, hp1, hn, -, -⟩ := Read_ret s1 s2 B p p1 n hr
  refine ⟨u.bytes s1.mem, rest.map (Slice.bytes s1.mem), ?_, ?_⟩
  · rw [← hrec]
    unfold State.records
    rw [hnd1]
    dsimp only
    rw [hbuf, List.map_cons]
  · rw [hp1, hn, Int.toNat_natCast]
    rfl

/-- In the states of `Reach` from a root made by `New`, a `Read` on a node with a pending
record returns the bytes of the oldest record, removes it and appends the handle, with its
length restored, to the free queue. -/
theorem read_record_of_reach (unitLength unitAmount : Int) (root : Nat) (s0 s : State)
    (held : List Slice) (pool : Nat) (nd : Pool) (h : Slice) (rest : List Slice)
    (p : List Byte) (hL : IsInt unitLength)
    (hnew : New unitLength unitAmount = .ret (some root, none) s0) (hreach : Reach s0 s held)
    (hnd : s.nodes[pool]? = some nd) (hbuf : nd.storageChanRead.buf = h :: rest) :
    nd.isClosed = false ∧ nd.unitLength = unitLength ∧
    (h.bytes s.mem).length = h.len ∧ h.len ≤ unitLength.toNat ∧
    ∃ s1,
      Pool.Read s pool p
        = .ret ((h.bytes s.mem).take (min p.length h.len) ++ p.drop (min p.length h.len),
            ((min p.length h.len : Nat) : Int), none) s1 ∧
      s1.nodes[pool]?
        = some { nd with storageChanRead := { nd.storageChanRead with buf := rest } } ∧
      s.records pool = h.bytes s.mem :: s1.records pool ∧
      s1.storageChan = { s.storageChan with
        buf := s.storageChan.buf ++ [⟨h.off, unitLength.toNat, h.cap⟩] } ∧
      s1.mem = s.mem := by
  have hinv := reach_New_inv unitLength unitAmount root s0 s held hL hnew hreach
  obtain ⟨-, hLpos, -⟩ := New_inv unitLength unitAmount root s0 hL hnew
  have hn := node_wf _ _ s pool nd held hinv.2 hnd
  have hmemh : h ∈ nd.storageChanRead.buf := by
    rw [hbuf]
    exact List.mem_cons_self _ _
  have hh := inv_handle _ _ s held h hinv (pending_mem_handles s held pool nd h hnd hmemh)
  have hLeq : nd.unitLength = unitLength := by
    rw [hn.1]
    omega
  have hopen : nd.isClosed = false := by
    cases hc : nd.isClosed with
    | false => rfl
    | true =>
      have := (hn.2.2.1 hc).2
      rw [hbuf] at this
      cases this
  have hpend : h ∈ s.pending := by
    simp only [State.pending, List.mem_flatten, List.mem_map]
    exact ⟨_, ⟨nd, mem_of_get _ _ _ hnd, rfl⟩, hmemh⟩
  have hcount := inv_count _ _ s held hinv
  have hroom : s.storageChan.buf.length < s.storageChan.cap := by
    rw [hinv.2.2.2.2.2]
    have hp1 : 0 < s.pending.length := List.length_pos_of_mem hpend
    simp only [State.handles, List.length_append] at hcount
    omega
  have hread := Read_ok s pool nd p h rest hnd hbuf (by rw [hn.1]; exact Int.natCast_nonneg _)
    (by rw [hn.1]; exact_mod_cast hh.2.1) hinv.1.1 hroom
  have htn : nd.unitLength.toNat = unitLength.toNat := by rw [hLeq]
  rw [htn] at hread
  refine ⟨hopen, hLeq, ?_, hh.1, _, hread, ?_, ?_, rfl, rfl⟩
  · simp only [Slice.bytes, List.length_take, List.length_drop]
    omega
  · show (s.nodes.set pool _)[pool]? = _
    have hlt : pool < s.nodes.length := by
      rcases List.getElem?_eq_some.1 hnd with ⟨hlt, _⟩
      exact hlt
    rw [List.getElem?_set_self hlt]
  · have hlt : pool < s.nodes.length := by
      rcases List.getElem?_eq_some.1 hnd with ⟨hlt, _⟩
      exact hlt
    simp only [State.records, hnd, hbuf, List.map_cons, List.getElem?_set_self hlt]

/-! ## Claims -/

/-- C1 (round trip), evaluated after a `Close` has drained short records: with the root of
`New(2, 2)`, a branch `a` of capacity 2 and a branch `b` of capacity 1, `a.Write([1])`,
`a.Write([2])` and `a.Close()` (which blocks after its drain loop has put both 1-byte
records back into the free queue as they are) leave branch `b` open with its lock free, an
empty pending queue of capacity 1 and two entries in the free queue; yet `b.Write([7, 7])`
returns `(1, nil)` and the following `b.Read` returns `(1, nil)` and only the byte `7`. -/
theorem C1_round_trip_after_drain :
    ∃ s1 s2 s3 s4 s5 s6 s7 s8,
      New 2 2 = .ret (some 0, none) s1 ∧
      Pool.New s1 0 "a" 2 = .ret (some 1, none) s2 ∧
      Pool.New s2 0 "b" 1 = .ret (some 2, none) s3 ∧
      Pool.Write s3 1 [1] = .ret (1, none) s4 ∧
      Pool.Write s4 1 [2] = .ret (1, none) s5 ∧
      Pool.Close 1 s5 1 = .block s6 [] ∧
      s6.nodes[2]? = some ⟨.free, "b", some 0, [], 2, 1, 2, none, ⟨[], 1, false⟩, false⟩ ∧
      s6.storageChan = ⟨[⟨0, 1, 4⟩, ⟨2, 1, 2⟩], 2, false⟩ ∧
      Pool.Write s6 2 [7, 7] = .ret (1, none) s7 ∧
      Pool.Read s7 2 [0, 0] = .ret ([7, 0], 1, none) s8 :=
  ⟨_, _, _, _, _, _, _, _, rfl, rfl, rfl, rfl, rfl, rfl, rfl, rfl, rfl, rfl⟩

/-- C2 (conservation), evaluated on the root of `New(1, 1)`: `Close` on the root blocks in
the deferred `unlock` of `close`; the `lock` of a `Write` on the root hands its value to
that receive, so `close` returns `nil` and `Close` goes on (`CloseLeave`) to close the free
queue, which still buffers the one unit.  `New` on the closed root returns the open
branches `x` and `y`.  `x.Write([1])` receives the buffered unit.  `y.Write([2])` then
receives the zero value of the closed and empty free queue, a nil slice, without looking at
the second result of the receive; it returns `(0, nil)` and sends the nil slice to the
pending queue of `y`.  The free queue and the pending queues then hold two entries, the
unit and a nil slice, where `unitAmount` is `1`. -/
theorem C2_nil_handle_after_root_close :
    ∃ s3 s4 s5 s6 s7,
      New 1 1 = .ret (some 0, none) exRoot ∧
      Pool.Close 1 exRoot 0 = .block exRootStuck [] ∧
      Pool.Write exRootStuck 0 [] = .block exRootStuck [] ∧
      Pool.CloseLeave exRootStuck 0 none none = .ret none s3 ∧
      s3.storageChan = ⟨[⟨0, 1, 1⟩], 1, true⟩ ∧
      Pool.New s3 0 "x" 1 = .ret (some 1, none) s4 ∧
      Pool.New s4 0 "y" 1 = .ret (some 2, none) s5 ∧
      Pool.Write s5 1 [1] = .ret (1, none) s6 ∧
      Pool.Write s6 2 [2] = .ret (0, none) s7 ∧
      s7.storageChan = ⟨[], 1, true⟩ ∧
      s7.pending = [⟨0, 1, 1⟩, Slice.nil] ∧
      s7.handles [] = [⟨0, 1, 1⟩, Slice.nil] ∧
      units 1 1 = [⟨0, 1, 1⟩] ∧
      (s7.handles []).length = 2 :=
  ⟨_, _, _, _, _, rfl, rfl, rfl, rfl, rfl, rfl, rfl, rfl, rfl, rfl, rfl, rfl, rfl, rfl⟩

/-- C3 (first `Close` in a single-threaded run), evaluated on the root made by `New(1, 1)`,
whose lock is free and which has no parent: `Close` does not return.  `close` receives from
the mutex once explicitly and once more through the deferred `unlock`, so the call blocks
with the node already marked closed.  The same holds on every open node, root or branch, in
every state: `Close` has no returning path there. -/
theorem C3_first_close_blocks :
    New 1 1 = .ret (some 0, none) exRoot ∧
      (∀ fuel : Nat, Pool.Close (fuel + 1) exRoot 0 = .block exRootStuck []) ∧
      (∀ (fuel : Nat) (s s1 : State) (pool : Nat) (nd : Pool) (v : Option Err),
        s.nodes[pool]? = some nd → nd.isClosed = false →
        Pool.Close fuel s pool ≠ .ret v s1) := by
  refine ⟨rfl, ?_, ?_⟩
  · intro fuel
    rfl
  · intro fuel s s1 pool nd v hnd hopen
    exact Close_open_not_ret fuel s s1 pool nd v hnd hopen

/-- C4 (closed semantics of Read and Write), evaluated on the root of `New(1, 1)` after
`Close` has been called on it (the call has marked the node closed, closed and drained its
pending queue, and is blocked in the deferred `unlock` of `close`): a `Read` returns
`(0, ErrPoolIsClosed)` and leaves the buffer and the state unchanged, but a `Write` does not
return.  Its `lock` hands the value to the receive on which `Close` is blocked, it finds
`isClosed` set, takes no handle and changes no queue, and then its own deferred `unlock`
finds the mutex channel empty and blocks. -/
theorem C4_write_after_close_blocks :
    New 1 1 = .ret (some 0, none) exRoot ∧
      Pool.Close 1 exRoot 0 = .block exRootStuck [] ∧
      (∀ p : List Byte, Pool.Write exRootStuck 0 p = .block exRootStuck []) ∧
      (∀ p : List Byte,
        Pool.Read exRootStuck 0 p = .ret (p, 0, some .ErrPoolIsClosed) exRootStuck) :=
  ⟨rfl, rfl, fun _ => rfl, fun _ => rfl⟩

/-- C5 (`New` on a closed node), evaluated on the closed root of `exRootStuck`:
`New("x", 1)` returns a new branch and no error and registers the branch in the mapping of
the closed node.  In no state does `New` return `ErrPoolIsClosed`. -/
theorem C5_new_on_closed_node :
    (exRootStuck.nodes[0]?.map Pool.isClosed) = some true ∧
      Pool.New exRootStuck 0 "x" 1 = .ret (some 1, none) exRootStuckNew ∧
      (∀ (s s1 : State) (pool : Nat) (poolName : String) (unitAmount : Int)
          (v : Option Nat × Option Err),
        Pool.New s pool poolName unitAmount = .ret v s1 → v.2 ≠ some .ErrPoolIsClosed) := by
  refine ⟨rfl, rfl, ?_⟩
  intro s s1 pool poolName unitAmount v h
  exact New_err_not_closed s s1 pool poolName unitAmount v h

/-- C6 (capacity rejection): on every node (whose configured unit amount `m` is not
negative, as for every node that was created), `New(name, n)` returns
`ErrPoolStorageSizeLessZero` for `n < 0` and `ErrPoolBranchStorageSizeMoreParent` for `n > m`;
no branch is returned and the state, so the branch mapping, is unchanged.  In particular
`New("child", m+1)` and `New("child", -1)` fail with these two errors. -/
theorem C6_capacity_rejection (s : State) (pool : Nat) (nd : Pool) (name : String) (n : Int)
    (hnd : s.nodes[pool]? = some nd) (hm : 0 ≤ nd.unitAmount) :
    (n < 0 → Pool.New s pool name n = .ret (none, some .ErrPoolStorageSizeLessZero) s) ∧
    (nd.unitAmount < n →
      Pool.New s pool name n = .ret (none, some .ErrPoolBranchStorageSizeMoreParent) s) ∧
    Pool.New s pool "child" (nd.unitAmount + 1)
      = .ret (none, some .ErrPoolBranchStorageSizeMoreParent) s ∧
    Pool.New s pool "child" (-1) = .ret (none, some .ErrPoolStorageSizeLessZero) s := by
  refine ⟨?_, ?_, ?_, ?_⟩
  · intro h
    simp [Pool.New, h]
  · intro h
    have h0 : ¬ n < 0 := by omega
    simp [Pool.New, h0, hnd, h]
  · have h0 : ¬ nd.unitAmount + 1 < 0 := by omega
    simp [Pool.New, h0, hnd]
  · simp [Pool.New]

/-- C7 (truncation), evaluated on the root of `New(3, 2)` with a branch `a`, after `Close`
on `a`: that call has sent to the mutex of the root (line 118) and blocks in `close` of
`a`, and nothing receives from the mutex of the root.  In the state it leaves, which is a
state of `Reach`, the root is open with unit length `3`, the oldest handle of the free
queue has the full length `3` and the pending queue of the root is empty with capacity
`2`; yet `Write(data)` on the root blocks in `lock` for every `data`: it returns nothing
and appends no record. -/
theorem C7_write_blocks_on_held_lock :
    ∃ s1 s2 s3,
      New 3 2 = .ret (some 0, none) s1 ∧
      Pool.New s1 0 "a" 1 = .ret (some 1, none) s2 ∧
      Pool.Close 1 s2 1 = .block s3 [] ∧
      Reach s1 s3 [] ∧
      s3.nodes[0]? = some ⟨.held, "root", none, [("a", 1)], 3, 2, 6, some ⟨0, 6, 6⟩,
        ⟨[], 2, false⟩, false⟩ ∧
      s3.storageChan = ⟨[⟨0, 3, 6⟩, ⟨3, 3, 3⟩], 2, false⟩ ∧
      (∀ data : List Byte, Pool.Write s3 0 data = .block s3 []) :=
  ⟨_, _, _, rfl, rfl, rfl,
    Reach.block (Call.Close 1 1) _ _ [] []
      (Reach.ret (Call.New 0 "a" 1) _ _ [] Reach.init rfl) rfl,
    rfl, rfl, fun _ => rfl⟩

/-- C8 (FIFO within a node), evaluated after a `Close` has drained a short record: with the
root of `New(2, 2)`, a branch `a` of capacity 1 and a branch `b` of capacity 2, `a.Write([1])`
and `a.Close()` (which blocks after its drain loop has put the 1-byte record back into the
free queue as it is) leave branch `b` open with its lock free, an empty pending queue of
capacity 2 and two entries in the free queue; `b.Write([1, 2])` returns `(2, nil)` but
`b.Write([3, 4])` returns `(1, nil)`, and the next two calls of `Read` return `[1, 2]` and
then only `[3]`. -/
theorem C8_fifo_after_drain :
    ∃ s1 s2 s3 s4 s5 s6 s7 s8 s9,
      New 2 2 = .ret (some 0, none) s1 ∧
      Pool.New s1 0 "a" 1 = .ret (some 1, none) s2 ∧
      Pool.New s2 0 "b" 2 = .ret (some 2, none) s3 ∧
      Pool.Write s3 1 [1] = .ret (1, none) s4 ∧
      Pool.Close 1 s4 1 = .block s5 [] ∧
      s5.nodes[2]? = some ⟨.free, "b", some 0, [], 2, 2, 4, none, ⟨[], 2, false⟩, false⟩ ∧
      s5.storageChan = ⟨[⟨2, 2, 2⟩, ⟨0, 1, 4⟩], 2, false⟩ ∧
      Pool.Write s5 2 [1, 2] = .ret (2, none) s6 ∧
      Pool.Write s6 2 [3, 4] = .ret (1, none) s7 ∧
      Pool.Read s7 2 [0, 0] = .ret ([1, 2], 2, none) s8 ∧
      Pool.Read s8 2 [0, 0] = .ret ([3, 0], 1, none) s9 :=
  ⟨_, _, _, _, _, _, _, _, _, rfl, rfl, rfl, rfl, rfl, rfl, rfl, rfl, rfl, rfl, rfl⟩

/-- C9 (cascade), evaluated on a root with the two open branches `a` and `b`: `Close` on the
root blocks inside `close` of the first branch; in the state it leaves, branch `b` is still
open and the branch mapping of the root still has both entries. -/
theorem C9_cascade_stops_at_first_branch :
    (∃ s1 s2 s3, New 2 2 = .ret (some 0, none) s1 ∧
        Pool.New s1 0 "a" 1 = .ret (some 1, none) s2 ∧
        Pool.New s2 0 "b" 1 = .ret (some 2, none) s3 ∧
        Pool.Write s3 1 [5] = .ret (1, none) exTwo) ∧
      (∀ fuel : Nat, Pool.Close (fuel + 2) exTwo 0 = .block exTwoStuck []) ∧
      (exTwoStuck.nodes[2]?.map Pool.isClosed) = some false ∧
      (exTwoStuck.nodes[0]?.map Pool.branch) = some [("a", 1), ("b", 2)] := by
  refine ⟨⟨_, _, _, rfl, rfl, rfl, rfl⟩, ?_, rfl, rfl⟩
  intro fuel
  rfl

/-- Witness of C6 on the root made by `New(2, 2)`. -/
theorem C6_capacity_rejection_witness :
    Pool.New exPool 0 "b" 3 = .ret (none, some .ErrPoolBranchStorageSizeMoreParent) exPool ∧
      Pool.New exPool 0 "b" (-4) = .ret (none, some .ErrPoolStorageSizeLessZero) exPool :=
  ⟨(C6_capacity_rejection exPool 0 _ "b" 3 rfl (by decide)).2.1 (by decide),
    (C6_capacity_rejection exPool 0 _ "b" (-4) rfl (by decide)).1 (by decide)⟩

/-! ## Claims on construction, closing and safety -/

/-- C11 (root constructor validation), evaluated at `New(-2, -3)`: both arguments are
negative and their product `6` is positive, so the only check of `New`
(`storageLength <= 0`) passes and the call goes on to `make(chan []byte, -3)`, which
panics.  So does `New` for every negative `unitAmount` whose wrapped product with
`unitLength` is positive; and `New(-9223372036854775807, 2)`, whose product wraps to `2`,
panics in the seeding loop.  `New` returns `ErrPoolStorageSizeLessZero` exactly on the
arguments whose wrapped product is not positive. -/
theorem C11_new_negative_arguments :
    wrapInt ((-2) * (-3)) = 6 ∧ Chan.make (-3) = none ∧ New (-2) (-3) = .panic ∧
      (∀ unitLength unitAmount : Int, unitAmount < 0 →
        0 < wrapInt (unitLength * unitAmount) → New unitLength unitAmount = .panic) ∧
      wrapInt ((-9223372036854775807) * 2) = 2 ∧ New (-9223372036854775807) 2 = .panic ∧
      (∀ unitLength unitAmount : Int, wrapInt (unitLength * unitAmount) ≤ 0 →
        New unitLength unitAmount
          = .ret (none, some .ErrPoolStorageSizeLessZero) State.empty) := by
  refine ⟨by decide, rfl, rfl, ?_, by decide, rfl, ?_⟩
  · intro unitLength unitAmount hm hpos
    unfold New
    generalize wrapInt (unitLength * unitAmount) = SL at hpos
    have h0 : ¬ (0 ≤ unitAmount ∧ 24 * unitAmount ≤ maxAlloc - 96) := fun h => by omega
    simp only [not_le.2 hpos, if_false, Chan.makeSized, if_neg h0]
    cases makeSlice SL <;> rfl
  · intro unitLength unitAmount hle
    unfold New
    generalize wrapInt (unitLength * unitAmount) = SL at hle
    simp only [hle, if_true]

/-- C12 (`New` success postcondition): on every node `p` with unit amount `m`, for every
name and every `n` with `0 ≤ n ≤ m`, `p.New(name, n)` returns no error and a node `c` that
did not exist before; `c` is open, has the given name, parent `p`, the unit length of `p`,
unit amount `n`, an empty branch mapping and an empty open pending queue of capacity `n`.
The free queue, which is the one queue of the state that all nodes share, is unchanged.
Afterwards the branch mapping of `p` gives `c` at `name` and what it gave before at every
other name, and nothing else of `p` has changed. -/
theorem C12_new_success (s : State) (p : Nat) (nd : Pool) (name : String) (n : Int)
    (hnd : s.nodes[p]? = some nd) (h0 : 0 ≤ n) (hn : n ≤ nd.unitAmount) :
    ∃ s1 c cn pn,
      Pool.New s p name n = .ret (some c, none) s1 ∧
      s.nodes[c]? = none ∧ s1.nodes[c]? = some cn ∧
      cn.isClosed = false ∧ cn.name = name ∧ cn.parent = some p ∧
      cn.unitLength = nd.unitLength ∧ cn.unitAmount = n ∧ cn.branch = [] ∧
      cn.storageChanRead = ⟨[], n.toNat, false⟩ ∧
      s1.storageChan = s.storageChan ∧
      s1.nodes[p]? = some pn ∧ mapGet pn.branch name = some c ∧
      (∀ other, other ≠ name → mapGet pn.branch other = mapGet nd.branch other) ∧
      pn = { nd with branch := pn.branch } := by
  have hlt : p < s.nodes.length := by
    rcases List.getElem?_eq_some.1 hnd with ⟨hlt, _⟩
    exact hlt
  have hne : p ≠ s.nodes.length := by omega
  refine ⟨State.setNode
      { s with nodes := s.nodes ++
          [{ mutex := .free, name := name, parent := some p, branch := [],
             unitLength := nd.unitLength, unitAmount := n,
             storageLength := wrapInt (nd.unitLength * n), storageArray := none,
             storageChanRead := ⟨[], n.toNat, false⟩, isClosed := false }] }
      p { nd with branch := mapInsert nd.branch name s.nodes.length },
    s.nodes.length,
    { mutex := .free, name := name, parent := some p, branch := [],
      unitLength := nd.unitLength, unitAmount := n,
      storageLength := wrapInt (nd.unitLength * n), storageArray := none,
      storageChanRead := ⟨[], n.toNat, false⟩, isClosed := false },
    { nd with branch := mapInsert nd.branch name s.nodes.length },
    ?_, ?_, ?_, rfl, rfl, rfl, rfl, rfl, rfl, rfl, ?_, ?_, ?_, ?_, rfl⟩
  · unfold Pool.New
    simp only [not_lt.2 h0, if_false, hnd, not_lt.2 hn, Chan.make, h0, if_true]
  · exact List.getElem?_eq_none (le_refl _)
  · rw [setNode_get_ne _ _ _ _ hne]
    simp
  · rfl
  · refine setNode_get_self _ _ _ nd ?_
    show (s.nodes ++ _)[p]? = some nd
    rw [List.getElem?_append_left hlt]
    exact hnd
  · exact mapGet_insert_self _ _ _
  · intro other hother
    exact mapGet_insert_ne _ _ _ _ hother

/-- C13 (`Close` detaches exactly the closed node), evaluated on the root of `New(2, 2)`.
(1) With one branch `b = New("a", 1)`: `Close` on `b` blocks in the deferred `unlock` of
`close`, before the `delete` of line 127, and the mapping of the root still holds `b`.
(2) With a second branch registered later under the same name `"a"`, so that the mapping
holds the second branch and not `b`: `Close` on `b` blocks in the same way; once a `lock`
of another call on `b` (here of `Write`) has handed its value to the blocked receive,
`close` returns `nil` and `Close` goes on (`CloseLeave`) to `delete` by the name of `b`,
which removes the entry of the second branch, a node other than `b` that is still open,
and then blocks sending to the mutex of the root. -/
theorem C13_close_detaches_by_name :
    ∃ s1 s2 s3 t3 t4 t5,
      New 2 2 = .ret (some 0, none) s1 ∧
      Pool.New s1 0 "a" 1 = .ret (some 1, none) s2 ∧
      Pool.Close 1 s2 1 = .block s3 [] ∧
      (∀ fuel : Nat, Pool.Close (fuel + 1) s2 1 = .block s3 []) ∧
      (s3.nodes[0]?.map Pool.branch) = some [("a", 1)] ∧
      Pool.New s2 0 "a" 1 = .ret (some 2, none) t3 ∧
      (t3.nodes[0]?.map Pool.branch) = some [("a", 2)] ∧
      Pool.Close 1 t3 1 = .block t4 [] ∧
      (t4.nodes[1]?.map Pool.mutex) = some .waiting ∧
      (t4.nodes[1]?.map Pool.isClosed) = some true ∧
      (t4.nodes[0]?.map Pool.branch) = some [("a", 2)] ∧
      Pool.Write t4 1 [] = .block t4 [] ∧
      Pool.CloseLeave t4 1 (some 0) none = .block t5 [] ∧
      (t5.nodes[0]?.map Pool.branch) = some [] ∧
      (t5.nodes[2]?.map Pool.isClosed) = some false :=
  ⟨_, _, _, _, _, _, rfl, rfl, rfl, fun _ => rfl, rfl, rfl, rfl, rfl, rfl, rfl, rfl, rfl,
    rfl, rfl, rfl⟩

/-- C14 (closure reaches every descendant), evaluated on the root of `New(2, 2)` after
`New("a", 1)` was called on it twice: the mapping of the root holds only the second branch,
`Close` on the root blocks inside `close` of that branch, and in the state it leaves the
first branch and the root itself are still open.  `Write([9])` on the first branch returns
`(1, nil)` and takes a handle from the free queue; `Write` on the closed second branch does
not return. -/
theorem C14_descendant_left_open :
    ∃ s1 s2 s3 s4 s5,
      New 2 2 = .ret (some 0, none) s1 ∧
      Pool.New s1 0 "a" 1 = .ret (some 1, none) s2 ∧
      Pool.New s2 0 "a" 1 = .ret (some 2, none) s3 ∧
      (s3.nodes[0]?.map Pool.branch) = some [("a", 2)] ∧
      Pool.Close 2 s3 0 = .block s4 [] ∧
      (∀ fuel : Nat, Pool.Close (fuel + 2) s3 0 = .block s4 []) ∧
      (s4.nodes.map Pool.isClosed) = [false, false, true] ∧
      s4.storageChan = ⟨[⟨0, 2, 4⟩, ⟨2, 2, 2⟩], 2, false⟩ ∧
      Pool.Write s4 1 [9] = .ret (1, none) s5 ∧
      s5.storageChan = ⟨[⟨2, 2, 2⟩], 2, false⟩ ∧
      s5.records 1 = [[9]] ∧
      (∀ p : List Byte, Pool.Write s4 2 p = .block s4 []) :=
  ⟨_, _, _, _, _, rfl, rfl, rfl, rfl, rfl, fun _ => rfl, rfl, rfl, rfl, rfl, rfl,
    fun _ => rfl⟩

/-- C15 (handle length invariant), evaluated on the root of `New(2, 1)` with the branches
`a` and `b`: after `a.Write([1])` and `a.Close()`, whose drain loop sends the pending
record to the free queue as it is, the free queue of this reachable state holds a slice of
length `1`, not `2`; `b.Write([5, 6])` acquires it, returns `(1, nil)` and stores only the
byte `5`. -/
theorem C15_drained_handle_is_short :
    ∃ s1 s2 s3 s4 s5 s6,
      New 2 1 = .ret (some 0, none) s1 ∧
      Pool.New s1 0 "a" 1 = .ret (some 1, none) s2 ∧
      Pool.New s2 0 "b" 1 = .ret (some 2, none) s3 ∧
      Pool.Write s3 1 [1] = .ret (1, none) s4 ∧
      Pool.Close 1 s4 1 = .block s5 [] ∧
      Reach s1 s5 [] ∧
      s5.storageChan = ⟨[⟨0, 1, 2⟩], 1, false⟩ ∧
      (s5.nodes[2]?.map Pool.unitLength) = some 2 ∧
      Pool.Write s5 2 [5, 6] = .ret (1, none) s6 ∧
      s6.records 2 = [[5]] :=
  ⟨_, _, _, _, _, _, rfl, rfl, rfl, rfl, rfl,
    Reach.block (Call.Close 1 1) _ _ [] []
      (Reach.ret (Call.Write 1 [1]) _ _ []
        (Reach.ret (Call.New 0 "b" 1) _ _ []
          (Reach.ret (Call.New 0 "a" 1) _ _ [] Reach.init rfl) rfl) rfl) rfl,
    rfl, rfl, rfl, rfl⟩

/-- C16 (initial state of a root), with the size bounds of the allocator: for
`unitLength > 0` and `unitAmount > 0` whose arena of `unitLength * unitAmount` bytes and
whose queues of `unitAmount` entries have sizes that the allocator accepts,
`New(unitLength, unitAmount)` returns no error and a state with the one node `"root"`:
open, without parent, without branches, with an empty open pending queue of capacity
`unitAmount`.  The free queue is open, has capacity `unitAmount` and holds `unitAmount`
handles; the `i`-th starts at byte `i * unitLength` and has length `unitLength`; each lies
inside the arena, they are pairwise apart, every byte of the arena belongs to one of them,
and the arena is `unitLength * unitAmount` zero bytes. -/
theorem C16_initial_root (unitLength unitAmount : Int) (hL : 0 < unitLength)
    (hm : 0 < unitAmount) (hfit : unitLength * unitAmount ≤ maxAlloc)
    (hcf : 24 * unitAmount ≤ maxAlloc - 96) :
    ∃ s0 rt,
      New unitLength unitAmount = .ret (some 0, none) s0 ∧
      s0.nodes = [rt] ∧ rt.isClosed = false ∧ rt.name = "root" ∧ rt.parent = none ∧
      rt.branch = [] ∧ rt.unitLength = unitLength ∧ rt.unitAmount = unitAmount ∧
      rt.storageChanRead = ⟨[], unitAmount.toNat, false⟩ ∧
      s0.storageChan.cap = unitAmount.toNat ∧ s0.storageChan.closed = false ∧
      s0.storageChan.buf.length = unitAmount.toNat ∧
      (∀ i : Nat, i < unitAmount.toNat →
        ∃ u, s0.storageChan.buf[i]? = some u ∧ u.off = i * unitLength.toNat ∧
          u.len = unitLength.toNat ∧ u.off + u.len ≤ s0.mem.length) ∧
      s0.storageChan.buf.Pairwise Slice.Apart ∧
      (∀ j : Nat, j < s0.mem.length →
        ∃ u ∈ s0.storageChan.buf, u.off ≤ j ∧ j < u.off + u.len) ∧
      s0.mem = List.replicate (unitLength.toNat * unitAmount.toNat) 0 := by
  have hnew := New_ok unitLength unitAmount hL hm hfit hcf
  have hLN : unitLength = (unitLength.toNat : Int) := by omega
  have hmN : unitAmount = (unitAmount.toNat : Int) := by omega
  have hcapN : (unitLength * unitAmount).toNat = unitLength.toNat * unitAmount.toNat := by
    have hP : unitLength * unitAmount
        = ((unitLength.toNat * unitAmount.toNat : Nat) : Int) := by
      rw [Int.natCast_mul, ← hLN, ← hmN]
    rw [hP, Int.toNat_natCast]
  refine ⟨_, _, hnew, rfl, rfl, rfl, rfl, rfl, rfl, rfl, rfl, rfl, rfl, ?_, ?_, ?_, ?_, ?_⟩
  · exact units_length _ _
  · intro i hi
    refine ⟨_, units_getElem _ _ i hi, rfl, rfl, ?_⟩
    show i * unitLength.toNat + unitLength.toNat
      ≤ (List.replicate (unitLength * unitAmount).toNat 0).length
    rw [List.length_replicate, hcapN]
    exact (unit_in_arena _ _ i hi).1
  · exact units_apart _ _
  · intro j hj
    apply units_cover
    have hj1 : j < (List.replicate (unitLength * unitAmount).toNat 0).length := hj
    rw [List.length_replicate, hcapN] at hj1
    exact hj1
  · show List.replicate (unitLength * unitAmount).toNat 0 = _
    rw [hcapN]

/-- Counterexample to C16 as stated: `unitLength = 2 ^ 62` and `unitAmount = 1` are
positive and their product does not overflow, but `New` panics in `make([]byte, 2 ^ 62)`
(`makeslice: len out of range`); so does `New(1, 2 ^ 48)`, whose arena is accepted, in
`make(chan []byte, 2 ^ 48)`. -/
theorem C16_new_panics_on_huge_arena :
    (0 : Int) < 4611686018427387904 ∧ (0 : Int) < 1 ∧
      (4611686018427387904 : Int) * 1 < (2 : Int) ^ 63 ∧
      makeSlice 4611686018427387904 = none ∧
      New 4611686018427387904 1 = .panic ∧
      makeSlice 281474976710656 = some ⟨0, 281474976710656, 281474976710656⟩ ∧
      Chan.makeSized 281474976710656 = none ∧
      New 1 281474976710656 = .panic :=
  ⟨by decide, by decide, by decide, rfl, rfl, rfl, rfl, rfl⟩

/-- C17 (`Read` consumes exactly one record), evaluated on the root of `New(2, 1)`: `Close`
on the root blocks in the deferred `unlock` of `close`; the `lock` of a `Write` on the root
hands its value to that receive, so `Close` goes on (`CloseLeave`) to close the free queue.
`New("x", 1)` on the closed root returns an open branch; `x.Write([1, 2])` receives the
unit still buffered in the free queue and returns `(2, nil)`.  The node `x` is then open,
with unit length `2`, and the oldest record of its pending queue is `[1, 2]`; yet `Read(p)`
on `x` panics for every `p` in the send of line 55: it returns nothing and puts no handle
into the free queue. -/
theorem C17_read_panics_with_pending_record :
    ∃ s1 s2 s3 s4 s5,
      New 2 1 = .ret (some 0, none) s1 ∧
      Pool.Close 1 s1 0 = .block s2 [] ∧
      Pool.Write s2 0 [] = .block s2 [] ∧
      Pool.CloseLeave s2 0 none none = .ret none s3 ∧
      s3.storageChan = ⟨[⟨0, 2, 2⟩], 1, true⟩ ∧
      Pool.New s3 0 "x" 1 = .ret (some 1, none) s4 ∧
      Pool.Write s4 1 [1, 2] = .ret (2, none) s5 ∧
      s5.nodes[1]? = some ⟨.free, "x", some 0, [], 2, 1, 2, none, ⟨[⟨0, 2, 2⟩], 1, false⟩,
        false⟩ ∧
      s5.records 1 = [[1, 2]] ∧
      (∀ p : List Byte, Pool.Read s5 1 p = .panic) :=
  ⟨_, _, _, _, _, rfl, rfl, rfl, rfl, rfl, rfl, rfl, rfl, rfl, fun _ => rfl⟩

/-- C18 (lock balance), evaluated in a single-threaded run on the root of `New(2, 2)` with
a branch `a`, all locks free: `Close` on `a` sends once to the mutex of the root (line 118)
and once to the mutex of `a` (line 78), receives from the mutex of `a` at line 108 and
blocks in the second receive from it, the deferred `unlock`.  In the state it leaves the
lock of the root is still held, so `Write` on the root blocks on the lock.  The steps that
would follow (`CloseLeave`) send to the mutex of the root once more (line 128) instead of
receiving from it, and block there. -/
theorem C18_close_unbalanced :
    ∃ s1 s2 s3 s4,
      New 2 2 = .ret (some 0, none) s1 ∧
      Pool.New s1 0 "a" 1 = .ret (some 1, none) s2 ∧
      (s2.nodes.map Pool.mutex) = [.free, .free] ∧
      Pool.Close 1 s2 1 = .block s3 [] ∧
      (∀ fuel : Nat, Pool.Close (fuel + 1) s2 1 = .block s3 []) ∧
      (s3.nodes.map Pool.mutex) = [.held, .waiting] ∧
      (∀ p : List Byte, Pool.Write s3 0 p = .block s3 []) ∧
      Pool.CloseLeave s3 1 (some 0) none = .block s4 [] ∧
      (s4.nodes.map Pool.mutex) = [.held, .waiting] :=
  ⟨_, _, _, _, rfl, rfl, rfl, rfl, fun _ => rfl, rfl, fun _ => rfl, rfl, rfl⟩

/-- C19 (no runtime panic), evaluated on the root of `New(1, 1)`: `Close` on the root marks
it closed and blocks in the deferred `unlock` of `close`; the `lock` of a `Write` on the
root hands its value to that receive (the `Write` then blocks in its own deferred
`unlock`), so `close` returns `nil` and `Close` goes on (`CloseLeave`) to close the free
queue, which still buffers the handle, and returns `nil`.  `New("x", 1)` on the closed root
returns an open branch; `Write([1])` on it receives the buffered handle and returns
`(1, nil)`; the following `Read` sends the handle to the closed free queue and panics
(line 55). -/
theorem C19_read_panics_after_root_close :
    ∃ s3 s4 s5,
      New 1 1 = .ret (some 0, none) exRoot ∧
      Pool.Close 1 exRoot 0 = .block exRootStuck [] ∧
      Pool.Write exRootStuck 0 [] = .block exRootStuck [] ∧
      Pool.CloseLeave exRootStuck 0 none none = .ret none s3 ∧
      s3.storageChan = ⟨[⟨0, 1, 1⟩], 1, true⟩ ∧
      Pool.New s3 0 "x" 1 = .ret (some 1, none) s4 ∧
      Pool.Write s4 1 [1] = .ret (1, none) s5 ∧
      s5.records 1 = [[1]] ∧
      Pool.Read s5 1 [0] = .panic :=
  ⟨_, _, _, rfl, rfl, rfl, rfl, rfl, rfl, rfl, rfl, rfl⟩

/-! ## Witnesses of the claims on construction -/

/-- Witness of C12 on the root made by `New(2, 2)`: `New("a", 1)` returns a branch and
leaves the free queue as it was. -/
theorem C12_new_success_witness :
    ∃ s1 c, Pool.New exPool 0 "a" 1 = .ret (some c, none) s1 ∧
      s1.storageChan = exPool.storageChan :=
  match C12_new_success exPool 0 _ "a" 1 rfl (by decide) (by decide) with
  | ⟨s1, c, _, _, h1, _, _, _, _, _, _, _, _, _, h2, _⟩ => ⟨s1, c, h1, h2⟩

/-- Witness of C16 at `New(2, 2)`: the root and its two units. -/
theorem C16_initial_root_witness :
    ∃ s0 rt, New 2 2 = .ret (some 0, none) s0 ∧ s0.nodes = [rt] ∧ rt.isClosed = false ∧
      s0.storageChan.buf.length = 2 :=
  match C16_initial_root 2 2 (by decide) (by decide) (by decide) (by decide) with
  | ⟨s0, rt, h1, h2, h3, _, _, _, _, _, _, _, _, h4, _⟩ => ⟨s0, rt, h1, h2, h3, h4⟩

end Poolio
